import Mathlib

/-!
Verification of the pygplib symbolic compilation pipeline
(first-order graph properties to CNF), shallowly embedded from
the Python sources in src/pygplib.

Conventions of the embedding:
* the process-wide name registry (name.py, class NameMgr) is the list
  of registered names, threaded explicitly; the index of a symbol is
  its 1-based position in the list;
* hash-consed formula objects (absexpr.py) are represented by inductive
  trees: two build requests with the same tag, operands and aux tuple
  return the same object in the source, so object identity coincides
  with structural equality of the trees;
* methods that raise exceptions are embedded as Option- or
  Except-valued functions.
-/

namespace Pygplib

/-- Name registry state: NameMgr._inv_list (name.py).
The dictionary NameMgr._dict maps a name to its 1-based position. -/
abbrev NameMgr := List String

/-- NameMgr.has_name (name.py): 0 < index <= len(_inv_list). -/
def NameMgr.has_name (nm : NameMgr) (i : Nat) : Prop :=
  0 < i ∧ i ≤ nm.length

instance (nm : NameMgr) (i : Nat) : Decidable (NameMgr.has_name nm i) := by
  unfold NameMgr.has_name; infer_instance

/-- NameMgr.lookup_name (name.py): _inv_list[index - 1]
(total here; callers guard with has_name as the source raises
IndexError otherwise). -/
def NameMgr.lookup_name (nm : NameMgr) (i : Nat) : String :=
  (nm.get? (i - 1)).getD ""

/-- First character of a name, as the Python name[:1] slice
(the empty string for the empty name). -/
def headChar (s : String) : Option Char :=
  s.data.head?

/-- Python name[:1].islower() for ASCII names. -/
def isLowerHead (s : String) : Bool :=
  match headChar s with
  | some c => c.isLower
  | none => false

/-- Python name[:1].isupper() for ASCII names. -/
def isUpperHead (s : String) : Bool :=
  match headChar s with
  | some c => c.isUpper
  | none => false

/-- Python name[:1].isalpha() for ASCII names. -/
def isAlphaHead (s : String) : Bool :=
  match headChar s with
  | some c => c.isAlpha
  | none => false

/-- NameMgr.is_variable (name.py): leading character lowercase or "_". -/
def NameMgr.is_variable (nm : NameMgr) (i : Nat) : Bool :=
  isLowerHead (nm.lookup_name i) || headChar (nm.lookup_name i) = some '_'

/-- NameMgr.is_constant (name.py): leading character uppercase. -/
def NameMgr.is_constant (nm : NameMgr) (i : Nat) : Bool :=
  isUpperHead (nm.lookup_name i)

/-- NameMgr.lookup_index (name.py): find the index of a name,
registering the name when new; fails when the leading character is
not alphabetic (reserved "_"-names are found only if already
registered). Returns the index and the updated registry. -/
def NameMgr.lookup_index (nm : NameMgr) (name : String) :
    Except String (Nat × NameMgr) :=
  if headChar name = some '_' ∧ name ∈ nm then
    .ok (nm.indexOf name + 1, nm)
  else if ¬ isAlphaHead name then
    .error "Leading character must be alphabetic."
  else if name ∈ nm then
    .ok (nm.indexOf name + 1, nm)
  else
    .ok (nm.length + 1, nm ++ [name])

/-- NameMgr.get_aux_index (name.py): register a fresh reserved
auxiliary name "_k" where k = len(_inv_list) + 1. -/
def NameMgr.get_aux_index (nm : NameMgr) : Nat × NameMgr :=
  (nm.length + 1, nm ++ ["_" ++ toString (nm.length + 1)])

/-- First-order formulas of graphs: the hash-consed expression DAG of
class Fog (fog.py), with atoms T, F, edg, =, < (fog.py, absneg.py),
the connectives of absprop.py and the quantifiers of absfo.py.
Structural equality of these trees is object identity in the source
(absexpr.py AbsExpr.__new__ interns each node). -/
inductive Fog : Type where
  | tru : Fog
  | fls : Fog
  | edga (x y : Nat) : Fog
  | eqa (x y : Nat) : Fog
  | lta (x y : Nat) : Fog
  | neg (f : Fog) : Fog
  | land (f g : Fog) : Fog
  | lor (f g : Fog) : Fog
  | impl (f g : Fog) : Fog
  | iff (f g : Fog) : Fog
  | fall (x : Nat) (f : Fog) : Fog
  | exis (x : Nat) (f : Fog) : Fog
deriving DecidableEq, Repr

/-- Python's lexicographic order on strings (by code point), on the
underlying character lists. -/
def strLtb : List Char → List Char → Bool
  | _, [] => false
  | [], _ :: _ => true
  | a :: as, b :: bs =>
    a.toNat < b.toNat || (a.toNat = b.toNat && strLtb as bs)

namespace Fog

/-- Fog.cmp_atom_args (fog.py): comparison of two symbol indices by
their registered names (Python string order). -/
def cmp_atom_args_lt (nm : NameMgr) (x y : Nat) : Bool :=
  strLtb (nm.lookup_name x).data (nm.lookup_name y).data

/-- Fog._normalize_aux (fog.py) on a two-element aux tuple of a
symmetric relation: Python's stable sort of (x, y) by name swaps the
pair exactly when the name of y precedes the name of x. -/
def normalizePair (nm : NameMgr) (x y : Nat) : Nat × Nat :=
  if cmp_atom_args_lt nm y x then (y, x) else (x, y)

/-- Fog.eq (fog.py): the atom x = y; the aux pair is normalized by
name order before interning (fog.py _normalize_aux together with
absexpr.py AbsExpr.__new__); fails when an index has no name. -/
def eq (nm : NameMgr) (x y : Nat) : Option Fog :=
  if nm.has_name x ∧ nm.has_name y then
    some (eqa (normalizePair nm x y).1 (normalizePair nm x y).2)
  else none

/-- Fog.edg (fog.py): the atom edg(x, y), normalized like eq. -/
def edg (nm : NameMgr) (x y : Nat) : Option Fog :=
  if nm.has_name x ∧ nm.has_name y then
    some (edga (normalizePair nm x y).1 (normalizePair nm x y).2)
  else none

/-- Fog.lt (fog.py): the atom x < y; _normalize_aux does not sort the
aux pair of the non-symmetric relation. -/
def lt (nm : NameMgr) (x y : Nat) : Option Fog :=
  if nm.has_name x ∧ nm.has_name y then some (lta x y) else none

/-- AbsExpr.is_atom via the _ATOM_TAGS of Fog (fog.py, absneg.py):
T, F, edg, =, <. -/
def is_atom : Fog → Bool
  | tru | fls | edga _ _ | eqa _ _ | lta _ _ => true
  | _ => false

/-- op.compute_nnf (op.py): negation normal form.  The work-stack
machine of compute_nnf pops each pending pair (negated, g) and lets
g.compute_nnf_step (absneg.py, absprop.py, absfo.py, fog.py) push an
output constructor and the pending operands; the result built by
_build_formula_posfix is exactly this recursion.  Atoms stay (under a
single negation when negated); not not f = f; De Morgan for and/or;
f -> g becomes not f or g (negated: f and not g).  For f <-> g the
step pushes the two implications implies(f, g) and implies(g, f)
(negated) onto the work stack; the machine then applies the implies
step to each, so the iff case below is the composition of the two
steps. -/
def nnf (negated : Bool) : Fog → Fog
  | tru => if negated then neg tru else tru
  | fls => if negated then neg fls else fls
  | edga x y => if negated then neg (edga x y) else edga x y
  | eqa x y => if negated then neg (eqa x y) else eqa x y
  | lta x y => if negated then neg (lta x y) else lta x y
  | neg f => nnf (!negated) f
  | land f g =>
    if negated then lor (nnf true f) (nnf true g)
    else land (nnf false f) (nnf false g)
  | lor f g =>
    if negated then land (nnf true f) (nnf true g)
    else lor (nnf false f) (nnf false g)
  | impl f g =>
    if negated then land (nnf false f) (nnf true g)
    else lor (nnf true f) (nnf false g)
  | iff f g =>
    if negated then
      lor (land (nnf false f) (nnf true g)) (land (nnf false g) (nnf true f))
    else
      land (lor (nnf true f) (nnf false g)) (lor (nnf true g) (nnf false f))
  | fall x f =>
    if negated then exis x (nnf negated f) else fall x (nnf negated f)
  | exis x f =>
    if negated then fall x (nnf negated f) else exis x (nnf negated f)

/-- op.compute_nnf entry point: the whole formula is processed with
the negated flag initially False. -/
def compute_nnf (f : Fog) : Fog := nnf false f

/-- No implies node and no iff node occurs in the formula. -/
def noImplIff : Fog → Bool
  | tru | fls | edga _ _ | eqa _ _ | lta _ _ => true
  | neg f => noImplIff f
  | land f g => noImplIff f && noImplIff g
  | lor f g => noImplIff f && noImplIff g
  | impl _ _ => false
  | iff _ _ => false
  | fall _ f => noImplIff f
  | exis _ f => noImplIff f

/-- Every negation node has an atom as its operand. -/
def negOnlyAboveAtoms : Fog → Bool
  | tru | fls | edga _ _ | eqa _ _ | lta _ _ => true
  | neg f => is_atom f
  | land f g => negOnlyAboveAtoms f && negOnlyAboveAtoms g
  | lor f g => negOnlyAboveAtoms f && negOnlyAboveAtoms g
  | impl f g => negOnlyAboveAtoms f && negOnlyAboveAtoms g
  | iff f g => negOnlyAboveAtoms f && negOnlyAboveAtoms g
  | fall _ f => negOnlyAboveAtoms f
  | exis _ f => negOnlyAboveAtoms f

/-- No quantifier occurs in the formula (AbsFo.is_qf tags never
appear). -/
def is_qf_free : Fog → Bool
  | tru | fls | edga _ _ | eqa _ _ | lta _ _ => true
  | neg f => is_qf_free f
  | land f g => is_qf_free f && is_qf_free g
  | lor f g => is_qf_free f && is_qf_free g
  | impl f g => is_qf_free f && is_qf_free g
  | iff f g => is_qf_free f && is_qf_free g
  | fall _ _ => false
  | exis _ _ => false

/-- AbsProp.binop (absprop.py): dispatch on the _BINOP_TAGS strings;
a tag outside the table raises ValueError. -/
def binop (tag : String) (l r : Fog) : Except String Fog :=
  if tag = "&" then .ok (land l r)
  else if tag = "|" then .ok (lor l r)
  else if tag = "->" then .ok (impl l r)
  else if tag = "<->" then .ok (iff l r)
  else .error "Expression tag is not available"

/-- The conjunction or disjunction of two operands; only called with
tag "&" or "|", where AbsProp.binop cannot fail. -/
def binop2 (tag : String) (l r : Fog) : Fog :=
  if tag = "&" then land l r else lor l r

/-- binop_batch_rec (absprop.py): fold a segment by halving; the
segment of length n splits into its first n / 2 elements and the rest
(mid = (begin + end) // 2, so the left part has (end - begin) // 2
elements). -/
def binop_batch_rec (tag : String) (l : List Fog) : Fog :=
  match l with
  | [] => tru
  | [f] => f
  | [f, g] => binop2 tag f g
  | a :: b :: c :: rest =>
    binop2 tag
      (binop_batch_rec tag
        ((a :: b :: c :: rest).take ((a :: b :: c :: rest).length / 2)))
      (binop_batch_rec tag
        ((a :: b :: c :: rest).drop ((a :: b :: c :: rest).length / 2)))
termination_by l.length
decreasing_by
  · simp only [List.length_take, List.length_cons]
    omega
  · simp only [List.length_drop, List.length_cons]
    omega

/-- AbsProp.binop_batch (absprop.py): fold a list of operands into a
binary tree, either by balanced halving (when the bipartite_order
module flag is on; the method reads the flag as partitioning_order)
or left-associatively by functools.reduce; raises when the tag is not
AND or OR, or when the list is empty. -/
def binop_batch (flag : Bool) (tag : String) (li : List Fog) :
    Except String Fog :=
  if ¬ (tag = "&" ∨ tag = "|") then
    .error "Operation cannot be done in batch."
  else
    match li with
    | [] => .error "Expression list is empty."
    | f :: fs =>
      .ok (if flag then binop_batch_rec tag (f :: fs)
           else fs.foldl (binop2 tag) f)

/-- The recursive content of op.substitute (op.py): replace every
free occurrence of symbol x by y.  The traversal keeps a bind-depth
counter for x and rewrites only at depth zero, so a quantifier whose
bound variable is x returns itself unchanged; atoms rebuild through
Fog.atom, which re-normalizes the argument order of the symmetric
relations (fog.py substitute_step, absfo.py substitute_step). -/
def substitute_core (nm : NameMgr) (y x : Nat) : Fog → Fog
  | tru => tru
  | fls => fls
  | edga a b =>
    edga (normalizePair nm (if a = x then y else a)
            (if b = x then y else b)).1
         (normalizePair nm (if a = x then y else a)
            (if b = x then y else b)).2
  | eqa a b =>
    eqa (normalizePair nm (if a = x then y else a)
           (if b = x then y else b)).1
        (normalizePair nm (if a = x then y else a)
           (if b = x then y else b)).2
  | lta a b => lta (if a = x then y else a) (if b = x then y else b)
  | neg f => neg (substitute_core nm y x f)
  | land f g => land (substitute_core nm y x f) (substitute_core nm y x g)
  | lor f g => lor (substitute_core nm y x f) (substitute_core nm y x g)
  | impl f g => impl (substitute_core nm y x f) (substitute_core nm y x g)
  | iff f g => iff (substitute_core nm y x f) (substitute_core nm y x g)
  | fall b f =>
    if b = x then fall b f else fall b (substitute_core nm y x f)
  | exis b f =>
    if b = x then exis b f else exis b (substitute_core nm y x f)

/-- op.substitute (op.py): rejects indices without a registered name,
then substitutes y for the free occurrences of x. -/
def substitute (nm : NameMgr) (expr : Fog) (y x : Nat) :
    Except String Fog :=
  if ¬ nm.has_name y then .error "No name of index y"
  else if ¬ nm.has_name x then .error "No name of index x"
  else .ok (substitute_core nm y x expr)

/-- The list comprehension [substitute(g, d, bvar) for d in dom] of
op._eliminate_qf_step: the substitutions are evaluated left to right
and the first failure propagates. -/
def substList (nm : NameMgr) (g : Fog) (x : Nat) :
    List Nat → Except String (List Fog)
  | [] => .ok []
  | d :: ds => do
    let r ← substitute nm g d x
    let rs ← substList nm g x ds
    pure (r :: rs)

/-- op._eliminate_qf_step (op.py) as a bottom-up recursion over the
formula: each quantifier is replaced, after its body has been
processed, by the batch conjunction (forall) or disjunction (exists)
of the body with each domain constant substituted for the bound
variable. -/
def eliminate_qf_core (nm : NameMgr) (flag : Bool) (dom : List Nat) :
    Fog → Except String Fog
  | neg f => do
    let g ← eliminate_qf_core nm flag dom f
    pure (neg g)
  | tru => .ok tru
  | fls => .ok fls
  | land f g => do
    let l ← eliminate_qf_core nm flag dom f
    let r ← eliminate_qf_core nm flag dom g
    binop "&" l r
  | lor f g => do
    let l ← eliminate_qf_core nm flag dom f
    let r ← eliminate_qf_core nm flag dom g
    binop "|" l r
  | impl f g => do
    let l ← eliminate_qf_core nm flag dom f
    let r ← eliminate_qf_core nm flag dom g
    binop "->" l r
  | iff f g => do
    let l ← eliminate_qf_core nm flag dom f
    let r ← eliminate_qf_core nm flag dom g
    binop "<->" l r
  | fall x f => do
    let g ← eliminate_qf_core nm flag dom f
    let li ← substList nm g x dom
    binop_batch flag "&" li
  | exis x f => do
    let g ← eliminate_qf_core nm flag dom f
    let li ← substList nm g x dom
    binop_batch flag "|" li
  | edga a b => .ok (edga a b)
  | eqa a b => .ok (eqa a b)
  | lta a b => .ok (lta a b)

/-- op.eliminate_qf (op.py): raises when no relational structure is
given; otherwise expands the quantifiers over the structure's domain
tuple. -/
def eliminate_qf (nm : NameMgr) (flag : Bool) (st : Option (List Nat))
    (f : Fog) : Except String Fog :=
  match st with
  | none => .error "Set relational structure"
  | some dom => eliminate_qf_core nm flag dom f

/-- AbsFo.qf (absfo.py): build the tag-specified quantifier (the
generic constructor checks only the tag, not the bound variable). -/
def qf (tag : String) (f : Fog) (bvar : Nat) : Option Fog :=
  if tag = "!" then some (fall bvar f)
  else if tag = "?" then some (exis bvar f)
  else none

end Fog

/-! ### Printing (op.to_str) and parsing (Fog.read) -/

/-- pyparsing's default skippable whitespace. -/
def isWs (c : Char) : Bool :=
  c = ' ' || c = '\t' || c = '\n' || c = '\r'

/-- Skip leading whitespace (pyparsing skips it before every
terminal). -/
def dropWs (s : List Char) : List Char :=
  s.dropWhile isWs

/-- The body characters of a variable name: srange "[a-z0-9_]". -/
def varBody (c : Char) : Bool :=
  c.isLower || c.isDigit || c = '_'

/-- The body characters of a constant name: srange "[A-Z0-9_]". -/
def conBody (c : Char) : Bool :=
  c.isUpper || c.isDigit || c = '_'

/-- A well-formed variable name: Word(srange "[a-z]",
srange "[a-z0-9_]") of fog.py's grammar. -/
def validVarName (s : String) : Bool :=
  match s.data with
  | [] => false
  | c :: cs => c.isLower && cs.all varBody

/-- A well-formed constant name: Word(srange "[A-Z]",
srange "[A-Z0-9_]"). -/
def validConName (s : String) : Bool :=
  match s.data with
  | [] => false
  | c :: cs => c.isUpper && cs.all conBody

/-- A name of the surface syntax: a variable or constant name. -/
def validName (s : String) : Bool :=
  validVarName s || validConName s

namespace Fog

/-- The characters printed for a symbol: its registered name. -/
def printName (nm : NameMgr) (i : Nat) : List Char :=
  (nm.lookup_name i).data

/-- op.to_str (op.py): the concatenation, over the prefix / infix /
postfix visits of the traversal, of the make_str_pre_step,
make_str_in_step and make_str_post_step strings of every node
(absneg.py, absprop.py, absfo.py, fog.py). -/
def printFog (nm : NameMgr) : Fog → List Char
  | tru => ['T']
  | fls => ['F']
  | edga a b =>
    "edg(".data ++ printName nm a ++ ", ".data ++ printName nm b ++ [')']
  | eqa a b => printName nm a ++ " = ".data ++ printName nm b
  | lta a b => printName nm a ++ " < ".data ++ printName nm b
  | neg f => "(~ ".data ++ printFog nm f ++ [')']
  | land f g =>
    ['('] ++ printFog nm f ++ " & ".data ++ printFog nm g ++ [')']
  | lor f g =>
    ['('] ++ printFog nm f ++ " | ".data ++ printFog nm g ++ [')']
  | impl f g =>
    ['('] ++ printFog nm f ++ " -> ".data ++ printFog nm g ++ [')']
  | iff f g =>
    ['('] ++ printFog nm f ++ " <-> ".data ++ printFog nm g ++ [')']
  | fall x f =>
    "(! [".data ++ printName nm x ++ "] : ".data ++ printFog nm f ++ [')']
  | exis x f =>
    "(? [".data ++ printName nm x ++ "] : ".data ++ printFog nm f ++ [')']

/-- op.to_str as a string. -/
def to_str (nm : NameMgr) (f : Fog) : String :=
  ⟨printFog nm f⟩

/-- Match a literal token after skipping whitespace (pyparsing
Literal). -/
def parseLit (tok : List Char) (s : List Char) : Option (List Char) :=
  let s1 := dropWs s
  if tok.isPrefixOf s1 then some (s1.drop tok.length) else none

/-- Match a pyparsing Word(head set, body set) after skipping
whitespace: one head character followed by the maximal run of body
characters. -/
def parseWord (hd : Char → Bool) (body : Char → Bool) (s : List Char) :
    Option (String × List Char) :=
  match dropWs s with
  | [] => none
  | c :: cs =>
    if hd c then some (⟨c :: cs.takeWhile body⟩, cs.dropWhile body)
    else none

/-- The TERM production: a variable symbol or a constant symbol, with
the parse actions calling NameMgr.lookup_index.  (In the source the
registrations made inside a backtracked alternative persist in the
process-wide registry; this embedding rolls them back, which yields
the same parsed formula.) -/
def parseTerm (nm : NameMgr) (s : List Char) :
    Option (Nat × NameMgr × List Char) :=
  match parseWord Char.isLower varBody s with
  | some (w, s1) =>
    match nm.lookup_index w with
    | .ok (i, nm1) => some (i, nm1, s1)
    | .error _ => none
  | none =>
    match parseWord Char.isUpper conBody s with
    | some (w, s1) =>
      match nm.lookup_index w with
      | .ok (i, nm1) => some (i, nm1, s1)
      | .error _ => none
    | none => none

/-- The EDG_REL production: "edg" "(" term "," term ")" with the
action building Fog.edg. -/
def parseEdg (nm : NameMgr) (s : List Char) :
    Option (Fog × NameMgr × List Char) := do
  let s1 ← parseLit "edg".data s
  let s2 ← parseLit ['('] s1
  let (a, nm1, s3) ← parseTerm nm s2
  let s4 ← parseLit [','] s3
  let (b, nm2, s5) ← parseTerm nm1 s4
  let s6 ← parseLit [')'] s5
  let f ← Fog.edg nm2 a b
  pure (f, nm2, s6)

/-- The LT_REL production: term "<" term building Fog.lt. -/
def parseLtRel (nm : NameMgr) (s : List Char) :
    Option (Fog × NameMgr × List Char) := do
  let (a, nm1, s1) ← parseTerm nm s
  let s2 ← parseLit ['<'] s1
  let (b, nm2, s3) ← parseTerm nm1 s2
  let f ← Fog.lt nm2 a b
  pure (f, nm2, s3)

/-- The EQ_REL production: term "=" term building Fog.eq. -/
def parseEqRel (nm : NameMgr) (s : List Char) :
    Option (Fog × NameMgr × List Char) := do
  let (a, nm1, s1) ← parseTerm nm s
  let s2 ← parseLit ['='] s1
  let (b, nm2, s3) ← parseTerm nm1 s2
  let f ← Fog.eq nm2 a b
  pure (f, nm2, s3)

/-- The CON_REL production: "T" | "F". -/
def parseCon (nm : NameMgr) (s : List Char) :
    Option (Fog × NameMgr × List Char) :=
  match parseLit ['T'] s with
  | some s1 => some (tru, nm, s1)
  | none =>
    match parseLit ['F'] s with
    | some s1 => some (fls, nm, s1)
    | none => none

/-- ATOM_EXPR = EDG_REL | LT_REL | EQ_REL | CON_REL (fog.py), a
MatchFirst with backtracking. -/
def parseAtom (nm : NameMgr) (s : List Char) :
    Option (Fog × NameMgr × List Char) :=
  match parseEdg nm s with
  | some r => some r
  | none =>
    match parseLtRel nm s with
    | some r => some r
    | none =>
      match parseEqRel nm s with
      | some r => some r
      | none => parseCon nm s

/-- QFOP = ("!" | "?") "[" var "]" ":" (fog.py). -/
def parseQfop (nm : NameMgr) (s : List Char) :
    Option (String × Nat × NameMgr × List Char) := do
  let (tag, s1) ←
    match parseLit ['!'] s with
    | some s1 => some (("!" : String), s1)
    | none =>
      match parseLit ['?'] s with
      | some s1 => some (("?" : String), s1)
      | none => none
  let s2 ← parseLit ['['] s1
  let (w, s3) ← parseWord Char.isLower varBody s2
  let (v, nm1) ←
    match nm.lookup_index w with
    | .ok r => some r
    | .error _ => none
  let s4 ← parseLit [']'] s3
  let s5 ← parseLit [':'] s4
  pure (tag, v, nm1, s5)

/-! The precedence-climbing parser of Fog.read (fog.py): pyparsing's
infix_notation over ATOM_EXPR with, from tightest to loosest, the
quantifier prefix (right), "~" (right), "&" (left, batch action),
"|" (left, batch action), "->" (left), "<->" (left); the primary
expression is an atom or a parenthesized full expression.  The
source's recursive-descent machine has no explicit bound; here every
level takes a fuel argument and decrements it on entry, and Fog.read
passes an initial fuel large enough for every parse the source can
perform on the input (each unit of consumed input supports a bounded
number of descent steps). -/

mutual

def parsePrimary (flag : Bool) (fuel : Nat) (nm : NameMgr)
    (s : List Char) : Option (Fog × NameMgr × List Char) :=
  match fuel with
  | 0 => none
  | fuel + 1 =>
    match parseAtom nm s with
    | some r => some r
    | none =>
      match parseLit ['('] s with
      | none => none
      | some s1 =>
        match parseIff flag fuel nm s1 with
        | none => none
        | some (f, nm1, s2) =>
          match parseLit [')'] s2 with
          | none => none
          | some s3 => some (f, nm1, s3)

def parseQuant (flag : Bool) (fuel : Nat) (nm : NameMgr)
    (s : List Char) : Option (Fog × NameMgr × List Char) :=
  match fuel with
  | 0 => none
  | fuel + 1 =>
    match parseQfop nm s with
    | some (tag, v, nm1, s1) =>
      (match parseQuant flag fuel nm1 s1 with
       | none => none
       | some (f, nm2, s2) =>
         match Fog.qf tag f v with
         | none => none
         | some g => some (g, nm2, s2))
    | none => parsePrimary flag fuel nm s

def parseNeg (flag : Bool) (fuel : Nat) (nm : NameMgr)
    (s : List Char) : Option (Fog × NameMgr × List Char) :=
  match fuel with
  | 0 => none
  | fuel + 1 =>
    match parseLit ['~'] s with
    | some s1 =>
      (match parseNeg flag fuel nm s1 with
       | none => none
       | some (f, nm1, s2) => some (neg f, nm1, s2))
    | none => parseQuant flag fuel nm s

def parseAndRest (flag : Bool) (fuel : Nat) (nm : NameMgr)
    (s : List Char) : Option (List Fog × NameMgr × List Char) :=
  match fuel with
  | 0 => none
  | fuel + 1 =>
    match parseLit ['&'] s with
    | none => some ([], nm, s)
    | some s1 =>
      match parseNeg flag fuel nm s1 with
      | none => none
      | some (f, nm1, s2) =>
        match parseAndRest flag fuel nm1 s2 with
        | none => none
        | some (fs, nm2, s3) => some (f :: fs, nm2, s3)

def parseAnd (flag : Bool) (fuel : Nat) (nm : NameMgr)
    (s : List Char) : Option (Fog × NameMgr × List Char) :=
  match fuel with
  | 0 => none
  | fuel + 1 =>
    match parseNeg flag fuel nm s with
    | none => none
    | some (l, nm1, s1) =>
      match parseAndRest flag fuel nm1 s1 with
      | none => none
      | some (fs, nm2, s2) =>
        match fs with
        | [] => some (l, nm2, s2)
        | _ =>
          match binop_batch flag "&" (l :: fs) with
          | .ok g => some (g, nm2, s2)
          | .error _ => none

def parseOrRest (flag : Bool) (fuel : Nat) (nm : NameMgr)
    (s : List Char) : Option (List Fog × NameMgr × List Char) :=
  match fuel with
  | 0 => none
  | fuel + 1 =>
    match parseLit ['|'] s with
    | none => some ([], nm, s)
    | some s1 =>
      match parseAnd flag fuel nm s1 with
      | none => none
      | some (f, nm1, s2) =>
        match parseOrRest flag fuel nm1 s2 with
        | none => none
        | some (fs, nm2, s3) => some (f :: fs, nm2, s3)

def parseOr (flag : Bool) (fuel : Nat) (nm : NameMgr)
    (s : List Char) : Option (Fog × NameMgr × List Char) :=
  match fuel with
  | 0 => none
  | fuel + 1 =>
    match parseAnd flag fuel nm s with
    | none => none
    | some (l, nm1, s1) =>
      match parseOrRest flag fuel nm1 s1 with
      | none => none
      | some (fs, nm2, s2) =>
        match fs with
        | [] => some (l, nm2, s2)
        | _ =>
          match binop_batch flag "|" (l :: fs) with
          | .ok g => some (g, nm2, s2)
          | .error _ => none

def parseImpRest (flag : Bool) (fuel : Nat) (nm : NameMgr)
    (s : List Char) : Option (List Fog × NameMgr × List Char) :=
  match fuel with
  | 0 => none
  | fuel + 1 =>
    match parseLit "->".data s with
    | none => some ([], nm, s)
    | some s1 =>
      match parseOr flag fuel nm s1 with
      | none => none
      | some (f, nm1, s2) =>
        match parseImpRest flag fuel nm1 s2 with
        | none => none
        | some (fs, nm2, s3) => some (f :: fs, nm2, s3)

def parseImp (flag : Bool) (fuel : Nat) (nm : NameMgr)
    (s : List Char) : Option (Fog × NameMgr × List Char) :=
  match fuel with
  | 0 => none
  | fuel + 1 =>
    match parseOr flag fuel nm s with
    | none => none
    | some (l, nm1, s1) =>
      match parseImpRest flag fuel nm1 s1 with
      | none => none
      | some (fs, nm2, s2) => some (fs.foldl impl l, nm2, s2)

def parseIffRest (flag : Bool) (fuel : Nat) (nm : NameMgr)
    (s : List Char) : Option (List Fog × NameMgr × List Char) :=
  match fuel with
  | 0 => none
  | fuel + 1 =>
    match parseLit "<->".data s with
    | none => some ([], nm, s)
    | some s1 =>
      match parseImp flag fuel nm s1 with
      | none => none
      | some (f, nm1, s2) =>
        match parseIffRest flag fuel nm1 s2 with
        | none => none
        | some (fs, nm2, s3) => some (f :: fs, nm2, s3)

def parseIff (flag : Bool) (fuel : Nat) (nm : NameMgr)
    (s : List Char) : Option (Fog × NameMgr × List Char) :=
  match fuel with
  | 0 => none
  | fuel + 1 =>
    match parseImp flag fuel nm s with
    | none => none
    | some (l, nm1, s1) =>
      match parseIffRest flag fuel nm1 s1 with
      | none => none
      | some (fs, nm2, s2) => some (fs.foldl iff l, nm2, s2)

end

/-- A sufficient amount of parser fuel for parsePrimary on a printed
formula: one unit for each of the bounded number of descent steps a
node needs. -/
def parseCost : Fog → Nat
  | tru | fls | edga _ _ | eqa _ _ | lta _ _ => 1
  | neg f => parseCost f + 8
  | land f g => max (parseCost f) (parseCost g) + 8
  | lor f g => max (parseCost f) (parseCost g) + 8
  | impl f g => max (parseCost f) (parseCost g) + 8
  | iff f g => max (parseCost f) (parseCost g) + 8
  | fall _ f => parseCost f + 8
  | exis _ f => parseCost f + 8

/-- Is a registered symbol printable and re-readable: registered,
with a name of the surface lexical syntax. -/
def wfSymb (nm : NameMgr) (i : Nat) : Bool :=
  decide (nm.has_name i) && validName (nm.lookup_name i)

/-- A well-formed formula for the parser round-trip: every symbol is
registered under a surface-syntax name, the symmetric atoms are in
the normalized argument order produced by the Fog constructors, and
every bound variable carries a variable name. -/
def wellFormed (nm : NameMgr) : Fog → Bool
  | tru => true
  | fls => true
  | edga a b =>
    wfSymb nm a && wfSymb nm b && (normalizePair nm a b == (a, b))
  | eqa a b =>
    wfSymb nm a && wfSymb nm b && (normalizePair nm a b == (a, b))
  | lta a b => wfSymb nm a && wfSymb nm b
  | neg f => wellFormed nm f
  | land f g => wellFormed nm f && wellFormed nm g
  | lor f g => wellFormed nm f && wellFormed nm g
  | impl f g => wellFormed nm f && wellFormed nm g
  | iff f g => wellFormed nm f && wellFormed nm g
  | fall x f =>
    decide (nm.has_name x) && validVarName (nm.lookup_name x) &&
      wellFormed nm f
  | exis x f =>
    decide (nm.has_name x) && validVarName (nm.lookup_name x) &&
      wellFormed nm f

/-- The continuations that can follow a printed subformula during a
parse of a whole printed formula: the end of the input, a closing
parenthesis, or one of the four infix operator separators. -/
def goodRest (rest : List Char) : Prop :=
  rest = [] ∨ (∃ r, rest = ')' :: r) ∨
  (∃ r, rest = ' ' :: '&' :: ' ' :: r) ∨
  (∃ r, rest = ' ' :: '|' :: ' ' :: r) ∨
  (∃ r, rest = ' ' :: '-' :: '>' :: ' ' :: r) ∨
  (∃ r, rest = ' ' :: '<' :: '-' :: '>' :: ' ' :: r)

/-- Fog.read (fog.py): reject a blank string, run the
infix_notation grammar with parse_all=True (only trailing whitespace
may remain), and return the parsed formula. -/
def read (flag : Bool) (nm : NameMgr) (s : String) : Option Fog :=
  if s.data.all isWs then none
  else
    match parseIff flag (8 * (s.data.length + 1)) nm s.data with
    | some (f, _, rest) => if dropWs rest = [] then some f else none
    | none => none

end Fog

/-! ### Propositional formulas (prop.py, absprop.py, absneg.py) -/

/-- Propositional formulas: the hash-consed expression DAG of class
Prop (prop.py), with atoms T, F and Boolean variables, negation and
the binary connectives. -/
inductive PropForm : Type where
  | tru : PropForm
  | fls : PropForm
  | var (i : Nat) : PropForm
  | neg (f : PropForm) : PropForm
  | land (f g : PropForm) : PropForm
  | lor (f g : PropForm) : PropForm
  | impl (f g : PropForm) : PropForm
  | iff (f g : PropForm) : PropForm
deriving DecidableEq, Repr

namespace PropForm

/-- op.compute_nnf on Prop formulas (op.py with the compute_nnf_step
methods of absneg.py, absprop.py and prop.py); as for Fog, the iff
case composes the iff step (which pushes the two implications) with
the implies step applied to each. -/
def nnf (negated : Bool) : PropForm → PropForm
  | tru => if negated then neg tru else tru
  | fls => if negated then neg fls else fls
  | var i => if negated then neg (var i) else var i
  | neg f => nnf (!negated) f
  | land f g =>
    if negated then lor (nnf true f) (nnf true g)
    else land (nnf false f) (nnf false g)
  | lor f g =>
    if negated then land (nnf true f) (nnf true g)
    else lor (nnf false f) (nnf false g)
  | impl f g =>
    if negated then land (nnf false f) (nnf true g)
    else lor (nnf true f) (nnf false g)
  | iff f g =>
    if negated then
      lor (land (nnf false f) (nnf true g)) (land (nnf false g) (nnf true f))
    else
      land (lor (nnf true f) (nnf false g)) (lor (nnf true g) (nnf false f))

/-- The bottom-up simplification pass of op.reduce_formula: each node
is replaced, after its operands, by the result of its
reduce_formula_step (absneg.py reduce_step for negation and the
constants, absprop.py reduce_formula_step for the connectives,
prop.py reduce_step for variables); the source applies the same pure
step once per shared node, which coincides with this recursion. -/
def reduce_core : PropForm → PropForm
  | tru => tru
  | fls => fls
  | var i => var i
  | neg f =>
    let g := reduce_core f
    if g = tru then fls
    else if g = fls then tru
    else neg g
  | land f g =>
    let l := reduce_core f
    let r := reduce_core g
    if l = tru then r
    else if l = fls then fls
    else if r = tru then l
    else if r = fls then fls
    else if l = r then l
    else land l r
  | lor f g =>
    let l := reduce_core f
    let r := reduce_core g
    if l = tru then tru
    else if l = fls then r
    else if r = tru then tru
    else if r = fls then l
    else if l = r then l
    else lor l r
  | impl f g =>
    let l := reduce_core f
    let r := reduce_core g
    if l = tru then r
    else if l = fls then tru
    else if r = tru then tru
    else if r = fls then neg l
    else if l = r then tru
    else lor (neg l) r
  | iff f g =>
    let l := reduce_core f
    let r := reduce_core g
    if l = tru then r
    else if l = fls then neg r
    else if r = tru then l
    else if r = fls then neg l
    else if l = r then tru
    else land (lor (neg l) r) (lor l (neg r))

/-- op.reduce_formula (op.py): compute the NNF, then simplify every
node bottom-up (the source applies the same pure step once per
shared node, which coincides with this recursion; the negations built
inside the steps use the plain Prop.neg constructor). -/
def reduce_formula (f : PropForm) : PropForm :=
  reduce_core (nnf false f)

/-- The conjunction or disjunction of two operands (AbsProp.binop on
the tags "&" and "|", where it cannot fail). -/
def binop2 (tag : String) (l r : PropForm) : PropForm :=
  if tag = "&" then land l r else lor l r

/-- binop_batch_rec (absprop.py) for Prop operands, as for Fog. -/
def binop_batch_rec (tag : String) (l : List PropForm) : PropForm :=
  match l with
  | [] => tru
  | [f] => f
  | [f, g] => binop2 tag f g
  | a :: b :: c :: rest =>
    binop2 tag
      (binop_batch_rec tag
        ((a :: b :: c :: rest).take ((a :: b :: c :: rest).length / 2)))
      (binop_batch_rec tag
        ((a :: b :: c :: rest).drop ((a :: b :: c :: rest).length / 2)))
termination_by l.length
decreasing_by
  · simp only [List.length_take, List.length_cons]
    omega
  · simp only [List.length_drop, List.length_cons]
    omega

/-- Prop.binop_batch = AbsProp.binop_batch (absprop.py) for Prop
operands. -/
def binop_batch (flag : Bool) (tag : String) (li : List PropForm) :
    Except String PropForm :=
  if ¬ (tag = "&" ∨ tag = "|") then
    .error "Operation cannot be done in batch."
  else
    match li with
    | [] => .error "Expression list is empty."
    | f :: fs =>
      .ok (if flag then binop_batch_rec tag (f :: fs)
           else fs.foldl (binop2 tag) f)

/-- The maximum variable index occurring in a formula (0 when none):
op.compute_cnf computes base as the maximum over op.get_prop_vars of
each input formula, starting from 0. -/
def maxVar : PropForm → Nat
  | tru => 0
  | fls => 0
  | var i => i
  | neg f => maxVar f
  | land f g => max (maxVar f) (maxVar g)
  | lor f g => max (maxVar f) (maxVar g)
  | impl f g => max (maxVar f) (maxVar g)
  | iff f g => max (maxVar f) (maxVar g)

end PropForm

/-- State of the Tseitin encoding in op.compute_cnf: the next fresh
auxiliary index of the IndexGen, the assoc dictionary mapping each
visited node to its CNF literal, and the clause list. -/
structure TseitinState where
  next : Int
  assoc : List (PropForm × Int)
  cnf : List (List Int)

/-- Lookup in the assoc dictionary (keyed on node identity, which is
structural equality of the hash-consed nodes). -/
def lookupAssoc (assoc : List (PropForm × Int)) (f : PropForm) :
    Option Int :=
  (assoc.find? (fun p => p.1 == f)).map (fun p => p.2)

/-- compute_cnf_step (prop.py, absprop.py, absneg.py) iterated over
the postfix traversal with skip_shared of op.compute_cnf: operands
first (left before right), each shared node encoded once; a variable
maps to its own index, a negation or binary node draws the next fresh
index a after its operands and emits its Tseitin clauses in the
source's order; True, False, implies and iff are rejected by the
asserts since inputs are reduced. -/
def compute_cnf_step (s : TseitinState) :
    PropForm → Except String (Int × TseitinState)
  | f@(.var i) =>
    match lookupAssoc s.assoc f with
    | some a => .ok (a, s)
    | none => .ok ((i : Int), ⟨s.next, s.assoc ++ [(f, (i : Int))], s.cnf⟩)
  | f@(.neg g) =>
    match lookupAssoc s.assoc f with
    | some a => .ok (a, s)
    | none => do
      let (b, s1) ← compute_cnf_step s g
      let a := s1.next
      .ok (a, ⟨a + 1, s1.assoc ++ [(f, a)],
        s1.cnf ++ [[-a, -b], [a, b]]⟩)
  | f@(.land g h) =>
    match lookupAssoc s.assoc f with
    | some a => .ok (a, s)
    | none => do
      let (b, s1) ← compute_cnf_step s g
      let (c, s2) ← compute_cnf_step s1 h
      let a := s2.next
      .ok (a, ⟨a + 1, s2.assoc ++ [(f, a)],
        s2.cnf ++ [[-a, b], [-a, c], [a, -b, -c]]⟩)
  | f@(.lor g h) =>
    match lookupAssoc s.assoc f with
    | some a => .ok (a, s)
    | none => do
      let (b, s1) ← compute_cnf_step s g
      let (c, s2) ← compute_cnf_step s1 h
      let a := s2.next
      .ok (a, ⟨a + 1, s2.assoc ++ [(f, a)],
        s2.cnf ++ [[a, -c], [a, -b], [-a, b, c]]⟩)
  | _ => .error "compute_cnf_step assumes reduced formulas"

/-- The encoding loop of op.compute_cnf over the reduced input
formulas: True inputs are skipped, every other formula is encoded
with a fresh assoc dictionary (the IndexGen and the clause list
persist), and the unit clause of its root literal is appended. -/
def compute_cnf_loop :
    List PropForm → Int → List (List Int) →
    Except String (Int × List (List Int))
  | [], next, cnf => .ok (next, cnf)
  | f :: fs, next, cnf =>
    if f = .tru then compute_cnf_loop fs next cnf
    else do
      let (a, s) ← compute_cnf_step ⟨next, [], cnf⟩ f
      compute_cnf_loop fs s.next (s.cnf ++ [[a]])

/-- op.compute_cnf (op.py): reduce every input formula; an empty input
iterable raises; if a reduced input is the False constant the result
is the trivially unsatisfiable CNF ((),); otherwise base is the
largest variable index occurring in the inputs, auxiliary indices
start at base + 1, and the clauses are collected by the Tseitin
loop.  Returns (base, number of auxiliaries, clauses). -/
def compute_cnf (data : List PropForm) :
    Except String (Nat × Nat × List (List Int)) :=
  let expr_li := data.map PropForm.reduce_formula
  if expr_li.length = 0 then .error "empty formula given"
  else if PropForm.fls ∈ expr_li then .ok (0, 0, [[]])
  else
    let base := expr_li.foldl (fun b f => max b (PropForm.maxVar f)) 0
    match compute_cnf_loop expr_li ((base : Int) + 1) [] with
    | .error e => .error e
    | .ok (next, cnf) => .ok (base, (next - ((base : Int) + 1)).toNat, cnf)

/-! ### Edge clique cover (ecc.py) -/

namespace Ecc

/-- The sorted edge tuple used throughout ecc.py:
tuple(sorted([u, v])). -/
def sortPair (e : Nat × Nat) : Nat × Nat :=
  if e.2 < e.1 then (e.2, e.1) else (e.1, e.2)

/-- Does the vertex occur in the neighborhood dictionary _N, which
Ecc.__init__ populates only from edge endpoints? -/
def memN (edges : List (Nat × Nat)) (v : Nat) : Bool :=
  edges.any (fun e => e.1 = v || e.2 = v)

/-- The neighborhood set _N[v] (as a duplicate-free list; Ecc stores
a Python set). -/
def neighborhood (edges : List (Nat × Nat)) (v : Nat) : List Nat :=
  (edges.filterMap (fun e =>
    if e.1 = v then some e.2
    else if e.2 = v then some e.1 else none)).dedup

/-- len(_N[v]): the degree of a vertex in the simple graph. -/
def degree (edges : List (Nat × Nat)) (v : Nat) : Nat :=
  (neighborhood edges v).length

/-- The loop of Ecc.__init__ counting isolated vertices: it reads
self._N[v] for every vertex, so a vertex that is no edge endpoint is
missing from the dictionary and the read raises KeyError. -/
def countIsolatedVerts (edges : List (Nat × Nat)) :
    List Nat → Except String Nat
  | [] => .ok 0
  | v :: vs =>
    if ¬ memN edges v then .error "KeyError"
    else do
      let c ← countIsolatedVerts edges vs
      pure (if degree edges v = 0 then c + 1 else c)

/-- The loop of Ecc.__init__ counting isolated edges, as written:
an edge e is counted when len(_N[e[0]]) == 1 and len(_N[e[1]]) is
truthy (the second comparison with 1 is missing in the source). -/
def countIsolatedEdges (edges : List (Nat × Nat)) : Nat :=
  edges.countP (fun e =>
    degree edges e.1 = 1 && degree edges e.2 ≠ 0)

/-- The validity loop over edge_list in Ecc.__init__ (the length-2
check always holds for a pair): a loop edge or an edge endpoint
outside the vertex list raises. -/
def checkEdges (vertex_list : List Nat) :
    List (Nat × Nat) → Except String Unit
  | [] => .ok ()
  | e :: es =>
    if e.1 = e.2 then .error "invalid edge"
    else if ¬ (e.1 ∈ vertex_list ∧ e.2 ∈ vertex_list) then
      .error "invalid vertex specified by edge"
    else checkEdges vertex_list es

/-- The data Ecc.__init__ stores when it succeeds. -/
structure Data where
  verts : List Nat
  edges : List (Nat × Nat)
  nof_isolated_verts : Nat
  nof_isolated_edges : Nat
deriving DecidableEq, Repr

/-- Ecc.__init__ (ecc.py): validate the vertex and edge lists, build
the sorted edge tuple and the neighborhood dictionary, count isolated
vertices (raising KeyError for a vertex with no incident edge) and
isolated edges (with the miswritten truthiness test), and reject more
than one isolated vertex or any counted isolated edge.  The asserts
that each sorted edge is new in _invdic fail on duplicate edges. -/
def init (vertex_list : List Nat) (edge_list : List (Nat × Nat)) :
    Except String Data := do
  if vertex_list.dedup.length ≠ vertex_list.length then
    throw "duplicate vertex found"
  if vertex_list.any (fun v => ¬ 0 < v) then
    throw "non-positive index found"
  checkEdges vertex_list edge_list
  let edges := edge_list.map sortPair
  if ¬ edges.Nodup then
    throw "assertion failed: duplicate edge in _invdic"
  let niv ← countIsolatedVerts edges vertex_list
  let nie := countIsolatedEdges edges
  if niv > 1 then
    throw "number of isolated vertices must be at most one."
  if nie > 0 then
    throw "isolated edge is not allowed."
  pure ⟨vertex_list, edges, niv, nie⟩

end Ecc

/-! ### Graph relational structure (grst.py, symrelst.py, be.py) -/

/-- Insertion of a number into a sorted list (for Python's sorted()
on vertex sets). -/
def insertSorted (x : Nat) : List Nat → List Nat
  | [] => [x]
  | y :: ys => if x ≤ y then x :: y :: ys else y :: insertSorted x ys

/-- Python sorted() on a list of numbers. -/
def sortNat (l : List Nat) : List Nat :=
  l.foldr insertSorted []

/-- Lookup in a dictionary keyed by pairs. -/
def lookupPair (l : List ((Nat × Nat) × Nat)) (k : Nat × Nat) :
    Option Nat :=
  (l.find? (fun p => p.1 == k)).map (fun p => p.2)

/-- Lookup in a dictionary keyed by triples. -/
def lookupTriple (l : List ((Nat × Nat × Nat) × Nat)) (k : Nat × Nat × Nat) :
    Option Nat :=
  (l.find? (fun p => p.1 == k)).map (fun p => p.2)

/-- SymRelSt._compute_dual_hypergraph (symrelst.py): the code of the
object at each position is the sorted tuple of the 1-based indices of
the relation instances containing it. -/
def dualHypergraph (objects : List Nat) (relation : List (List Nat)) :
    List (List Nat) :=
  objects.map (fun obj =>
    ((List.range relation.length).filter
      (fun k => obj ∈ relation.getD k [])).map (fun k => k + 1))

/-- GrSt._compute_relation_direct_enc (grst.py): one singleton
instance per vertex. -/
def directRelation (verts : List Nat) : List (List Nat) :=
  verts.map (fun v => [v])

/-- GrSt._compute_relation_edge_enc (grst.py): the edges themselves
(as sorted pairs). -/
def edgeRelation (edges : List (Nat × Nat)) : List (List Nat) :=
  edges.map (fun e => [e.1, e.2])

/-- The doubling level values 1, 2, 4, ... below N of
_compute_relation_log_enc (fuel-bounded while loop). -/
def powersBelow (N : Nat) : Nat → Nat → List Nat
  | _, 0 => []
  | n, fuel + 1 => if n < N then n :: powersBelow N (2 * n) fuel else []

/-- GrSt._compute_relation_log_enc (grst.py): for each level n the
instance holds the vertices whose position j lies in an odd-numbered
block of size n (j runs over n*i..min(n*(i+1),N)-1 for odd i, i.e.
(j / n) is odd), in increasing position order. -/
def logRelation (verts : List Nat) : List (List Nat) :=
  (powersBelow verts.length 1 verts.length).map (fun n =>
    ((List.range verts.length).filter (fun j => (j / n) % 2 = 1)).filterMap
      (fun j => verts.get? j))

/-- GrSt._compute_relation_vertex_enc (grst.py): each vertex v gets
the sorted set of v itself together with the neighbors of smaller
position (for each edge the endpoint of larger position collects the
other endpoint). -/
def vertexRelation (verts : List Nat) (edges : List (Nat × Nat)) :
    List (List Nat) :=
  verts.map (fun v =>
    sortNat (v :: edges.filterMap (fun e =>
      if e.1 = v ∧ verts.indexOf e.2 < verts.indexOf e.1 then some e.2
      else if e.2 = v ∧ verts.indexOf e.1 < verts.indexOf e.2 then some e.1
      else none)))

/-- The internal vertex order of GrSt.lt (grst.py): codes are
compared as bit vectors most-significant (highest position) first;
x < y iff at the first differing position x has bit 0 and y bit 1. -/
def ltCodes (L : Nat) (cx cy : List Nat) : Bool :=
  match (List.range L).reverse.find?
      (fun i => decide ((i + 1) ∈ cx) != decide ((i + 1) ∈ cy)) with
  | some i => decide ((i + 1) ∉ cx)
  | none => false

/-- The state of a GrSt object (grst.py) together with the global
name registry it mutates: the vertex and (sorted) edge tuples, the
encoding tag, the vertex-to-object dictionary, the domain of objects
with their codes (symrelst.py), the Boolean-encoding dictionaries of
be.py (_be_encode_dict/_be_decode_dict) and the auxiliary-variable
dictionaries of grst.py for the domain, edg and order encoders, and
the order-maximum object.  (The *_dec inverses of the grst.py
auxiliary dictionaries are used only in never-failing asserts and are
not carried.) -/
structure GrSt where
  nm : NameMgr
  verts : List Nat
  edges : List (Nat × Nat)
  encoding : String
  pfx : String
  vmap : List (Nat × Nat)
  domain : List Nat
  obj_edges : List (Nat × Nat)
  codes : List (List Nat)
  code_length : Nat
  be_enc : List ((Nat × Nat) × Nat)
  be_dec : List (Nat × (Nat × Nat))
  domain_enc : List ((Nat × Nat) × Nat)
  edg_enc : List ((Nat × Nat) × Nat)
  le_enc : List ((Nat × Nat × Nat) × Nat)
  max_v : Nat
deriving Repr

instance : Inhabited GrSt :=
  ⟨⟨[], [], [], "", "", [], [], [], [], 0, [], [], [], [], [], 0⟩⟩

namespace GrSt

/-- GrSt.vertex_to_object_int via the dictionary built in __init__. -/
def objOfVertex (vmap : List (Nat × Nat)) (v : Nat) : Option Nat :=
  (vmap.find? (fun p => p.1 == v)).map (fun p => p.2)

/-- The edge-validity loop at the top of GrSt.__init__. -/
def checkGrEdges (vertex_list : List Nat) :
    List (Nat × Nat) → Except String Unit
  | [] => .ok ()
  | e :: es =>
    if e.1 = e.2 then .error "loop is not allowed"
    else if ¬ (e.1 ∈ vertex_list ∧ e.2 ∈ vertex_list) then
      .error "invalid vertex found"
    else checkGrEdges vertex_list es

/-- The vertex-name registration loop of GrSt.__init__:
NameMgr.lookup_index(prefix + str(vertex)) for each vertex. -/
def registerVerts (pfx : String) (nm : NameMgr) :
    List Nat → Except String (List (Nat × Nat) × NameMgr)
  | [] => .ok ([], nm)
  | v :: vs => do
    let (i, nm1) ← nm.lookup_index (pfx ++ toString v)
    let (rest, nm2) ← registerVerts pfx nm1 vs
    .ok ((v, i) :: rest, nm2)

/-- Map a vertex-level relation instance to objects
(GrSt.vertex_to_object on tuples). -/
def instToObjects (vmap : List (Nat × Nat)) (inst : List Nat) :
    Except String (List Nat) :=
  match inst with
  | [] => .ok []
  | v :: vs => do
    match objOfVertex vmap v with
    | none => .error "invalid vertex"
    | some o =>
      let rest ← instToObjects vmap vs
      .ok (o :: rest)

/-- SymRelSt.__init__ (symrelst.py): reject duplicate objects,
unregistered or non-constant object names, duplicate members or
non-positive members inside a relation instance; compute the codes as
the dual hypergraph and reject coinciding codes. -/
def symRelStChecks (nm : NameMgr) (objects : List Nat)
    (relation : List (List Nat)) : Except String (List (List Nat)) := do
  if ¬ objects.Nodup then throw "duplicate object found"
  if objects.any (fun o => ¬ nm.has_name o) then
    throw "object has no name"
  if objects.any (fun o => ¬ nm.is_constant o) then
    throw "object is not a constant symbol"
  if relation.any (fun inst => ¬ inst.Nodup) then
    throw "duplicate object found in relation instance"
  if relation.any (fun inst => inst.any (fun i => ¬ 0 < i)) then
    throw "invalid relation instance"
  let codes := dualHypergraph objects relation
  if ¬ codes.Nodup then throw "codes coincide"
  pure codes

/-- GrSt.__init__ (grst.py): validate the inputs, register the vertex
constants, compute the vertex-level relation of the chosen encoding
(for clique encoding the separating edge clique cover must be
supplied: with ecc=None the source computes one with the randomized
Ecc heuristic, which this embedding does not model), convert it to
objects, run the SymRelSt initialization, require a positive code
length, build the object-level graph, and select the order-maximum
object. -/
def init (vertex_list : List Nat) (edge_list : List (Nat × Nat))
    (encoding : String) (pfx : String) (ecc : Option (List (List Nat)))
    (nm0 : NameMgr) : Except String GrSt := do
  if vertex_list.length = 0 then throw "no vertex given"
  checkGrEdges vertex_list edge_list
  if ¬ (encoding = "edge" ∨ encoding = "clique" ∨ encoding = "vertex" ∨
        encoding = "direct" ∨ encoding = "log") then
    throw "unsupported encoding type"
  if ¬ (pfx.data ≠ [] ∧ pfx.data.all (fun c => c.isAlpha) ∧
        pfx.data.all (fun c => c.isUpper)) then
    throw "All characters in prefix must be alphabetic and uppercase letters"
  let (vmap, nm1) ← registerVerts pfx nm0 vertex_list
  let verts := vertex_list
  let edges := edge_list.map Ecc.sortPair
  if verts.dedup.length ≠ verts.length then throw "duplicate vertex found"
  if edges.dedup.length ≠ edge_list.length then throw "duplicate edge found"
  let objects ← instToObjects vmap verts
  let vrel ←
    match encoding with
    | "direct" => pure (directRelation verts)
    | "edge" => pure (edgeRelation edges)
    | "log" => pure (logRelation verts)
    | "vertex" => pure (vertexRelation verts edges)
    | _ =>
      match ecc with
      | some e => pure e
      | none => throw "clique encoding without a supplied ecc (randomized Ecc heuristic not modelled)"
  let relation ← (vrel.mapM (instToObjects vmap) :
    Except String (List (List Nat)))
  let codes ← symRelStChecks nm1 objects relation
  let code_length := relation.length
  if ¬ 0 < code_length then throw "assertion failed: code_length > 0"
  let obj_edges ← (edges.mapM (fun e => do
    match objOfVertex vmap e.1, objOfVertex vmap e.2 with
    | some a, some b => pure ((a, b) : Nat × Nat)
    | _, _ => throw "invalid vertex") : Except String (List (Nat × Nat)))
  let first :=
    match objects with
    | [] => 0
    | o :: _ => o
  let maxv := objects.drop 1 |>.foldl (fun m v =>
    if ltCodes code_length
        (codes.getD (objects.indexOf m) [])
        (codes.getD (objects.indexOf v) []) then v else m) first
  pure ⟨nm1, verts, edges, encoding, pfx, vmap, objects, obj_edges,
    codes, code_length, [], [], [], [], [], maxv⟩

/-- SymRelSt._object_to_pos for domain objects. -/
def pos (st : GrSt) (obj : Nat) : Nat :=
  st.domain.indexOf obj

/-- BaseRelSt.get_code for a domain object. -/
def get_code (st : GrSt) (obj : Nat) : List Nat :=
  st.codes.getD (st.pos obj) []

/-- GrSt.lt (grst.py) on domain objects: the code bit vectors are
compared most-significant first. -/
def lt (st : GrSt) (x y : Nat) : Bool :=
  ltCodes st.code_length (st.get_code x) (st.get_code y)

/-- GrSt.equal (grst.py): object identity. -/
def equal (_st : GrSt) (x y : Nat) : Bool := x == y

/-- GrSt.adjacent (grst.py) via the SimpGraph built in __init__ from
the object-level edges. -/
def adjacent (st : GrSt) (x y : Nat) : Bool :=
  st.obj_edges.any (fun e => (e.1 == x && e.2 == y) ||
    (e.1 == y && e.2 == x))

/-- Be.get_boolean_var (be.py): the Boolean variable of a symbol at a
code position, allocated through NameMgr.get_aux_index on first use
and memoized in _be_encode_dict/_be_decode_dict. -/
def get_boolean_var (st : GrSt) (i posn : Nat) :
    Except String (Nat × GrSt) :=
  if ¬ st.nm.has_name i then .error "symbol has no name"
  else if ¬ st.nm.is_variable i then .error "symbol is not a variable"
  else if ¬ posn < st.code_length then .error "position out of range"
  else
    match lookupPair st.be_enc (i, posn) with
    | some k => .ok (k, st)
    | none =>
      let (k, nm1) := st.nm.get_aux_index
      .ok (k, { st with
        nm := nm1,
        be_enc := st.be_enc ++ [((i, posn), k)],
        be_dec := st.be_dec ++ [(k, (i, posn))] })

/-- Be.get_boolean_var_list (be.py). -/
def get_boolean_var_list (st : GrSt) (i : Nat) :
    Except String (List Nat × GrSt) :=
  (List.range st.code_length).foldlM (fun (acc : List Nat × GrSt) p => do
    let (k, st1) ← get_boolean_var acc.2 i p
    pure (acc.1 ++ [k], st1)) ([], st)

/-- Be.is_decodable_boolean_var (be.py): membership in
_be_decode_dict. -/
def is_decodable_boolean_var (st : GrSt) (k : Nat) : Bool :=
  (st.be_dec.find? (fun p => p.1 == k)).isSome

/-- GrSt._get_lit_list (grst.py): for a domain object the constant
true/false literals of its code bits, for a variable the Boolean
variables from the name registry. -/
def get_lit_list (st : GrSt) (x : Nat) :
    Except String (List PropForm × GrSt) :=
  if x ∈ st.domain then
    .ok ((List.range st.code_length).map (fun i =>
      if (i + 1) ∈ st.get_code x then PropForm.tru else PropForm.fls), st)
  else do
    let (ks, st1) ← get_boolean_var_list st x
    pure (ks.map PropForm.var, st1)

/-- GrSt._be_eq_arbit_enc (grst.py), used by every encoding:
the conjunction over the code positions of px_i iff py_i. -/
def be_eq (flag : Bool) (st : GrSt) (x y : Nat) :
    Except String (PropForm × GrSt) := do
  let (px, st1) ← get_lit_list st x
  let (py, st2) ← get_lit_list st1 y
  let li := (List.range st.code_length).map (fun i =>
    PropForm.iff (px.getD i .fls) (py.getD i .fls))
  let r ← PropForm.binop_batch flag "&" li
  pure (r, st2)

/-- GrSt.be_lt (grst.py): the strict-prefix chain encoding of the
internal order; the chain variables are allocated per (x, y, i) in
_le_enc_dict, the chain ends in the False constant, each position
contributes (not s_i implies (px_i iff py_i)) and
(s_i iff (s_(i+1) or (not px_i and py_i))), and s_0 is forced true.
The chain constraints are emitted only inside this formula. -/
def be_lt (flag : Bool) (st : GrSt) (x y : Nat) :
    Except String (PropForm × GrSt) := do
  let (px, st1) ← get_lit_list st x
  let (py, st2) ← get_lit_list st1 y
  let (sxv, st3) ← (List.range st.code_length).foldlM
    (fun (acc : List Nat × GrSt) i => do
      match lookupTriple acc.2.le_enc (x, y, i) with
      | some k => pure (acc.1 ++ [k], acc.2)
      | none =>
        let (k, nm1) := acc.2.nm.get_aux_index
        pure (acc.1 ++ [k], { acc.2 with
          nm := nm1,
          le_enc := acc.2.le_enc ++ [((x, y, i), k)] })) ([], st2)
  let sx := sxv.map PropForm.var ++ [PropForm.fls]
  let li := (List.range st.code_length).map (fun i =>
    PropForm.land
      (PropForm.impl (PropForm.neg (sx.getD i .fls))
        (PropForm.iff (px.getD i .fls) (py.getD i .fls)))
      (PropForm.iff (sx.getD i .fls)
        (PropForm.lor (sx.getD (i + 1) .fls)
          (PropForm.land (PropForm.neg (px.getD i .fls))
            (py.getD i .fls)))))
  let li := li ++ [PropForm.iff (sx.getD 0 .fls) PropForm.tru]
  let r ← PropForm.binop_batch flag "&" li
  pure (r, st3)

/-- GrSt._be_edg_edge_enc (grst.py), used for the edge and clique
encodings: not eq(x, y) and some code position shared. -/
def be_edg_edge_enc (flag : Bool) (st : GrSt) (x y : Nat) :
    Except String (PropForm × GrSt) := do
  let (px, st1) ← get_lit_list st x
  let (py, st2) ← get_lit_list st1 y
  let li := (List.range st.code_length).map (fun i =>
    PropForm.land (px.getD i .fls) (py.getD i .fls))
  let (eqf, st3) ← be_eq flag st2 x y
  let r ← PropForm.binop_batch flag "|" li
  pure (PropForm.land (PropForm.neg eqf) r, st3)

/-- GrSt._be_edg_direct_enc (grst.py): not eq(x, y) and, for some
edge (v, w), (px at pos v and py at pos w) or (px at pos w and py at
pos v); False when the graph has no edge. -/
def be_edg_direct_enc (flag : Bool) (st : GrSt) (x y : Nat) :
    Except String (PropForm × GrSt) := do
  let (px, st1) ← get_lit_list st x
  let (py, st2) ← get_lit_list st1 y
  let li := st.obj_edges.map (fun e =>
    PropForm.lor
      (PropForm.land (px.getD (st.pos e.1) .fls) (py.getD (st.pos e.2) .fls))
      (PropForm.land (px.getD (st.pos e.2) .fls) (py.getD (st.pos e.1) .fls)))
  if li.length = 0 then
    pure (PropForm.fls, st2)
  else do
    let (eqf, st3) ← be_eq flag st2 x y
    let r ← PropForm.binop_batch flag "|" li
    pure (PropForm.land (PropForm.neg eqf) r, st3)

/-- GrSt._be_edg_arbit_enc (grst.py), used for the log encoding:
not eq(x, y) and, for some edge (v, w), (eq(x, v) and eq(y, w)) or
(eq(x, w) and eq(y, v)); False when the graph has no edge. -/
def be_edg_arbit_enc (flag : Bool) (st : GrSt) (x y : Nat) :
    Except String (PropForm × GrSt) := do
  let (li, st1) ← st.obj_edges.foldlM
    (fun (acc : List PropForm × GrSt) e => do
      let (e1, s1) ← be_eq flag acc.2 x e.1
      let (e2, s2) ← be_eq flag s1 y e.2
      let (e3, s3) ← be_eq flag s2 x e.2
      let (e4, s4) ← be_eq flag s3 y e.1
      pure (acc.1 ++ [PropForm.lor (PropForm.land e1 e2)
        (PropForm.land e3 e4)], s4)) ([], st)
  if li.length = 0 then
    pure (PropForm.fls, st1)
  else do
    let (eqf, st2) ← be_eq flag st1 x y
    let r ← PropForm.binop_batch flag "|" li
    pure (PropForm.land (PropForm.neg eqf) r, st2)

/-- GrSt._be_edg_vertex_enc (grst.py): not eq(x, y) and some shared
code position whose predecessor first-one-prefix variables are not
both set; the s-variables are allocated per (symbol, position) in
_edg_enc_dict and the lists are extended by the False constant so
that index -1 reads the final constant (Python negative indexing). -/
def be_edg_vertex_enc (flag : Bool) (st : GrSt) (x y : Nat) :
    Except String (PropForm × GrSt) := do
  let (px, st1) ← get_lit_list st x
  let (py, st2) ← get_lit_list st1 y
  let (sxv, st3) ← (List.range st.code_length).foldlM
    (fun (acc : List Nat × GrSt) i => do
      match lookupPair acc.2.edg_enc (x, i) with
      | some k => pure (acc.1 ++ [k], acc.2)
      | none =>
        let (k, nm1) := acc.2.nm.get_aux_index
        pure (acc.1 ++ [k], { acc.2 with
          nm := nm1,
          edg_enc := acc.2.edg_enc ++ [((x, i), k)] })) ([], st2)
  let (syv, st4) ← (List.range st.code_length).foldlM
    (fun (acc : List Nat × GrSt) i => do
      match lookupPair acc.2.edg_enc (y, i) with
      | some k => pure (acc.1 ++ [k], acc.2)
      | none =>
        let (k, nm1) := acc.2.nm.get_aux_index
        pure (acc.1 ++ [k], { acc.2 with
          nm := nm1,
          edg_enc := acc.2.edg_enc ++ [((y, i), k)] })) ([], st3)
  let sx := sxv.map PropForm.var ++ [PropForm.fls]
  let sy := syv.map PropForm.var ++ [PropForm.fls]
  let sxAt := fun (i : Int) =>
    if i < 0 then sx.getD (sx.length - 1) .fls else sx.getD i.toNat .fls
  let syAt := fun (i : Int) =>
    if i < 0 then sy.getD (sy.length - 1) .fls else sy.getD i.toNat .fls
  let li ← (List.range st.code_length).mapM (fun i =>
    PropForm.binop_batch flag "&"
      [px.getD i .fls, py.getD i .fls,
       PropForm.lor (PropForm.neg (sxAt ((i : Int) - 1)))
         (PropForm.neg (syAt ((i : Int) - 1)))])
  let (eqf, st5) ← be_eq flag st4 x y
  let r ← PropForm.binop_batch flag "|" li
  pure (PropForm.land (PropForm.neg eqf) r, st5)

/-- GrSt.be_edg (grst.py): dispatch on the encoding tag. -/
def be_edg (flag : Bool) (st : GrSt) (x y : Nat) :
    Except String (PropForm × GrSt) :=
  if st.encoding = "edge" ∨ st.encoding = "clique" then
    be_edg_edge_enc flag st x y
  else if st.encoding = "vertex" then be_edg_vertex_enc flag st x y
  else if st.encoding = "direct" then be_edg_direct_enc flag st x y
  else be_edg_arbit_enc flag st x y

end GrSt

/-- The perform_boolean_encoding_step dispatch (fog.py) as a
bottom-up recursion over a quantifier-free formula: atoms with equal
arguments collapse to the Boolean constants, other atoms are encoded
through the structure, connectives and negation map to their Prop
counterparts, and quantifiers cannot occur. -/
def perform_boolean_encoding_core (flag : Bool) (st : GrSt) :
    Fog → Except String (PropForm × GrSt)
  | .tru => .ok (.tru, st)
  | .fls => .ok (.fls, st)
  | .edga a b =>
    if a = b then .ok (.fls, st) else GrSt.be_edg flag st a b
  | .eqa a b =>
    if a = b then .ok (.tru, st) else GrSt.be_eq flag st a b
  | .lta a b =>
    if a = b then .ok (.fls, st) else GrSt.be_lt flag st a b
  | .neg f => do
    let (p, st1) ← perform_boolean_encoding_core flag st f
    pure (.neg p, st1)
  | .land f g => do
    let (l, st1) ← perform_boolean_encoding_core flag st f
    let (r, st2) ← perform_boolean_encoding_core flag st1 g
    pure (.land l r, st2)
  | .lor f g => do
    let (l, st1) ← perform_boolean_encoding_core flag st f
    let (r, st2) ← perform_boolean_encoding_core flag st1 g
    pure (.lor l r, st2)
  | .impl f g => do
    let (l, st1) ← perform_boolean_encoding_core flag st f
    let (r, st2) ← perform_boolean_encoding_core flag st1 g
    pure (.impl l r, st2)
  | .iff f g => do
    let (l, st1) ← perform_boolean_encoding_core flag st f
    let (r, st2) ← perform_boolean_encoding_core flag st1 g
    pure (.iff l r, st2)
  | .fall _ _ => .error "quantifier in boolean encoding"
  | .exis _ _ => .error "quantifier in boolean encoding"

/-- op.perform_boolean_encoding (op.py): expand the quantifiers over
the structure's domain, then replace every atom by its propositional
encoding.  The source memoizes shared nodes; every auxiliary
allocation is dictionary-guarded, so re-encoding a shared node
returns the same formula without further allocation and the plain
recursion computes the same result and state. -/
def perform_boolean_encoding (flag : Bool) (st : GrSt) (f : Fog) :
    Except String (PropForm × GrSt) := do
  let qf ← Fog.eliminate_qf st.nm flag (some st.domain) f
  perform_boolean_encoding_core flag st qf

/-- The set of edg atoms' argument pairs collected by
GrSt._compute_auxiliary_constraint_vertex_enc over the prefix
traversal of the formula (first-occurrence order). -/
def collectEdgAtoms : Fog → List (Nat × Nat)
  | .edga a b => [(a, b)]
  | .tru | .fls | .eqa _ _ | .lta _ _ => []
  | .neg f => collectEdgAtoms f
  | .land f g => (collectEdgAtoms f ++ collectEdgAtoms g).dedup
  | .lor f g => (collectEdgAtoms f ++ collectEdgAtoms g).dedup
  | .impl f g => (collectEdgAtoms f ++ collectEdgAtoms g).dedup
  | .iff f g => (collectEdgAtoms f ++ collectEdgAtoms g).dedup
  | .fall _ f => collectEdgAtoms f
  | .exis _ f => collectEdgAtoms f

/-- GrSt._compute_auxiliary_constraint_vertex_enc (grst.py): for each
edg(x, y) occurring in the formula, the first-one-prefix chains of x
and of y must satisfy s_i iff (s_(i-1) or (not s_(i-1) and p_i)),
where index -1 reads the appended False constant. -/
def aux_constraint_vertex_pair (_flag : Bool) (st : GrSt) (x y : Nat) :
    Except String (List PropForm × GrSt) := do
  let (px, st1) ← GrSt.get_lit_list st x
  let (py, st2) ← GrSt.get_lit_list st1 y
  let (sxv, st3) ← (List.range st.code_length).foldlM
    (fun (acc : List Nat × GrSt) i => do
      match lookupPair acc.2.edg_enc (x, i) with
      | some k => pure (acc.1 ++ [k], acc.2)
      | none =>
        let (k, nm1) := acc.2.nm.get_aux_index
        pure (acc.1 ++ [k], { acc.2 with
          nm := nm1,
          edg_enc := acc.2.edg_enc ++ [((x, i), k)] })) ([], st2)
  let (syv, st4) ← (List.range st.code_length).foldlM
    (fun (acc : List Nat × GrSt) i => do
      match lookupPair acc.2.edg_enc (y, i) with
      | some k => pure (acc.1 ++ [k], acc.2)
      | none =>
        let (k, nm1) := acc.2.nm.get_aux_index
        pure (acc.1 ++ [k], { acc.2 with
          nm := nm1,
          edg_enc := acc.2.edg_enc ++ [((y, i), k)] })) ([], st3)
  let sx := sxv.map PropForm.var ++ [PropForm.fls]
  let sy := syv.map PropForm.var ++ [PropForm.fls]
  let sxAt := fun (i : Int) =>
    if i < 0 then sx.getD (sx.length - 1) .fls else sx.getD i.toNat .fls
  let syAt := fun (i : Int) =>
    if i < 0 then sy.getD (sy.length - 1) .fls else sy.getD i.toNat .fls
  let lix := (List.range st.code_length).map (fun (i : Nat) =>
    PropForm.iff (sxAt (i : Int))
      (PropForm.lor (sxAt ((i : Int) - 1))
        (PropForm.land (PropForm.neg (sxAt ((i : Int) - 1)))
          (px.getD i .fls))))
  let liy := (List.range st.code_length).map (fun (i : Nat) =>
    PropForm.iff (syAt (i : Int))
      (PropForm.lor (syAt ((i : Int) - 1))
        (PropForm.land (PropForm.neg (syAt ((i : Int) - 1)))
          (py.getD i .fls))))
  pure (lix ++ liy, st4)

/-- GrSt.compute_auxiliary_constraint (grst.py): the True constant
for the direct, log, edge and clique encodings; for the vertex
encoding the conjunction of the chain constraints of every edg atom
in the formula. -/
def compute_auxiliary_constraint (flag : Bool) (st : GrSt) (f : Fog) :
    Except String (PropForm × GrSt) :=
  if st.encoding = "vertex" then do
    let (li, st1) ← (collectEdgAtoms f).foldlM
      (fun (acc : List PropForm × GrSt) p => do
        let (l, s1) ← aux_constraint_vertex_pair flag acc.2 p.1 p.2
        pure (acc.1 ++ l, s1)) ([], st)
    let r ← PropForm.binop_batch flag "&" li
    pure (r, st1)
  else .ok (.tru, st)

/-! ### CNF converter (cnf.py) -/

/-- Lookup in a dictionary with Nat keys. -/
def lookupNat (l : List (Nat × Nat)) (k : Nat) : Option Nat :=
  (l.find? (fun p => p.1 == k)).map (fun p => p.2)

/-- The Cnf object (cnf.py): the internal CNF from op.compute_cnf,
the internal/external renumbering dictionaries _enc and _dec, the
number base of decodable external variables, the external variable
count nvar and the renumbered clause tuple. -/
structure Cnf where
  orig_base : Nat
  orig_cnf : List (List Int)
  enc : List (Nat × Nat)
  dec : List (Nat × Nat)
  base : Nat
  nvar : Nat
  cnf : List (List Int)
deriving DecidableEq, Repr

namespace Cnf

/-- The first loop of Cnf.__init__: scan the internal clauses in
order and give each decodable internal variable (at most orig_base
and decodable in the structure) the next external index, counting
them in base. -/
def decodablePass (stO : Option GrSt) (orig_base : Nat)
    (clauses : List (List Int)) :
    List (Nat × Nat) × List (Nat × Nat) × Nat :=
  clauses.foldl (fun acc clause =>
    clause.foldl (fun (acc : List (Nat × Nat) × List (Nat × Nat) × Nat) lit =>
      let var := lit.natAbs
      let dec? :=
        match stO with
        | some st =>
          decide (var ≤ orig_base) && st.is_decodable_boolean_var var
        | none => false
      if dec? && (lookupNat acc.1 var).isNone then
        (acc.1 ++ [(var, acc.2.2 + 1)], acc.2.1 ++ [(acc.2.2 + 1, var)],
          acc.2.2 + 1)
      else acc) acc) ([], [], 0)

/-- Cnf._encode_lit (cnf.py): decodable internal variables keep their
assigned external index; any other internal variable gets the next
index from the IndexGen on first sight. -/
def encode_lit (stO : Option GrSt) (orig_base : Nat)
    (s : List (Nat × Nat) × List (Nat × Nat) × Nat) (lit : Int) :
    Int × (List (Nat × Nat) × List (Nat × Nat) × Nat) :=
  let var := lit.natAbs
  let dec? :=
    match stO with
    | some st =>
      decide (var ≤ orig_base) && st.is_decodable_boolean_var var
    | none => false
  if dec? then
    let ext := (lookupNat s.1 var).getD 0
    (if lit > 0 then (ext : Int) else -(ext : Int), s)
  else
    match lookupNat s.1 var with
    | some ext => (if lit > 0 then (ext : Int) else -(ext : Int), s)
    | none =>
      let ext := s.2.2
      (if lit > 0 then (ext : Int) else -(ext : Int),
        (s.1 ++ [(var, ext)], s.2.1 ++ [(ext, var)], s.2.2 + 1))

/-- The clause-encoding comprehension of Cnf.__init__. -/
def encodePass (stO : Option GrSt) (orig_base : Nat)
    (clauses : List (List Int))
    (s0 : List (Nat × Nat) × List (Nat × Nat) × Nat) :
    List (List Int) × (List (Nat × Nat) × List (Nat × Nat) × Nat) :=
  clauses.foldl (fun (acc : List (List Int) × _) clause =>
    let r := clause.foldl
      (fun (a : List Int × (List (Nat × Nat) × List (Nat × Nat) × Nat)) lit =>
        let (e, s1) := encode_lit stO orig_base a.2 lit
        (a.1 ++ [e], s1)) ([], acc.2)
    (acc.1 ++ [r.1], r.2)) ([], s0)

/-- Cnf.__init__ (cnf.py): compute the internal CNF with
op.compute_cnf (this raises on an empty formula list), number the
decodable internal variables 1..base in clause-scan order, return
early for the empty and the trivially-unsatisfiable CNFs (nvar = 0),
and otherwise renumber every clause, nvar being base plus the number
of auxiliary external indices issued. -/
def init (li : List PropForm) (stO : Option GrSt) :
    Except String Cnf := do
  let (orig_base, _naux, orig_cnf) ← compute_cnf li
  let (enc0, dec0, base) := decodablePass stO orig_base orig_cnf
  if orig_cnf = [] then
    pure ⟨orig_base, orig_cnf, enc0, dec0, base, 0, []⟩
  else if orig_cnf = [[]] then
    pure ⟨orig_base, orig_cnf, enc0, dec0, base, 0, [[]]⟩
  else
    let (cnf1, s1) := encodePass stO orig_base orig_cnf
      (enc0, dec0, base + 1)
    pure ⟨orig_base, orig_cnf, s1.1, s1.2.1, base,
      base + (s1.2.2 - (base + 1)), cnf1⟩

/-- Cnf._decode_lit (cnf.py): map an external literal back to the
internal literal (_dec contains every issued external index; the
source raises KeyError on others, which does not occur here). -/
def decode_lit (c : Cnf) (lit : Int) : Int :=
  let var := lit.natAbs
  let iv := (lookupNat c.dec var).getD 0
  if lit > 0 then (iv : Int) else -(iv : Int)

/-- Cnf.decode_assignment (cnf.py), as written: keep the literals x
with x <= self.base (the comparison is on the signed literal, not on
its absolute value) and decode them. -/
def decode_assignment (c : Cnf) (assign : List Int) : List Int :=
  (assign.filter (fun x => x ≤ (c.base : Int))).map c.decode_lit

/-- The raise condition of Cnf.write (cnf.py), as written:
"if self.nvar == 0 or len(self.cnf): raise Exception(...)", i.e. the
exception fires when nvar is zero or the clause tuple is nonempty. -/
def write_raises (c : Cnf) : Bool :=
  c.nvar = 0 || c.cnf.length ≠ 0

end Cnf

/-! ### Satisfaction (spec section 1) -/

/-- A SAT model given as a list of signed literals satisfies a CNF
when every clause contains one of its literals. -/
def modelSatisfies (m : List Int) (cnf : List (List Int)) : Bool :=
  cnf.all (fun cl => cl.any (fun l => l ∈ m))

/-- The value of a term under an assignment of first-order variables
to domain objects: variables read the assignment, constants denote
themselves. -/
def termVal (st : GrSt) (asg : Nat → Nat) (v : Nat) : Nat :=
  if st.nm.is_variable v then asg v else v

/-- Modelled from the spec: the satisfying-interpretation relation of
section 1 ("a formula in first-order logic whose variables range over
V and whose atomic predicates are equality, adjacency, and an
internal strict order"); the atomic predicates are interpreted by
GrSt.equal, GrSt.adjacent and GrSt.lt of grst.py and the quantifiers
range over the structure's domain. -/
def foEval (st : GrSt) (asg : Nat → Nat) : Fog → Bool
  | .tru => true
  | .fls => false
  | .eqa a b => st.equal (termVal st asg a) (termVal st asg b)
  | .edga a b => st.adjacent (termVal st asg a) (termVal st asg b)
  | .lta a b => st.lt (termVal st asg a) (termVal st asg b)
  | .neg f => ! foEval st asg f
  | .land f g => foEval st asg f && foEval st asg g
  | .lor f g => foEval st asg f || foEval st asg g
  | .impl f g => ! foEval st asg f || foEval st asg g
  | .iff f g => foEval st asg f == foEval st asg g
  | .fall x f =>
    st.domain.all (fun d =>
      foEval st (fun v => if v = x then d else asg v) f)
  | .exis x f =>
    st.domain.any (fun d =>
      foEval st (fun v => if v = x then d else asg v) f)

/-- op.get_free_vars_and_consts (op.py): the symbols occurring in
atoms outside the scope of a quantifier binding them (the source
returns tuple(set(...)); here first-occurrence order). -/
def free_vars_and_consts (bound : List Nat) : Fog → List Nat
  | .tru | .fls => []
  | .eqa a b => ([a, b].filter (fun v => v ∉ bound)).dedup
  | .edga a b => ([a, b].filter (fun v => v ∉ bound)).dedup
  | .lta a b => ([a, b].filter (fun v => v ∉ bound)).dedup
  | .neg f => free_vars_and_consts bound f
  | .land f g =>
    (free_vars_and_consts bound f ++ free_vars_and_consts bound g).dedup
  | .lor f g =>
    (free_vars_and_consts bound f ++ free_vars_and_consts bound g).dedup
  | .impl f g =>
    (free_vars_and_consts bound f ++ free_vars_and_consts bound g).dedup
  | .iff f g =>
    (free_vars_and_consts bound f ++ free_vars_and_consts bound g).dedup
  | .fall x f => free_vars_and_consts (bound ++ [x]) f
  | .exis x f => free_vars_and_consts (bound ++ [x]) f

/-- op.get_free_vars (op.py): the free symbols that are variables. -/
def get_free_vars (nm : NameMgr) (f : Fog) : List Nat :=
  (free_vars_and_consts [] f).filter (fun i => nm.is_variable i)

instance : Inhabited Cnf := ⟨⟨0, [], [], [], 0, 0, []⟩⟩

/-! ### Concrete compilation runs -/

/-- The graph structure over the two-vertex graph 1 - 2 with the
direct encoding and vertex-name prefix "V", built on an empty
registry; the registry becomes ["V1", "V2"], the domain (1, 2) with
codes (1,) and (2,), and V1 < V2 in the internal order. -/
def lt_st : GrSt :=
  match GrSt.init [1, 2] [(1, 2)] "direct" "V" none [] with
  | .ok s => s
  | .error _ => default

/-- The sentence ~ V1 < V2 (no free variable), as Fog.read produces
it: the negation of the lt atom of the two vertex constants. -/
def lt_formula : Fog := .neg (.lta 1 2)

/-- The compilation of lt_formula over lt_st: Boolean encoding (the
quantifier expansion is the identity on the quantifier-free
sentence), the auxiliary constraint of the direct encoding (the True
constant), and the Tseitin CNF conversion. -/
def lt_pipeline : Except String Cnf := do
  let (p, st1) ← perform_boolean_encoding false lt_st lt_formula
  let (a, st2) ← compute_auxiliary_constraint false st1 lt_formula
  Cnf.init [p, a] (some st2)

/-- The Cnf object of lt_pipeline. -/
def lt_cnf : Cnf :=
  match lt_pipeline with
  | .ok c => c
  | .error _ => default

/-- A full assignment of the external CNF variables of lt_cnf
(setting both chain variables of be_lt false, which already violates
the forced conjunct s0 iff T inside the negated be_lt formula). -/
def lt_model : List Int := [1, -2, 3, -4, -5, -6, -7, 8, 9, 10]

/-- lt_st extended by registering the first-order variable "x"
(NameMgr.lookup_index appends it with index 3). -/
def eq_st : GrSt :=
  match lt_st.nm.lookup_index "x" with
  | .ok (_, nm1) => { lt_st with nm := nm1 }
  | .error _ => default

/-- The formula (x = V1) | (x = V2) with one free variable x, as the
Fog constructors build it (the eq atoms are name-normalized). -/
def eq_formula : Fog := .lor (.eqa 1 3) (.eqa 2 3)

/-- The compilation of eq_formula over eq_st. -/
def eq_pipeline : Except String Cnf := do
  let (p, st1) ← perform_boolean_encoding false eq_st eq_formula
  let c ← Cnf.init [p] (some st1)
  pure c

/-- The Cnf object of eq_pipeline: base = 2 decodable external
variables (the code bits of x), nvar = 7. -/
def eq_cnf : Cnf :=
  match eq_pipeline with
  | .ok c => c
  | .error _ => default

/-- The structure state after the Boolean encoding of eq_formula
(the registry holds the two auxiliary code-bit names of x). -/
def eq_stFinal : GrSt :=
  match perform_boolean_encoding false eq_st eq_formula with
  | .ok (_, s) => s
  | .error _ => default

/-- A satisfying full assignment of the external CNF variables of
eq_cnf, the model with x at vertex 2: the decodable externals are
1 (true) and 2 (false), and the Tseitin auxiliaries 3 and 4 are
false. -/
def eq_model : List Int := [1, -2, -3, -4, 5, 6, 7]

instance exceptDecEq {ε α : Type} [DecidableEq ε] [DecidableEq α] :
    DecidableEq (Except ε α) := fun a b =>
  match a, b with
  | .error e, .error f =>
    if h : e = f then .isTrue (by rw [h])
    else .isFalse (fun hh => by
      injection hh with h2
      exact h h2)
  | .error _, .ok _ => .isFalse (fun hh => by injection hh)
  | .ok _, .error _ => .isFalse (fun hh => by injection hh)
  | .ok u, .ok v =>
    if h : u = v then .isTrue (by rw [h])
    else .isFalse (fun hh => by
      injection hh with h2
      exact h h2)

/-! ## Theorems -/

set_option maxRecDepth 100000

/-- Registered names are pairwise distinct: NameMgr.lookup_index only
appends a name that is not yet in _inv_list, so the registry holds no
duplicate; under this invariant equal names imply equal indices. -/
theorem lookup_name_inj (nm : NameMgr) (hnd : nm.Nodup) (x y : Nat)
    (hx : nm.has_name x) (hy : nm.has_name y)
    (h : nm.lookup_name x = nm.lookup_name y) : x = y := by
  obtain ⟨hx0, hxl⟩ := hx
  obtain ⟨hy0, hyl⟩ := hy
  have hx' : x - 1 < nm.length := by omega
  have hy' : y - 1 < nm.length := by omega
  unfold NameMgr.lookup_name at h
  rw [List.get?_eq_get hx', List.get?_eq_get hy'] at h
  simp only [Option.getD_some] at h
  have h2 := (List.Nodup.get_inj_iff hnd
    (i := ⟨x - 1, hx'⟩) (j := ⟨y - 1, hy'⟩)).mp h
  have hxy : x - 1 = y - 1 := congrArg Fin.val h2
  omega

theorem strLtb_irrefl (s : List Char) : strLtb s s = false := by
  induction s with
  | nil => rfl
  | cons a as ih => simp [strLtb, ih]

theorem strLtb_asymm (s t : List Char) (h : strLtb s t = true) :
    strLtb t s = false := by
  induction s generalizing t with
  | nil =>
    cases t with
    | nil => simp [strLtb] at h
    | cons b bs => simp [strLtb]
  | cons a as ih =>
    cases t with
    | nil => simp [strLtb] at h
    | cons b bs =>
      simp only [strLtb, Bool.or_eq_true, Bool.and_eq_true,
        decide_eq_true_eq] at h ⊢
      rcases h with h | ⟨hab, h⟩
      · simp only [Bool.or_eq_false_iff, Bool.and_eq_false_iff,
          decide_eq_false_iff_not]
        constructor
        · omega
        · left; omega
      · simp only [Bool.or_eq_false_iff, Bool.and_eq_false_iff,
          decide_eq_false_iff_not]
        constructor
        · omega
        · right; exact ih bs h

theorem strLtb_eq_of_not (s t : List Char) (h1 : strLtb s t = false)
    (h2 : strLtb t s = false) : s = t := by
  induction s generalizing t with
  | nil =>
    cases t with
    | nil => rfl
    | cons b bs => simp [strLtb] at h1
  | cons a as ih =>
    cases t with
    | nil => simp [strLtb] at h2
    | cons b bs =>
      simp only [strLtb, Bool.or_eq_false_iff, Bool.and_eq_false_iff,
        decide_eq_false_iff_not] at h1 h2
      obtain ⟨hab, h1'⟩ := h1
      obtain ⟨hba, h2'⟩ := h2
      have hab' : a.toNat = b.toNat := by omega
      have : a = b :=
        Char.eq_of_val_eq (UInt32.eq_of_val_eq (Fin.val_injective hab'))
      subst this
      rcases h1' with h | h
      · omega
      · rcases h2' with h' | h'
        · omega
        · exact congrArg (a :: ·) (ih bs h h')

theorem normalizePair_comm (nm : NameMgr) (hnd : nm.Nodup) (x y : Nat)
    (hx : nm.has_name x) (hy : nm.has_name y) :
    Fog.normalizePair nm x y = Fog.normalizePair nm y x := by
  unfold Fog.normalizePair Fog.cmp_atom_args_lt
  rcases hyx : strLtb (nm.lookup_name y).data (nm.lookup_name x).data with _ | _
  · rcases hxy : strLtb (nm.lookup_name x).data (nm.lookup_name y).data with _ | _
    · have hnames : (nm.lookup_name x).data = (nm.lookup_name y).data :=
        strLtb_eq_of_not _ _ hxy hyx
      have : nm.lookup_name x = nm.lookup_name y := by
        cases hX : nm.lookup_name x
        cases hY : nm.lookup_name y
        rw [hX, hY] at hnames
        exact congrArg String.mk hnames
      have := lookup_name_inj nm hnd x y hx hy this
      subst this
      simp
    · simp [hxy]
  · have := strLtb_asymm _ _ hyx
    simp [this]

/-- C3: for all registered symbols x and y, Fog.eq(x, y) and
Fog.eq(y, x) build the identical node, and likewise Fog.edg; Fog.lt
does not normalize the argument order, so for x not equal to y the
nodes Fog.lt(x, y) and Fog.lt(y, x) are distinct. -/
theorem fog_atom_normalization (nm : NameMgr) (hnd : nm.Nodup)
    (x y : Nat) (hx : nm.has_name x) (hy : nm.has_name y) :
    Fog.eq nm x y = Fog.eq nm y x ∧ Fog.edg nm x y = Fog.edg nm y x ∧
    (x ≠ y → Fog.lt nm x y ≠ Fog.lt nm y x) := by
  have hp := normalizePair_comm nm hnd x y hx hy
  refine ⟨?_, ?_, ?_⟩
  · unfold Fog.eq
    rw [hp]
    simp [hx, hy]
  · unfold Fog.edg
    rw [hp]
    simp [hx, hy]
  · intro hne
    unfold Fog.lt
    simp only [hx, hy, and_self, if_pos]
    intro h
    simp only [Option.some.injEq, Fog.lta.injEq] at h
    exact hne h.1

theorem nnf_postcondition (negated : Bool) (f : Fog) :
    Fog.noImplIff (Fog.nnf negated f) = true ∧
    Fog.negOnlyAboveAtoms (Fog.nnf negated f) = true := by
  induction negated, f using Fog.nnf.induct <;>
    simp_all [Fog.nnf, Fog.noImplIff, Fog.negOnlyAboveAtoms, Fog.is_atom]

/-- C4: for every formula f, compute_nnf(f) contains no implies node
and no iff node, and every negation node in the result has an atom as
its operand. -/
theorem compute_nnf_postcondition (f : Fog) :
    Fog.noImplIff (Fog.compute_nnf f) = true ∧
    Fog.negOnlyAboveAtoms (Fog.compute_nnf f) = true :=
  nnf_postcondition false f

theorem substitute_core_qf_free (nm : NameMgr) (y x : Nat) (f : Fog)
    (h : Fog.is_qf_free f = true) :
    Fog.is_qf_free (Fog.substitute_core nm y x f) = true := by
  induction f with
  | tru => rfl
  | fls => rfl
  | edga a b => rfl
  | eqa a b => rfl
  | lta a b => rfl
  | neg f ih => simp_all [Fog.substitute_core, Fog.is_qf_free]
  | land f g ih1 ih2 => simp_all [Fog.substitute_core, Fog.is_qf_free]
  | lor f g ih1 ih2 => simp_all [Fog.substitute_core, Fog.is_qf_free]
  | impl f g ih1 ih2 => simp_all [Fog.substitute_core, Fog.is_qf_free]
  | iff f g ih1 ih2 => simp_all [Fog.substitute_core, Fog.is_qf_free]
  | fall b f ih => simp [Fog.is_qf_free] at h
  | exis b f ih => simp [Fog.is_qf_free] at h

theorem binop2_qf_free (tag : String) (l r : Fog)
    (hl : Fog.is_qf_free l = true) (hr : Fog.is_qf_free r = true) :
    Fog.is_qf_free (Fog.binop2 tag l r) = true := by
  unfold Fog.binop2
  split <;> simp [Fog.is_qf_free, hl, hr]

theorem binop_batch_rec_qf_free (tag : String) (l : List Fog)
    (h : ∀ g ∈ l, Fog.is_qf_free g = true) :
    Fog.is_qf_free (Fog.binop_batch_rec tag l) = true := by
  induction l using Fog.binop_batch_rec.induct tag with
  | case1 => rw [Fog.binop_batch_rec]; rfl
  | case2 f => rw [Fog.binop_batch_rec]; exact h f (by simp)
  | case3 f g =>
    rw [Fog.binop_batch_rec]
    exact binop2_qf_free tag f g (h f (by simp)) (h g (by simp))
  | case4 a b c rest ih1 ih2 =>
    rw [Fog.binop_batch_rec]
    refine binop2_qf_free tag _ _ (ih1 ?_) (ih2 ?_)
    · intro g hg
      exact h g (List.mem_of_mem_take hg)
    · intro g hg
      exact h g (List.mem_of_mem_drop hg)

theorem foldl_binop2_qf_free (tag : String) (fs : List Fog) (f : Fog)
    (hf : Fog.is_qf_free f = true)
    (h : ∀ g ∈ fs, Fog.is_qf_free g = true) :
    Fog.is_qf_free (fs.foldl (Fog.binop2 tag) f) = true := by
  induction fs generalizing f with
  | nil => exact hf
  | cons g gs ih =>
    simp only [List.foldl_cons]
    exact ih _ (binop2_qf_free tag f g hf (h g (by simp)))
      (fun k hk => h k (by simp [hk]))

theorem binop_batch_qf_free (flag : Bool) (tag : String) (li : List Fog)
    (g : Fog) (hok : Fog.binop_batch flag tag li = .ok g)
    (h : ∀ k ∈ li, Fog.is_qf_free k = true) :
    Fog.is_qf_free g = true := by
  unfold Fog.binop_batch at hok
  split at hok
  · exact absurd hok (by simp)
  · match li, hok with
    | f :: fs, hok =>
      simp only [Except.ok.injEq] at hok
      subst hok
      split
      · exact binop_batch_rec_qf_free tag (f :: fs) h
      · exact foldl_binop2_qf_free tag fs f (h f (by simp))
          (fun k hk => h k (by simp [hk]))

theorem substList_qf_free (nm : NameMgr) (x : Nat) (g : Fog)
    (hg : Fog.is_qf_free g = true) (dom : List Nat) (li : List Fog)
    (hok : Fog.substList nm g x dom = .ok li) :
    ∀ k ∈ li, Fog.is_qf_free k = true := by
  induction dom generalizing li with
  | nil =>
    simp only [Fog.substList, Except.ok.injEq] at hok
    subst hok
    intro k hk
    exact absurd hk (by simp)
  | cons d ds ih =>
    simp only [Fog.substList] at hok
    cases hd : Fog.substitute nm g d x with
    | error e => simp [hd, bind, Except.bind] at hok
    | ok r =>
      rw [hd] at hok
      cases hds : Fog.substList nm g x ds with
      | error e => simp [hds, bind, Except.bind] at hok
      | ok rs =>
        rw [hds] at hok
        simp only [bind, Except.bind, pure, Except.pure,
          Except.ok.injEq] at hok
        subst hok
        intro k hk
        rcases List.mem_cons.mp hk with h1 | h1
        · subst h1
          unfold Fog.substitute at hd
          split at hd
          · exact absurd hd (by simp)
          · split at hd
            · exact absurd hd (by simp)
            · simp only [Except.ok.injEq] at hd
              subst hd
              exact substitute_core_qf_free nm d x g hg
        · exact ih rs hds k h1

theorem binop_tag_qf_free (tag : String) (l r g : Fog)
    (hok : Fog.binop tag l r = .ok g)
    (hl : Fog.is_qf_free l = true) (hr : Fog.is_qf_free r = true) :
    Fog.is_qf_free g = true := by
  unfold Fog.binop at hok
  split at hok
  · simp only [Except.ok.injEq] at hok; subst hok
    simp [Fog.is_qf_free, hl, hr]
  · split at hok
    · simp only [Except.ok.injEq] at hok; subst hok
      simp [Fog.is_qf_free, hl, hr]
    · split at hok
      · simp only [Except.ok.injEq] at hok; subst hok
        simp [Fog.is_qf_free, hl, hr]
      · split at hok
        · simp only [Except.ok.injEq] at hok; subst hok
          simp [Fog.is_qf_free, hl, hr]
        · exact absurd hok (by simp)

theorem eliminate_qf_core_qf_free (nm : NameMgr) (flag : Bool)
    (dom : List Nat) (f : Fog) (g : Fog)
    (hok : Fog.eliminate_qf_core nm flag dom f = .ok g) :
    Fog.is_qf_free g = true := by
  induction f generalizing g with
  | tru =>
    simp only [Fog.eliminate_qf_core, Except.ok.injEq] at hok
    subst hok; rfl
  | fls =>
    simp only [Fog.eliminate_qf_core, Except.ok.injEq] at hok
    subst hok; rfl
  | edga a b =>
    simp only [Fog.eliminate_qf_core, Except.ok.injEq] at hok
    subst hok; rfl
  | eqa a b =>
    simp only [Fog.eliminate_qf_core, Except.ok.injEq] at hok
    subst hok; rfl
  | lta a b =>
    simp only [Fog.eliminate_qf_core, Except.ok.injEq] at hok
    subst hok; rfl
  | neg f ih =>
    simp only [Fog.eliminate_qf_core] at hok
    cases hf : Fog.eliminate_qf_core nm flag dom f with
    | error e => simp [hf, bind, Except.bind] at hok
    | ok l =>
      rw [hf] at hok
      simp only [bind, Except.bind, pure, Except.pure,
        Except.ok.injEq] at hok
      subst hok
      simpa [Fog.is_qf_free] using ih l hf
  | land f1 f2 ih1 ih2 =>
    simp only [Fog.eliminate_qf_core] at hok
    cases h1 : Fog.eliminate_qf_core nm flag dom f1 with
    | error e => simp [h1, bind, Except.bind] at hok
    | ok l =>
      rw [h1] at hok
      cases h2 : Fog.eliminate_qf_core nm flag dom f2 with
      | error e => simp [h2, bind, Except.bind] at hok
      | ok r =>
        rw [h2] at hok
        simp only [bind, Except.bind] at hok
        exact binop_tag_qf_free _ l r g hok (ih1 l h1) (ih2 r h2)
  | lor f1 f2 ih1 ih2 =>
    simp only [Fog.eliminate_qf_core] at hok
    cases h1 : Fog.eliminate_qf_core nm flag dom f1 with
    | error e => simp [h1, bind, Except.bind] at hok
    | ok l =>
      rw [h1] at hok
      cases h2 : Fog.eliminate_qf_core nm flag dom f2 with
      | error e => simp [h2, bind, Except.bind] at hok
      | ok r =>
        rw [h2] at hok
        simp only [bind, Except.bind] at hok
        exact binop_tag_qf_free _ l r g hok (ih1 l h1) (ih2 r h2)
  | impl f1 f2 ih1 ih2 =>
    simp only [Fog.eliminate_qf_core] at hok
    cases h1 : Fog.eliminate_qf_core nm flag dom f1 with
    | error e => simp [h1, bind, Except.bind] at hok
    | ok l =>
      rw [h1] at hok
      cases h2 : Fog.eliminate_qf_core nm flag dom f2 with
      | error e => simp [h2, bind, Except.bind] at hok
      | ok r =>
        rw [h2] at hok
        simp only [bind, Except.bind] at hok
        exact binop_tag_qf_free _ l r g hok (ih1 l h1) (ih2 r h2)
  | iff f1 f2 ih1 ih2 =>
    simp only [Fog.eliminate_qf_core] at hok
    cases h1 : Fog.eliminate_qf_core nm flag dom f1 with
    | error e => simp [h1, bind, Except.bind] at hok
    | ok l =>
      rw [h1] at hok
      cases h2 : Fog.eliminate_qf_core nm flag dom f2 with
      | error e => simp [h2, bind, Except.bind] at hok
      | ok r =>
        rw [h2] at hok
        simp only [bind, Except.bind] at hok
        exact binop_tag_qf_free _ l r g hok (ih1 l h1) (ih2 r h2)
  | fall x f ih =>
    simp only [Fog.eliminate_qf_core] at hok
    cases hf : Fog.eliminate_qf_core nm flag dom f with
    | error e => simp [hf, bind, Except.bind] at hok
    | ok b =>
      rw [hf] at hok
      simp only [bind, Except.bind] at hok
      cases hli : Fog.substList nm b x dom with
      | error e => simp [hli] at hok
      | ok li =>
        rw [hli] at hok
        exact binop_batch_qf_free flag "&" li g hok
          (substList_qf_free nm x b (ih b hf) dom li hli)
  | exis x f ih =>
    simp only [Fog.eliminate_qf_core] at hok
    cases hf : Fog.eliminate_qf_core nm flag dom f with
    | error e => simp [hf, bind, Except.bind] at hok
    | ok b =>
      rw [hf] at hok
      simp only [bind, Except.bind] at hok
      cases hli : Fog.substList nm b x dom with
      | error e => simp [hli] at hok
      | ok li =>
        rw [hli] at hok
        exact binop_batch_qf_free flag "|" li g hok
          (substList_qf_free nm x b (ih b hf) dom li hli)

/-- C5: quantifier expansion.  Calling eliminate_qf with no structure
raises; with a structure of domain dom, every subformula forall x. f
is replaced (bottom-up) by the binop_batch conjunction over d in dom
of the processed body with d substituted for the free occurrences of
x, and exists x. f by the corresponding disjunction; consequently
every successful result is quantifier-free. -/
theorem eliminate_qf_spec (nm : NameMgr) (flag : Bool) :
    (∀ f, Fog.eliminate_qf nm flag none f =
      .error "Set relational structure") ∧
    (∀ dom x f, Fog.eliminate_qf nm flag (some dom) (.fall x f) =
      (Fog.eliminate_qf_core nm flag dom f).bind (fun g =>
        (Fog.substList nm g x dom).bind
          (fun li => Fog.binop_batch flag "&" li))) ∧
    (∀ dom x f, Fog.eliminate_qf nm flag (some dom) (.exis x f) =
      (Fog.eliminate_qf_core nm flag dom f).bind (fun g =>
        (Fog.substList nm g x dom).bind
          (fun li => Fog.binop_batch flag "|" li))) ∧
    (∀ dom f g, Fog.eliminate_qf nm flag (some dom) f = .ok g →
      Fog.is_qf_free g = true) := by
  refine ⟨fun f => rfl, fun dom x f => rfl, fun dom x f => rfl,
    fun dom f g hok => ?_⟩
  exact eliminate_qf_core_qf_free nm flag dom f g hok

/-- Witness for C5: expanding forall x. (x = V1) over the one-object
domain of the constant V1 yields the quantifier-free atom V1 = V1. -/
theorem eliminate_qf_spec_witness : Fog.is_qf_free (.eqa 2 2) = true :=
  (eliminate_qf_spec ["x", "V1"] false).2.2.2 [2]
    (.fall 1 (.eqa 1 2)) (.eqa 2 2) rfl

/-- C6 (code evaluated at the failing input): the path graph with
vertices 1, 2, 3 and edges (1,2), (2,3) is simple, has no isolated
vertex and no isolated edge (an edge both of whose endpoints have
degree one), yet Ecc.__init__ raises "isolated edge is not allowed."
because its isolated-edge test compares only the first endpoint's
degree with one and merely checks truthiness of the second. -/
theorem ecc_init_rejects_path_graph :
    (∀ v ∈ [1, 2, 3], Ecc.degree [(1, 2), (2, 3)] v ≠ 0) ∧
    (∀ e ∈ [(1, 2), (2, 3)],
      ¬ (Ecc.degree [(1, 2), (2, 3)] e.1 = 1 ∧
         Ecc.degree [(1, 2), (2, 3)] e.2 = 1)) ∧
    Ecc.init [1, 2, 3] [(1, 2), (2, 3)] =
      .error "isolated edge is not allowed." := by decide

/-- C10 (code evaluated at the failing input): a triangle plus one
isolated vertex has exactly one isolated vertex and no isolated edge,
but Ecc.__init__ raises (KeyError) instead of succeeding, because the
neighborhood dictionary _N is populated only from edge endpoints and
the isolated-vertex loop reads _N[v] for every vertex. -/
theorem ecc_init_rejects_single_isolated_vertex :
    (Ecc.degree [(1, 2), (2, 3), (1, 3)] 4 = 0) ∧
    (∀ v ∈ [1, 2, 3], Ecc.degree [(1, 2), (2, 3), (1, 3)] v ≠ 0) ∧
    (∀ e ∈ [(1, 2), (2, 3), (1, 3)],
      ¬ (Ecc.degree [(1, 2), (2, 3), (1, 3)] e.1 = 1 ∧
         Ecc.degree [(1, 2), (2, 3), (1, 3)] e.2 = 1)) ∧
    Ecc.init [1, 2, 3, 4] [(1, 2), (2, 3), (1, 3)] =
      .error "KeyError" := by decide

/-- C1 (code evaluated at the failing input): over the two-vertex
graph 1 - 2 with the direct encoding, the closed formula ~ V1 < V2 is
false (V1 < V2 holds in the internal order), it has no free variable
(so no domain constraint applies) and the auxiliary constraint of the
direct encoding is the True constant, yet the CNF produced from its
Boolean encoding is satisfied by a full assignment of the external
variables: the strict-prefix chain of be_lt is constrained only
inside the be_lt formula itself, so under the negation the chain
variables can be set to violate the forced conjunct s0 iff T.  Hence
the produced CNF is satisfiable while the formula has no satisfying
interpretation over the graph. -/
theorem boolean_encoding_pipeline_unsound_for_negated_lt :
    GrSt.init [1, 2] [(1, 2)] "direct" "V" none [] = .ok lt_st ∧
    Fog.lt lt_st.nm 1 2 = some (.lta 1 2) ∧
    get_free_vars lt_st.nm lt_formula = [] ∧
    lt_st.lt 1 2 = true ∧
    (∀ asg : Nat → Nat, foEval lt_st asg lt_formula = false) ∧
    lt_pipeline = .ok lt_cnf ∧
    lt_model.map Int.natAbs = List.range' 1 lt_cnf.nvar ∧
    modelSatisfies lt_model lt_cnf.cnf = true :=
  ⟨rfl, rfl, rfl, rfl, fun _ => rfl, rfl, rfl, rfl⟩

/-- C7 (code evaluated at the failing input): eq_model is a
satisfying full assignment of the external variables 1..7 of eq_cnf
(built with the structure eq_stFinal, base = 2 decodable variables);
decode_assignment filters on the signed literal x <= base instead of
its absolute value, so it also returns the internal literals -6 and
-7 of the two undecodable Tseitin auxiliaries, instead of only the
decodable internal literals 5 and -4. -/
theorem decode_assignment_keeps_negative_undecodable_literals :
    eq_pipeline = .ok eq_cnf ∧
    eq_cnf.base = 2 ∧
    eq_model.map Int.natAbs = List.range' 1 eq_cnf.nvar ∧
    modelSatisfies eq_model eq_cnf.cnf = true ∧
    Cnf.decode_assignment eq_cnf eq_model = [5, -4, -6, -7] ∧
    (eq_model.filter (fun x => decide (x.natAbs ≤ eq_cnf.base))).map
      eq_cnf.decode_lit = [5, -4] ∧
    eq_stFinal.is_decodable_boolean_var 4 = true ∧
    eq_stFinal.is_decodable_boolean_var 5 = true ∧
    eq_stFinal.is_decodable_boolean_var 6 = false ∧
    eq_stFinal.is_decodable_boolean_var 7 = false :=
  ⟨rfl, rfl, rfl, rfl, rfl, rfl, rfl, rfl, rfl, rfl⟩

/-- C8 (code evaluated at the failing input): eq_cnf has nvar = 7 and
a nonempty clause tuple, so by the claim Cnf.write should write the
DIMACS output; the source's condition
"if self.nvar == 0 or len(self.cnf):" raises exactly on such a
nonempty CNF. -/
theorem write_raises_on_ordinary_nonempty_cnf :
    eq_cnf.nvar ≠ 0 ∧ eq_cnf.cnf ≠ [] ∧
    Cnf.write_raises eq_cnf = true := by
  refine ⟨by decide, by decide, by decide⟩

/-- C9: op.compute_cnf raises on an empty iterable of Prop formulas
("empty formula given"), and consequently Cnf.__init__, whose first
step is op.compute_cnf, fails on an empty formula list whatever the
structure argument is. -/
theorem compute_cnf_rejects_empty_input :
    compute_cnf ([] : List PropForm) = .error "empty formula given" ∧
    ∀ stO : Option GrSt, Cnf.init [] stO = .error "empty formula given" :=
  ⟨rfl, fun _ => rfl⟩

/-! ### Lexical lemmas for the parser round-trip -/

theorem ne_of_bclass {p : Char → Bool} {c d : Char} (h : p c = true)
    (hd : p d = false) : c ≠ d := by
  intro he
  rw [he, hd] at h
  exact Bool.false_ne_true h

theorem isWs_cases {c : Char} (h : isWs c = true) :
    c = ' ' ∨ c = '\t' ∨ c = '\n' ∨ c = '\r' := by
  have h2 := h
  simp only [isWs, Bool.or_eq_true, decide_eq_true_eq] at h2
  tauto

theorem bclass_not_ws {p : Char → Bool} {c : Char} (h : p c = true)
    (h1 : p ' ' = false) (h2 : p '\t' = false) (h3 : p '\n' = false)
    (h4 : p '\r' = false) : isWs c = false := by
  cases hw : isWs c with
  | false => rfl
  | true => rcases isWs_cases hw with rfl | rfl | rfl | rfl <;> simp_all

theorem isLower_false_of_isUpper {c : Char} (h : c.isUpper = true) :
    c.isLower = false := by
  simp [Char.isUpper] at h
  simp [Char.isLower]
  intro h2
  have g1 : c.val.toNat ≤ 90 := h.2
  have g2 : 97 ≤ c.val.toNat := h2
  omega

theorem dropWs_cons_not {c : Char} (h : isWs c = false) (t : List Char) :
    dropWs (c :: t) = c :: t := by
  simp [dropWs, List.dropWhile_cons, h]

theorem dropWs_ws_append (sp s : List Char)
    (hsp : ∀ c ∈ sp, isWs c = true) : dropWs (sp ++ s) = dropWs s := by
  induction sp with
  | nil => rfl
  | cons c t ih =>
    have hc : isWs c = true := hsp c (by simp)
    have ih2 := ih (fun d hd => hsp d (by simp [hd]))
    simp only [List.cons_append, dropWs, List.dropWhile_cons, hc, if_true]
    exact ih2

theorem isPrefixOf_self_append (l r : List Char) :
    l.isPrefixOf (l ++ r) = true :=
  List.isPrefixOf_iff_prefix.mpr (List.prefix_append l r)

theorem parseLit_pos (sp : List Char) (hsp : ∀ c ∈ sp, isWs c = true)
    (c : Char) (hc : isWs c = false) (ts r : List Char) :
    Fog.parseLit (c :: ts) (sp ++ c :: (ts ++ r)) = some r := by
  unfold Fog.parseLit
  rw [dropWs_ws_append sp _ hsp, dropWs_cons_not hc]
  have hpre : (c :: ts).isPrefixOf (c :: (ts ++ r)) = true := by
    have h2 := isPrefixOf_self_append (c :: ts) r
    simp only [List.cons_append] at h2
    exact h2
  rw [if_pos hpre]
  simp only [List.length_cons, List.drop_succ_cons]
  rw [List.drop_left]

theorem parseLit_none (c : Char) (ts : List Char) (s : List Char)
    (h : (dropWs s).head? ≠ some c) : Fog.parseLit (c :: ts) s = none := by
  unfold Fog.parseLit
  cases hd : dropWs s with
  | nil => simp [List.isPrefixOf]
  | cons d t =>
    rw [hd] at h
    have hne : c ≠ d := fun he => h (by rw [he]; rfl)
    have hb : (c == d) = false := beq_eq_false_iff_ne.mpr hne
    simp [List.isPrefixOf_cons₂, hb]

theorem takeWhile_all_append (p : Char → Bool) (l r : List Char)
    (hl : ∀ x ∈ l, p x = true)
    (hr : r = [] ∨ ∃ d t, r = d :: t ∧ p d = false) :
    (l ++ r).takeWhile p = l ∧ (l ++ r).dropWhile p = r := by
  induction l with
  | nil =>
    rcases hr with rfl | ⟨d, t, rfl, hd⟩
    · simp
    · simp [List.takeWhile_cons, List.dropWhile_cons, hd]
  | cons a t ih =>
    have ha : p a = true := hl a (by simp)
    have ih2 := ih (fun x hx => hl x (by simp [hx]))
    simp [List.takeWhile_cons, List.dropWhile_cons, ha, ih2.1, ih2.2]

theorem parseWord_pos (hd body : Char → Bool) (sp : List Char)
    (hsp : ∀ c ∈ sp, isWs c = true) (c : Char) (cs r : List Char)
    (hc : hd c = true) (hcw : isWs c = false)
    (hcs : ∀ x ∈ cs, body x = true)
    (hr : r = [] ∨ ∃ d t, r = d :: t ∧ body d = false) :
    Fog.parseWord hd body (sp ++ c :: (cs ++ r)) = some (⟨c :: cs⟩, r) := by
  unfold Fog.parseWord
  rw [dropWs_ws_append sp _ hsp, dropWs_cons_not hcw]
  have ht := takeWhile_all_append body cs r hcs hr
  simp [hc, ht.1, ht.2]

theorem parseWord_none (hd body : Char → Bool) (s : List Char)
    (h : ∀ c t, dropWs s = c :: t → hd c = false) :
    Fog.parseWord hd body s = none := by
  unfold Fog.parseWord
  cases hds : dropWs s with
  | nil => rfl
  | cons c t => simp [h c t hds]

theorem lookup_name_get (nm : NameMgr) (i : Nat) (h1 : 0 < i)
    (h2 : i ≤ nm.length) :
    nm.lookup_name i = nm.get ⟨i - 1, by omega⟩ := by
  unfold NameMgr.lookup_name
  rw [List.get?_eq_get (by omega : i - 1 < nm.length)]
  rfl

/-- A registered name with surface lexical syntax is found again by
NameMgr.lookup_index at the same index, with the registry unchanged. -/
theorem lookup_index_registered (nm : NameMgr) (hnd : nm.Nodup) (i : Nat)
    (hreg : nm.has_name i) (hv : validName (nm.lookup_name i) = true) :
    nm.lookup_index (nm.lookup_name i) = .ok (i, nm) := by
  obtain ⟨h0, hl⟩ := hreg
  have hlt : i - 1 < nm.length := by omega
  have hget : nm.lookup_name i = nm.get ⟨i - 1, hlt⟩ :=
    lookup_name_get nm i h0 hl
  have hhead : ∃ c cs, (nm.lookup_name i).data = c :: cs ∧
      (c.isLower = true ∨ c.isUpper = true) := by
    unfold validName validVarName validConName at hv
    cases hdata : (nm.lookup_name i).data with
    | nil => rw [hdata] at hv; simp at hv
    | cons c cs =>
      rw [hdata] at hv
      simp only [Bool.or_eq_true, Bool.and_eq_true] at hv
      rcases hv with ⟨hc, _⟩ | ⟨hc, _⟩
      · exact ⟨c, cs, rfl, Or.inl hc⟩
      · exact ⟨c, cs, rfl, Or.inr hc⟩
  obtain ⟨c, cs, hdata, hc⟩ := hhead
  have hmem : nm.lookup_name i ∈ nm := by
    rw [hget]; exact List.get_mem nm _ hlt
  have hheadc : headChar (nm.lookup_name i) = some c := by
    unfold headChar; rw [hdata]; rfl
  have hne_us : ¬ (headChar (nm.lookup_name i) = some '_' ∧
      nm.lookup_name i ∈ nm) := by
    rintro ⟨hu, _⟩
    rw [hheadc] at hu
    have hcu : c = '_' := by injection hu
    subst hcu
    rcases hc with hc | hc
    · exact absurd hc (by decide)
    · exact absurd hc (by decide)
  have halpha : isAlphaHead (nm.lookup_name i) = true := by
    unfold isAlphaHead
    rw [hheadc]
    simp only [Char.isAlpha, Bool.or_eq_true]
    tauto
  have hidx : List.indexOf (nm.lookup_name i) nm = i - 1 := by
    rw [hget]
    exact List.get_indexOf hnd ⟨i - 1, hlt⟩
  unfold NameMgr.lookup_index
  rw [if_neg hne_us, if_neg (by simp [halpha]), if_pos hmem, hidx]
  congr 2
  omega

theorem varBody_not_ws {c : Char} (h : varBody c = true) :
    isWs c = false :=
  bclass_not_ws h (by decide) (by decide) (by decide) (by decide)

theorem conBody_not_ws {c : Char} (h : conBody c = true) :
    isWs c = false :=
  bclass_not_ws h (by decide) (by decide) (by decide) (by decide)

theorem isLower_not_ws {c : Char} (h : c.isLower = true) :
    isWs c = false :=
  bclass_not_ws h (by decide) (by decide) (by decide) (by decide)

theorem isUpper_not_ws {c : Char} (h : c.isUpper = true) :
    isWs c = false :=
  bclass_not_ws h (by decide) (by decide) (by decide) (by decide)

theorem wfSymb_elim {nm : NameMgr} {i : Nat}
    (h : Fog.wfSymb nm i = true) :
    nm.has_name i ∧ validName (nm.lookup_name i) = true := by
  simp only [Fog.wfSymb, Bool.and_eq_true, decide_eq_true_eq] at h
  exact h

theorem validVarName_elim {s : String}
    (h : validVarName s = true) :
    ∃ c cs, s.data = c :: cs ∧ c.isLower = true ∧
      ∀ x ∈ cs, varBody x = true := by
  unfold validVarName at h
  cases hdata : s.data with
  | nil => rw [hdata] at h; exact absurd h (by simp)
  | cons c cs =>
    rw [hdata] at h
    simp only [Bool.and_eq_true, List.all_eq_true] at h
    exact ⟨c, cs, rfl, h.1, h.2⟩

theorem validConName_elim {s : String}
    (h : validConName s = true) :
    ∃ c cs, s.data = c :: cs ∧ c.isUpper = true ∧
      ∀ x ∈ cs, conBody x = true := by
  unfold validConName at h
  cases hdata : s.data with
  | nil => rw [hdata] at h; exact absurd h (by simp)
  | cons c cs =>
    rw [hdata] at h
    simp only [Bool.and_eq_true, List.all_eq_true] at h
    exact ⟨c, cs, rfl, h.1, h.2⟩

/-- The stop condition after a printed subformula: none of the
continuations of goodRest begins with a name character. -/
theorem goodRest_stop (rest : List Char) (h : Fog.goodRest rest) :
    rest = [] ∨ ∃ d t, rest = d :: t ∧ varBody d = false ∧
      conBody d = false := by
  rcases h with rfl | ⟨r, rfl⟩ | ⟨r, rfl⟩ | ⟨r, rfl⟩ | ⟨r, rfl⟩ | ⟨r, rfl⟩
  · exact Or.inl rfl
  · exact Or.inr ⟨')', r, rfl, by decide, by decide⟩
  · exact Or.inr ⟨' ', _, rfl, by decide, by decide⟩
  · exact Or.inr ⟨' ', _, rfl, by decide, by decide⟩
  · exact Or.inr ⟨' ', _, rfl, by decide, by decide⟩
  · exact Or.inr ⟨' ', _, rfl, by decide, by decide⟩

/-- The TERM production parses a printed registered name of the
surface syntax back to its index, leaving the registry unchanged. -/
theorem parseTerm_print (nm : NameMgr) (hnd : nm.Nodup) (i : Nat)
    (hreg : nm.has_name i) (hv : validName (nm.lookup_name i) = true)
    (sp : List Char) (hsp : ∀ c ∈ sp, isWs c = true) (r : List Char)
    (hr : r = [] ∨ ∃ d t, r = d :: t ∧ varBody d = false ∧
      conBody d = false) :
    Fog.parseTerm nm (sp ++ Fog.printName nm i ++ r) = some (i, nm, r) := by
  have hv2 := hv
  unfold validName at hv2
  rw [Bool.or_eq_true] at hv2
  have hlook := lookup_index_registered nm hnd i hreg hv
  rcases hv2 with hvar | hcon
  · obtain ⟨c, cs, hdata, hcl, hcs⟩ := validVarName_elim hvar
    have hpn : Fog.printName nm i = c :: cs := by
      unfold Fog.printName; rw [hdata]
    have hin : sp ++ Fog.printName nm i ++ r = sp ++ c :: (cs ++ r) := by
      rw [hpn, List.append_assoc, List.cons_append]
    have hrv : r = [] ∨ ∃ d t, r = d :: t ∧ varBody d = false := by
      rcases hr with rfl | ⟨d, t, rfl, hd1, _⟩
      · exact Or.inl rfl
      · exact Or.inr ⟨d, t, rfl, hd1⟩
    have hw := parseWord_pos Char.isLower varBody sp hsp c cs r hcl
      (isLower_not_ws hcl) hcs hrv
    have hstr : (⟨c :: cs⟩ : String) = nm.lookup_name i := by
      rw [← hdata]
    unfold Fog.parseTerm
    rw [hin, hw, hstr]
    simp only [hlook]
  · obtain ⟨c, cs, hdata, hcu, hcs⟩ := validConName_elim hcon
    have hpn : Fog.printName nm i = c :: cs := by
      unfold Fog.printName; rw [hdata]
    have hin : sp ++ Fog.printName nm i ++ r = sp ++ c :: (cs ++ r) := by
      rw [hpn, List.append_assoc, List.cons_append]
    have hrc : r = [] ∨ ∃ d t, r = d :: t ∧ conBody d = false := by
      rcases hr with rfl | ⟨d, t, rfl, _, hd2⟩
      · exact Or.inl rfl
      · exact Or.inr ⟨d, t, rfl, hd2⟩
    have hdws : dropWs (sp ++ c :: (cs ++ r)) = c :: (cs ++ r) := by
      rw [dropWs_ws_append sp _ hsp, dropWs_cons_not (isUpper_not_ws hcu)]
    have hwn : Fog.parseWord Char.isLower varBody (sp ++ c :: (cs ++ r))
        = none := by
      refine parseWord_none _ _ _ (fun c' t' h' => ?_)
      rw [hdws] at h'
      have hcc : c = c' := by injection h'
      rw [← hcc]
      exact isLower_false_of_isUpper hcu
    have hw := parseWord_pos Char.isUpper conBody sp hsp c cs r hcu
      (isUpper_not_ws hcu) hcs hrc
    have hstr : (⟨c :: cs⟩ : String) = nm.lookup_name i := by
      rw [← hdata]
    unfold Fog.parseTerm
    rw [hin, hwn, hw, hstr]
    simp only [hlook]

theorem dropWs_space (r : List Char) : dropWs (' ' :: r) = dropWs r := by
  have h : isWs ' ' = true := by decide
  simp [dropWs, List.dropWhile_cons, h]

theorem parseLit_eq_none_goodRest (rest : List Char)
    (hgr : Fog.goodRest rest) : Fog.parseLit ['='] rest = none := by
  rcases hgr with rfl | ⟨r, rfl⟩ | ⟨r, rfl⟩ | ⟨r, rfl⟩ | ⟨r, rfl⟩ | ⟨r, rfl⟩ <;>
    refine parseLit_none _ _ _ ?_
  · simp [dropWs]
  · rw [dropWs_cons_not (by decide)]; simp
  · rw [dropWs_space, dropWs_cons_not (by decide)]; simp
  · rw [dropWs_space, dropWs_cons_not (by decide)]; simp
  · rw [dropWs_space, dropWs_cons_not (by decide)]; simp
  · rw [dropWs_space, dropWs_cons_not (by decide)]; simp

theorem parseTerm_none_head (nm : NameMgr) (s : List Char)
    (h : ∀ c t, dropWs s = c :: t → c.isLower = false ∧ c.isUpper = false) :
    Fog.parseTerm nm s = none := by
  unfold Fog.parseTerm
  rw [parseWord_none _ _ _ (fun c t hc => (h c t hc).1),
      parseWord_none _ _ _ (fun c t hc => (h c t hc).2)]

theorem parseLit_lt_goodRest (nm : NameMgr) (rest : List Char)
    (hgr : Fog.goodRest rest) :
    Fog.parseLit ['<'] rest = none ∨
    (∃ r, Fog.parseLit ['<'] rest = some ('-' :: '>' :: ' ' :: r) ∧
      Fog.parseTerm nm ('-' :: '>' :: ' ' :: r) = none) := by
  rcases hgr with rfl | ⟨r, rfl⟩ | ⟨r, rfl⟩ | ⟨r, rfl⟩ | ⟨r, rfl⟩ | ⟨r, rfl⟩
  · exact Or.inl (parseLit_none _ _ _ (by simp [dropWs]))
  · exact Or.inl (parseLit_none _ _ _
      (by rw [dropWs_cons_not (by decide)]; simp))
  · exact Or.inl (parseLit_none _ _ _
      (by rw [dropWs_space, dropWs_cons_not (by decide)]; simp))
  · exact Or.inl (parseLit_none _ _ _
      (by rw [dropWs_space, dropWs_cons_not (by decide)]; simp))
  · exact Or.inl (parseLit_none _ _ _
      (by rw [dropWs_space, dropWs_cons_not (by decide)]; simp))
  · refine Or.inr ⟨r, ?_, ?_⟩
    · have h := parseLit_pos [' '] (by decide) '<' (by decide) []
        ('-' :: '>' :: ' ' :: r)
      simpa using h
    · refine parseTerm_none_head _ _ (fun c t hc => ?_)
      rw [dropWs_cons_not (by decide)] at hc
      have hcc : '-' = c := by injection hc
      rw [← hcc]
      exact ⟨by decide, by decide⟩

theorem lookup_index_upper_ok (nm : NameMgr) (c : Char) (cs : List Char)
    (hcu : c.isUpper = true) :
    ∃ j nm2, nm.lookup_index ⟨c :: cs⟩ = .ok (j, nm2) := by
  unfold NameMgr.lookup_index
  have hhead : headChar ⟨c :: cs⟩ = some c := rfl
  have hne : ¬ (headChar (⟨c :: cs⟩ : String) = some '_' ∧
      (⟨c :: cs⟩ : String) ∈ nm) := by
    rintro ⟨h1, _⟩
    rw [hhead] at h1
    have hcu2 : c = '_' := by injection h1
    subst hcu2
    exact absurd hcu (by decide)
  have halpha : isAlphaHead (⟨c :: cs⟩ : String) = true := by
    unfold isAlphaHead
    rw [hhead]
    simp [Char.isAlpha, hcu]
  rw [if_neg hne, if_neg (by simp [halpha])]
  by_cases hm : (⟨c :: cs⟩ : String) ∈ nm
  · rw [if_pos hm]; exact ⟨_, _, rfl⟩
  · rw [if_neg hm]; exact ⟨_, _, rfl⟩

theorem parseTerm_upper_some (nm : NameMgr) (sp : List Char)
    (hsp : ∀ c ∈ sp, isWs c = true) (c : Char) (hcu : c.isUpper = true)
    (cs : List Char) (hcs : ∀ x ∈ cs, conBody x = true) (r : List Char)
    (hr : r = [] ∨ ∃ d t, r = d :: t ∧ conBody d = false) :
    ∃ j nm2, Fog.parseTerm nm (sp ++ c :: (cs ++ r)) = some (j, nm2, r) := by
  obtain ⟨j, nm2, hlook⟩ := lookup_index_upper_ok nm c cs hcu
  refine ⟨j, nm2, ?_⟩
  have hdws : dropWs (sp ++ c :: (cs ++ r)) = c :: (cs ++ r) := by
    rw [dropWs_ws_append sp _ hsp, dropWs_cons_not (isUpper_not_ws hcu)]
  have hwn : Fog.parseWord Char.isLower varBody (sp ++ c :: (cs ++ r))
      = none := by
    refine parseWord_none _ _ _ (fun c' t' h' => ?_)
    rw [hdws] at h'
    have hcc : c = c' := by injection h'
    rw [← hcc]
    exact isLower_false_of_isUpper hcu
  have hw := parseWord_pos Char.isUpper conBody sp hsp c cs r hcu
    (isUpper_not_ws hcu) hcs hr
  unfold Fog.parseTerm
  rw [hwn, hw]
  simp only [hlook]

theorem parseLtRel_none_after (nm nm1 : NameMgr) (j : Nat)
    (s rest : List Char)
    (hterm : Fog.parseTerm nm s = some (j, nm1, rest))
    (hgr : Fog.goodRest rest) : Fog.parseLtRel nm s = none := by
  unfold Fog.parseLtRel
  rcases parseLit_lt_goodRest nm1 rest hgr with hlt | ⟨r, hlt, htermn⟩
  · simp [hterm, hlt]
  · simp [hterm, hlt, htermn]

theorem parseEqRel_none_after (nm nm1 : NameMgr) (j : Nat)
    (s rest : List Char)
    (hterm : Fog.parseTerm nm s = some (j, nm1, rest))
    (hgr : Fog.goodRest rest) : Fog.parseEqRel nm s = none := by
  unfold Fog.parseEqRel
  simp [hterm, parseLit_eq_none_goodRest rest hgr]

/-- The EDG_REL production backtracks on a printed name followed by
an infix relation symbol: either the "edg" keyword does not match, or
it swallows a name prefix after which no "(" follows. -/
theorem parseEdg_none_on_name (nm : NameMgr) (a : Nat)
    (hv : validName (nm.lookup_name a) = true) (sp : List Char)
    (hsp : ∀ c ∈ sp, isWs c = true) (mid : List Char)
    (hm : ∃ m, mid = ' ' :: '=' :: m ∨ mid = ' ' :: '<' :: m) :
    Fog.parseEdg nm (sp ++ Fog.printName nm a ++ mid) = none := by
  rw [List.append_assoc]
  obtain ⟨m, hm⟩ := hm
  have hmid_head : mid.head? = some ' ' := by
    rcases hm with rfl | rfl <;> rfl
  have hmid_dws : ∃ d, (d = '=' ∨ d = '<') ∧ dropWs mid = d :: m := by
    rcases hm with rfl | rfl
    · exact ⟨'=', Or.inl rfl,
        by rw [dropWs_space, dropWs_cons_not (by decide)]⟩
    · exact ⟨'<', Or.inr rfl,
        by rw [dropWs_space, dropWs_cons_not (by decide)]⟩
  have hv2 := hv
  unfold validName at hv2
  rw [Bool.or_eq_true] at hv2
  rcases hv2 with hvar | hcon
  case inr =>
    obtain ⟨c, cs, hdata, hcu, _⟩ := validConName_elim hcon
    have hpn : Fog.printName nm a = c :: cs := by
      unfold Fog.printName; rw [hdata]
    have hdws : dropWs (sp ++ (Fog.printName nm a ++ mid)) =
        c :: (cs ++ mid) := by
      rw [hpn, List.cons_append,
        dropWs_ws_append sp _ hsp, dropWs_cons_not (isUpper_not_ws hcu)]
    have hlit : Fog.parseLit "edg".data (sp ++ (Fog.printName nm a ++ mid))
        = none := by
      refine parseLit_none 'e' ['d', 'g'] _ ?_
      rw [hdws]
      simp only [List.head?_cons, ne_eq, Option.some.injEq]
      exact (ne_of_bclass hcu (by decide)).symm ∘ Eq.symm
    simp [Fog.parseEdg, hlit]
  case inl =>
    obtain ⟨c, cs, hdata, hcl, hcs⟩ := validVarName_elim hvar
    have hpn : Fog.printName nm a = c :: cs := by
      unfold Fog.printName; rw [hdata]
    have hdws : dropWs (sp ++ (Fog.printName nm a ++ mid)) =
        c :: (cs ++ mid) := by
      rw [hpn, List.cons_append,
        dropWs_ws_append sp _ hsp, dropWs_cons_not (isLower_not_ws hcl)]
    cases hpre : ("edg".data : List Char).isPrefixOf (c :: (cs ++ mid)) with
    | false =>
      have hlit : Fog.parseLit "edg".data
          (sp ++ (Fog.printName nm a ++ mid)) = none := by
        unfold Fog.parseLit
        simp [hdws, hpre]
      simp [Fog.parseEdg, hlit]
    | true =>
      obtain ⟨u, hu⟩ := List.isPrefixOf_iff_prefix.mp hpre
      simp only [List.cons_append, List.nil_append] at hu
      injection hu with h1 h2
      cases cs with
      | nil =>
        exfalso
        simp only [List.nil_append] at h2
        rw [← h2] at hmid_head
        simp at hmid_head
      | cons c2 cs2 =>
        simp only [List.cons_append] at h2
        injection h2 with h3 h4
        cases cs2 with
        | nil =>
          exfalso
          simp only [List.nil_append] at h4
          rw [← h4] at hmid_head
          simp at hmid_head
        | cons c3 cs3 =>
          simp only [List.cons_append] at h4
          injection h4 with h5 h6
          subst h1 h3 h5
          have hlit1 : Fog.parseLit "edg".data
              (sp ++ (Fog.printName nm a ++ mid)) = some (cs3 ++ mid) := by
            unfold Fog.parseLit
            simp [hdws, hpre]
          have hlit2 : Fog.parseLit ['('] (cs3 ++ mid) = none := by
            cases cs3 with
            | nil =>
              obtain ⟨d, hd, hdw⟩ := hmid_dws
              refine parseLit_none '(' [] _ ?_
              simp only [List.nil_append, hdw]
              rcases hd with rfl | rfl <;> simp
            | cons d t =>
              have hdb : varBody d = true := hcs d (by simp)
              refine parseLit_none '(' [] _ ?_
              rw [List.cons_append, dropWs_cons_not (varBody_not_ws hdb)]
              simp only [List.head?_cons, ne_eq, Option.some.injEq]
              exact (ne_of_bclass hdb (by decide)).symm ∘ Eq.symm
          simp [Fog.parseEdg, hlit1, hlit2]

/-- The atom T parses from its printed form before any goodRest
continuation. -/
theorem parseAtom_tru (nm : NameMgr) (sp : List Char)
    (hsp : ∀ c ∈ sp, isWs c = true) (rest : List Char)
    (hgr : Fog.goodRest rest) :
    Fog.parseAtom nm (sp ++ 'T' :: rest) = some (.tru, nm, rest) := by
  have hdws : dropWs (sp ++ 'T' :: rest) = 'T' :: rest := by
    rw [dropWs_ws_append sp _ hsp, dropWs_cons_not (by decide)]
  have hedg : Fog.parseEdg nm (sp ++ 'T' :: rest) = none := by
    have hlit : Fog.parseLit "edg".data (sp ++ 'T' :: rest) = none := by
      refine parseLit_none 'e' ['d', 'g'] _ ?_
      rw [hdws]
      simp
    simp [Fog.parseEdg, hlit]
  have hstop : rest = [] ∨ ∃ d t, rest = d :: t ∧ conBody d = false := by
    rcases goodRest_stop rest hgr with rfl | ⟨d, t, h1, _, h3⟩
    · exact Or.inl rfl
    · exact Or.inr ⟨d, t, h1, h3⟩
  obtain ⟨j, nm2, hterm⟩ : ∃ j nm2,
      Fog.parseTerm nm (sp ++ 'T' :: rest) = some (j, nm2, rest) := by
    have h := parseTerm_upper_some nm sp hsp 'T' (by decide) []
      (by simp) rest hstop
    simpa using h
  have hlt := parseLtRel_none_after nm nm2 j _ rest hterm hgr
  have heq := parseEqRel_none_after nm nm2 j _ rest hterm hgr
  have hconT : Fog.parseLit ['T'] (sp ++ 'T' :: rest) = some rest := by
    have h := parseLit_pos sp hsp 'T' (by decide) [] rest
    simpa using h
  simp [Fog.parseAtom, Fog.parseCon, hedg, hlt, heq, hconT]

/-- The atom F parses from its printed form before any goodRest
continuation. -/
theorem parseAtom_fls (nm : NameMgr) (sp : List Char)
    (hsp : ∀ c ∈ sp, isWs c = true) (rest : List Char)
    (hgr : Fog.goodRest rest) :
    Fog.parseAtom nm (sp ++ 'F' :: rest) = some (.fls, nm, rest) := by
  have hdws : dropWs (sp ++ 'F' :: rest) = 'F' :: rest := by
    rw [dropWs_ws_append sp _ hsp, dropWs_cons_not (by decide)]
  have hedg : Fog.parseEdg nm (sp ++ 'F' :: rest) = none := by
    have hlit : Fog.parseLit "edg".data (sp ++ 'F' :: rest) = none := by
      refine parseLit_none 'e' ['d', 'g'] _ ?_
      rw [hdws]
      simp
    simp [Fog.parseEdg, hlit]
  have hstop : rest = [] ∨ ∃ d t, rest = d :: t ∧ conBody d = false := by
    rcases goodRest_stop rest hgr with rfl | ⟨d, t, h1, _, h3⟩
    · exact Or.inl rfl
    · exact Or.inr ⟨d, t, h1, h3⟩
  obtain ⟨j, nm2, hterm⟩ : ∃ j nm2,
      Fog.parseTerm nm (sp ++ 'F' :: rest) = some (j, nm2, rest) := by
    have h := parseTerm_upper_some nm sp hsp 'F' (by decide) []
      (by simp) rest hstop
    simpa using h
  have hlt := parseLtRel_none_after nm nm2 j _ rest hterm hgr
  have heq := parseEqRel_none_after nm nm2 j _ rest hterm hgr
  have hconT : Fog.parseLit ['T'] (sp ++ 'F' :: rest) = none := by
    refine parseLit_none 'T' [] _ ?_
    rw [hdws]
    simp
  have hconF : Fog.parseLit ['F'] (sp ++ 'F' :: rest) = some rest := by
    have h := parseLit_pos sp hsp 'F' (by decide) [] rest
    simpa using h
  simp [Fog.parseAtom, Fog.parseCon, hedg, hlt, heq, hconT, hconF]

/-- The printed atom x = y parses back to the identical node under
the well-formedness conditions. -/
theorem parseAtom_eqa (nm : NameMgr) (hnd : nm.Nodup) (a b : Nat)
    (ha : Fog.wfSymb nm a = true) (hb : Fog.wfSymb nm b = true)
    (hnorm : Fog.normalizePair nm a b = (a, b))
    (sp : List Char) (hsp : ∀ c ∈ sp, isWs c = true) (rest : List Char)
    (hgr : Fog.goodRest rest) :
    Fog.parseAtom nm (sp ++ Fog.printFog nm (.eqa a b) ++ rest) =
      some (.eqa a b, nm, rest) := by
  obtain ⟨ha1, ha2⟩ := wfSymb_elim ha
  obtain ⟨hb1, hb2⟩ := wfSymb_elim hb
  have hshape : sp ++ Fog.printFog nm (.eqa a b) ++ rest =
      sp ++ (Fog.printName nm a ++
        (' ' :: '=' :: ' ' :: (Fog.printName nm b ++ rest))) := by
    show sp ++ (Fog.printName nm a ++ " = ".data ++ Fog.printName nm b)
        ++ rest = _
    rw [show (" = ".data : List Char) = [' ', '=', ' '] from rfl]
    simp [List.append_assoc]
  rw [hshape]
  have hedg := parseEdg_none_on_name nm a ha2 sp hsp
    (' ' :: '=' :: ' ' :: (Fog.printName nm b ++ rest))
    ⟨' ' :: (Fog.printName nm b ++ rest), Or.inl rfl⟩
  rw [List.append_assoc] at hedg
  have hterm : Fog.parseTerm nm (sp ++ (Fog.printName nm a ++
      (' ' :: '=' :: ' ' :: (Fog.printName nm b ++ rest)))) =
      some (a, nm, ' ' :: '=' :: ' ' :: (Fog.printName nm b ++ rest)) := by
    have h := parseTerm_print nm hnd a ha1 ha2 sp hsp
      (' ' :: '=' :: ' ' :: (Fog.printName nm b ++ rest))
      (Or.inr ⟨' ', _, rfl, by decide, by decide⟩)
    rw [List.append_assoc] at h
    exact h
  have hltlit : Fog.parseLit ['<']
      (' ' :: '=' :: ' ' :: (Fog.printName nm b ++ rest)) = none := by
    refine parseLit_none '<' [] _ ?_
    rw [dropWs_space, dropWs_cons_not (by decide)]
    simp
  have hlt : Fog.parseLtRel nm (sp ++ (Fog.printName nm a ++
      (' ' :: '=' :: ' ' :: (Fog.printName nm b ++ rest)))) = none := by
    simp [Fog.parseLtRel, hterm, hltlit]
  have heqlit : Fog.parseLit ['=']
      (' ' :: '=' :: ' ' :: (Fog.printName nm b ++ rest)) =
      some (' ' :: (Fog.printName nm b ++ rest)) := by
    have h := parseLit_pos [' '] (by decide) '=' (by decide) []
      (' ' :: (Fog.printName nm b ++ rest))
    simpa using h
  have hterm2 : Fog.parseTerm nm
      (' ' :: (Fog.printName nm b ++ rest)) = some (b, nm, rest) := by
    have h := parseTerm_print nm hnd b hb1 hb2 [' '] (by decide) rest
      (goodRest_stop rest hgr)
    rw [List.append_assoc] at h
    simpa using h
  have hfogeq : Fog.eq nm a b = some (.eqa a b) := by
    unfold Fog.eq
    rw [if_pos ⟨ha1, hb1⟩, hnorm]
  have heq : Fog.parseEqRel nm (sp ++ (Fog.printName nm a ++
      (' ' :: '=' :: ' ' :: (Fog.printName nm b ++ rest)))) =
      some (.eqa a b, nm, rest) := by
    simp [Fog.parseEqRel, hterm, heqlit, hterm2, hfogeq]
  simp [Fog.parseAtom, hedg, hlt, heq]

/-- The printed atom x < y parses back to the identical node under
the well-formedness conditions. -/
theorem parseAtom_lta (nm : NameMgr) (hnd : nm.Nodup) (a b : Nat)
    (ha : Fog.wfSymb nm a = true) (hb : Fog.wfSymb nm b = true)
    (sp : List Char) (hsp : ∀ c ∈ sp, isWs c = true) (rest : List Char)
    (hgr : Fog.goodRest rest) :
    Fog.parseAtom nm (sp ++ Fog.printFog nm (.lta a b) ++ rest) =
      some (.lta a b, nm, rest) := by
  obtain ⟨ha1, ha2⟩ := wfSymb_elim ha
  obtain ⟨hb1, hb2⟩ := wfSymb_elim hb
  have hshape : sp ++ Fog.printFog nm (.lta a b) ++ rest =
      sp ++ (Fog.printName nm a ++
        (' ' :: '<' :: ' ' :: (Fog.printName nm b ++ rest))) := by
    show sp ++ (Fog.printName nm a ++ " < ".data ++ Fog.printName nm b)
        ++ rest = _
    rw [show (" < ".data : List Char) = [' ', '<', ' '] from rfl]
    simp [List.append_assoc]
  rw [hshape]
  have hedg := parseEdg_none_on_name nm a ha2 sp hsp
    (' ' :: '<' :: ' ' :: (Fog.printName nm b ++ rest))
    ⟨' ' :: (Fog.printName nm b ++ rest), Or.inr rfl⟩
  rw [List.append_assoc] at hedg
  have hterm : Fog.parseTerm nm (sp ++ (Fog.printName nm a ++
      (' ' :: '<' :: ' ' :: (Fog.printName nm b ++ rest)))) =
      some (a, nm, ' ' :: '<' :: ' ' :: (Fog.printName nm b ++ rest)) := by
    have h := parseTerm_print nm hnd a ha1 ha2 sp hsp
      (' ' :: '<' :: ' ' :: (Fog.printName nm b ++ rest))
      (Or.inr ⟨' ', _, rfl, by decide, by decide⟩)
    rw [List.append_assoc] at h
    exact h
  have hltlit : Fog.parseLit ['<']
      (' ' :: '<' :: ' ' :: (Fog.printName nm b ++ rest)) =
      some (' ' :: (Fog.printName nm b ++ rest)) := by
    have h := parseLit_pos [' '] (by decide) '<' (by decide) []
      (' ' :: (Fog.printName nm b ++ rest))
    simpa using h
  have hterm2 : Fog.parseTerm nm
      (' ' :: (Fog.printName nm b ++ rest)) = some (b, nm, rest) := by
    have h := parseTerm_print nm hnd b hb1 hb2 [' '] (by decide) rest
      (goodRest_stop rest hgr)
    rw [List.append_assoc] at h
    simpa using h
  have hfoglt : Fog.lt nm a b = some (.lta a b) := by
    unfold Fog.lt
    rw [if_pos ⟨ha1, hb1⟩]
  have hlt : Fog.parseLtRel nm (sp ++ (Fog.printName nm a ++
      (' ' :: '<' :: ' ' :: (Fog.printName nm b ++ rest)))) =
      some (.lta a b, nm, rest) := by
    simp [Fog.parseLtRel, hterm, hltlit, hterm2, hfoglt]
  simp [Fog.parseAtom, hedg, hlt]

/-- The printed atom edg(x, y) parses back to the identical node
under the well-formedness conditions. -/
theorem parseAtom_edga (nm : NameMgr) (hnd : nm.Nodup) (a b : Nat)
    (ha : Fog.wfSymb nm a = true) (hb : Fog.wfSymb nm b = true)
    (hnorm : Fog.normalizePair nm a b = (a, b))
    (sp : List Char) (hsp : ∀ c ∈ sp, isWs c = true) (rest : List Char)
    (_hgr : Fog.goodRest rest) :
    Fog.parseAtom nm (sp ++ Fog.printFog nm (.edga a b) ++ rest) =
      some (.edga a b, nm, rest) := by
  obtain ⟨ha1, ha2⟩ := wfSymb_elim ha
  obtain ⟨hb1, hb2⟩ := wfSymb_elim hb
  have hshape : sp ++ Fog.printFog nm (.edga a b) ++ rest =
      sp ++ 'e' :: 'd' :: 'g' :: '(' :: (Fog.printName nm a ++
        ',' :: ' ' :: (Fog.printName nm b ++ ')' :: rest)) := by
    show sp ++ ("edg(".data ++ Fog.printName nm a ++ ", ".data ++
        Fog.printName nm b ++ [')']) ++ rest = _
    rw [show ("edg(".data : List Char) = ['e', 'd', 'g', '('] from rfl,
      show (", ".data : List Char) = [',', ' '] from rfl]
    simp [List.append_assoc]
  rw [hshape]
  have h1 : Fog.parseLit "edg".data
      (sp ++ 'e' :: 'd' :: 'g' :: '(' :: (Fog.printName nm a ++
        ',' :: ' ' :: (Fog.printName nm b ++ ')' :: rest))) =
      some ('(' :: (Fog.printName nm a ++
        ',' :: ' ' :: (Fog.printName nm b ++ ')' :: rest))) := by
    have h := parseLit_pos sp hsp 'e' (by decide) ['d', 'g']
      ('(' :: (Fog.printName nm a ++
        ',' :: ' ' :: (Fog.printName nm b ++ ')' :: rest)))
    simpa using h
  have h2 : Fog.parseLit ['(']
      ('(' :: (Fog.printName nm a ++
        ',' :: ' ' :: (Fog.printName nm b ++ ')' :: rest))) =
      some (Fog.printName nm a ++
        ',' :: ' ' :: (Fog.printName nm b ++ ')' :: rest)) := by
    have h := parseLit_pos [] (by simp) '(' (by decide) []
      (Fog.printName nm a ++
        ',' :: ' ' :: (Fog.printName nm b ++ ')' :: rest))
    simpa using h
  have h3 : Fog.parseTerm nm (Fog.printName nm a ++
      ',' :: ' ' :: (Fog.printName nm b ++ ')' :: rest)) =
      some (a, nm, ',' :: ' ' :: (Fog.printName nm b ++ ')' :: rest)) := by
    have h := parseTerm_print nm hnd a ha1 ha2 [] (by simp)
      (',' :: ' ' :: (Fog.printName nm b ++ ')' :: rest))
      (Or.inr ⟨',', _, rfl, by decide, by decide⟩)
    simpa using h
  have h4 : Fog.parseLit [',']
      (',' :: ' ' :: (Fog.printName nm b ++ ')' :: rest)) =
      some (' ' :: (Fog.printName nm b ++ ')' :: rest)) := by
    have h := parseLit_pos [] (by simp) ',' (by decide) []
      (' ' :: (Fog.printName nm b ++ ')' :: rest))
    simpa using h
  have h5 : Fog.parseTerm nm
      (' ' :: (Fog.printName nm b ++ ')' :: rest)) =
      some (b, nm, ')' :: rest) := by
    have h := parseTerm_print nm hnd b hb1 hb2 [' '] (by decide)
      (')' :: rest) (Or.inr ⟨')', rest, rfl, by decide, by decide⟩)
    rw [List.append_assoc] at h
    simpa using h
  have h6 : Fog.parseLit [')'] (')' :: rest) = some rest := by
    have h := parseLit_pos [] (by simp) ')' (by decide) [] rest
    simpa using h
  have h7 : Fog.edg nm a b = some (.edga a b) := by
    unfold Fog.edg
    rw [if_pos ⟨ha1, hb1⟩, hnorm]
  have hedg : Fog.parseEdg nm
      (sp ++ 'e' :: 'd' :: 'g' :: '(' :: (Fog.printName nm a ++
        ',' :: ' ' :: (Fog.printName nm b ++ ')' :: rest))) =
      some (.edga a b, nm, rest) := by
    simp [Fog.parseEdg, h1, h2, h3, h4, h5, h6, h7]
  simp [Fog.parseAtom, hedg]

theorem name_head_facts {c : Char}
    (hc : c.isLower = true ∨ c.isUpper = true) :
    isWs c = false ∧ c ≠ '!' ∧ c ≠ '?' ∧ c ≠ '~' := by
  rcases hc with h | h
  · exact ⟨isLower_not_ws h, ne_of_bclass h (by decide),
      ne_of_bclass h (by decide), ne_of_bclass h (by decide)⟩
  · exact ⟨isUpper_not_ws h, ne_of_bclass h (by decide),
      ne_of_bclass h (by decide), ne_of_bclass h (by decide)⟩

/-- Every printed well-formed formula begins with a non-blank
character that is not a prefix-operator character. -/
theorem printFog_head (nm : NameMgr) (φ : Fog)
    (hwf : Fog.wellFormed nm φ = true) :
    ∃ c t, Fog.printFog nm φ = c :: t ∧ isWs c = false ∧
      c ≠ '!' ∧ c ≠ '?' ∧ c ≠ '~' := by
  cases φ with
  | tru => exact ⟨'T', [], rfl, by decide, by decide, by decide, by decide⟩
  | fls => exact ⟨'F', [], rfl, by decide, by decide, by decide, by decide⟩
  | edga a b =>
    exact ⟨'e', _, rfl, by decide, by decide, by decide, by decide⟩
  | eqa a b =>
    simp only [Fog.wellFormed, Bool.and_eq_true] at hwf
    obtain ⟨c, cs, hdata, hc⟩ : ∃ c cs,
        (nm.lookup_name a).data = c :: cs ∧
        (c.isLower = true ∨ c.isUpper = true) := by
      have hv := (wfSymb_elim hwf.1.1).2
      unfold validName at hv
      rw [Bool.or_eq_true] at hv
      rcases hv with hv | hv
      · obtain ⟨c, cs, h1, h2, _⟩ := validVarName_elim hv
        exact ⟨c, cs, h1, Or.inl h2⟩
      · obtain ⟨c, cs, h1, h2, _⟩ := validConName_elim hv
        exact ⟨c, cs, h1, Or.inr h2⟩
    obtain ⟨hws, h1, h2, h3⟩ := name_head_facts hc
    refine ⟨c, cs ++ (" = ".data ++ Fog.printName nm b), ?_, hws, h1,
      h2, h3⟩
    show Fog.printName nm a ++ " = ".data ++ Fog.printName nm b = _
    rw [show Fog.printName nm a = c :: cs from by
      unfold Fog.printName; rw [hdata]]
    simp
  | lta a b =>
    simp only [Fog.wellFormed, Bool.and_eq_true] at hwf
    obtain ⟨c, cs, hdata, hc⟩ : ∃ c cs,
        (nm.lookup_name a).data = c :: cs ∧
        (c.isLower = true ∨ c.isUpper = true) := by
      have hv := (wfSymb_elim hwf.1).2
      unfold validName at hv
      rw [Bool.or_eq_true] at hv
      rcases hv with hv | hv
      · obtain ⟨c, cs, h1, h2, _⟩ := validVarName_elim hv
        exact ⟨c, cs, h1, Or.inl h2⟩
      · obtain ⟨c, cs, h1, h2, _⟩ := validConName_elim hv
        exact ⟨c, cs, h1, Or.inr h2⟩
    obtain ⟨hws, h1, h2, h3⟩ := name_head_facts hc
    refine ⟨c, cs ++ (" < ".data ++ Fog.printName nm b), ?_, hws, h1,
      h2, h3⟩
    show Fog.printName nm a ++ " < ".data ++ Fog.printName nm b = _
    rw [show Fog.printName nm a = c :: cs from by
      unfold Fog.printName; rw [hdata]]
    simp
  | neg f =>
    exact ⟨'(', _, rfl, by decide, by decide, by decide, by decide⟩
  | land f g =>
    exact ⟨'(', _, rfl, by decide, by decide, by decide, by decide⟩
  | lor f g =>
    exact ⟨'(', _, rfl, by decide, by decide, by decide, by decide⟩
  | impl f g =>
    exact ⟨'(', _, rfl, by decide, by decide, by decide, by decide⟩
  | iff f g =>
    exact ⟨'(', _, rfl, by decide, by decide, by decide, by decide⟩
  | fall x f =>
    exact ⟨'(', _, rfl, by decide, by decide, by decide, by decide⟩
  | exis x f =>
    exact ⟨'(', _, rfl, by decide, by decide, by decide, by decide⟩

/-- No atom production starts with an opening parenthesis. -/
theorem parseAtom_lparen_none (nm : NameMgr) (sp : List Char)
    (hsp : ∀ c ∈ sp, isWs c = true) (t : List Char) :
    Fog.parseAtom nm (sp ++ '(' :: t) = none := by
  have hdws : dropWs (sp ++ '(' :: t) = '(' :: t := by
    rw [dropWs_ws_append sp _ hsp, dropWs_cons_not (by decide)]
  have hedg : Fog.parseEdg nm (sp ++ '(' :: t) = none := by
    have hlit : Fog.parseLit "edg".data (sp ++ '(' :: t) = none := by
      refine parseLit_none 'e' ['d', 'g'] _ ?_
      rw [hdws]; simp
    simp [Fog.parseEdg, hlit]
  have hterm : Fog.parseTerm nm (sp ++ '(' :: t) = none := by
    refine parseTerm_none_head _ _ (fun c' t' h' => ?_)
    rw [hdws] at h'
    have hcc : '(' = c' := by injection h'
    rw [← hcc]
    exact ⟨by decide, by decide⟩
  have hlt : Fog.parseLtRel nm (sp ++ '(' :: t) = none := by
    simp [Fog.parseLtRel, hterm]
  have heq : Fog.parseEqRel nm (sp ++ '(' :: t) = none := by
    simp [Fog.parseEqRel, hterm]
  have hcT : Fog.parseLit ['T'] (sp ++ '(' :: t) = none := by
    refine parseLit_none 'T' [] _ ?_
    rw [hdws]; simp
  have hcF : Fog.parseLit ['F'] (sp ++ '(' :: t) = none := by
    refine parseLit_none 'F' [] _ ?_
    rw [hdws]; simp
  simp [Fog.parseAtom, Fog.parseCon, hedg, hlt, heq, hcT, hcF]

/-- The quantifier prefix does not match in front of a printed
well-formed formula. -/
theorem parseQfop_none_print (nm : NameMgr) (φ : Fog)
    (hwf : Fog.wellFormed nm φ = true) (sp : List Char)
    (hsp : ∀ c ∈ sp, isWs c = true) (rest : List Char) :
    Fog.parseQfop nm (sp ++ (Fog.printFog nm φ ++ rest)) = none := by
  obtain ⟨c, t, hpf, hws, h1, h2, _⟩ := printFog_head nm φ hwf
  have hdws : dropWs (sp ++ (Fog.printFog nm φ ++ rest)) =
      c :: (t ++ rest) := by
    rw [hpf, List.cons_append, dropWs_ws_append sp _ hsp,
      dropWs_cons_not hws]
  have hl1 : Fog.parseLit ['!'] (sp ++ (Fog.printFog nm φ ++ rest))
      = none := by
    refine parseLit_none '!' [] _ ?_
    rw [hdws]
    simp only [List.head?_cons, ne_eq, Option.some.injEq]
    exact h1 ∘ Eq.symm ∘ Eq.symm
  have hl2 : Fog.parseLit ['?'] (sp ++ (Fog.printFog nm φ ++ rest))
      = none := by
    refine parseLit_none '?' [] _ ?_
    rw [hdws]
    simp only [List.head?_cons, ne_eq, Option.some.injEq]
    exact h2 ∘ Eq.symm ∘ Eq.symm
  simp [Fog.parseQfop, hl1, hl2]

/-- The negation prefix does not match in front of a printed
well-formed formula. -/
theorem parseTilde_none_print (nm : NameMgr) (φ : Fog)
    (hwf : Fog.wellFormed nm φ = true) (sp : List Char)
    (hsp : ∀ c ∈ sp, isWs c = true) (rest : List Char) :
    Fog.parseLit ['~'] (sp ++ (Fog.printFog nm φ ++ rest)) = none := by
  obtain ⟨c, t, hpf, hws, _, _, h3⟩ := printFog_head nm φ hwf
  have hdws : dropWs (sp ++ (Fog.printFog nm φ ++ rest)) =
      c :: (t ++ rest) := by
    rw [hpf, List.cons_append, dropWs_ws_append sp _ hsp,
      dropWs_cons_not hws]
  refine parseLit_none '~' [] _ ?_
  rw [hdws]
  simp only [List.head?_cons, ne_eq, Option.some.injEq]
  exact h3 ∘ Eq.symm ∘ Eq.symm

theorem parseQuant_of_primary (flag : Bool) (fuel : Nat) (nm : NameMgr)
    (s : List Char) (r : Option (Fog × NameMgr × List Char))
    (hq : Fog.parseQfop nm s = none)
    (hp : Fog.parsePrimary flag fuel nm s = r) :
    Fog.parseQuant flag (fuel + 1) nm s = r := by
  unfold Fog.parseQuant
  rw [hq]
  exact hp

theorem parseNeg_of_primary (flag : Bool) (fuel : Nat) (nm : NameMgr)
    (s : List Char) (r : Option (Fog × NameMgr × List Char))
    (hq : Fog.parseQfop nm s = none)
    (hn : Fog.parseLit ['~'] s = none)
    (hp : Fog.parsePrimary flag fuel nm s = r) :
    Fog.parseNeg flag (fuel + 2) nm s = r := by
  unfold Fog.parseNeg
  rw [hn]
  exact parseQuant_of_primary flag fuel nm s r hq hp

theorem parseAnd_single (flag : Bool) (fuel : Nat) (nm nm2 : NameMgr)
    (s : List Char) (φ : Fog) (s1 : List Char)
    (h : Fog.parseNeg flag (fuel + 1) nm s = some (φ, nm2, s1))
    (h1 : Fog.parseLit ['&'] s1 = none) :
    Fog.parseAnd flag (fuel + 2) nm s = some (φ, nm2, s1) := by
  have h2 : Fog.parseAndRest flag (fuel + 1) nm2 s1 =
      some ([], nm2, s1) := by
    unfold Fog.parseAndRest
    rw [h1]
  unfold Fog.parseAnd
  rw [h]
  simp only [h2]

theorem parseOr_single (flag : Bool) (fuel : Nat) (nm nm2 : NameMgr)
    (s : List Char) (φ : Fog) (s1 : List Char)
    (h : Fog.parseAnd flag (fuel + 2) nm s = some (φ, nm2, s1))
    (h1 : Fog.parseLit ['|'] s1 = none) :
    Fog.parseOr flag (fuel + 3) nm s = some (φ, nm2, s1) := by
  have h2 : Fog.parseOrRest flag (fuel + 2) nm2 s1 =
      some ([], nm2, s1) := by
    unfold Fog.parseOrRest
    rw [h1]
  unfold Fog.parseOr
  rw [h]
  simp only [h2]

theorem parseImp_single (flag : Bool) (fuel : Nat) (nm nm2 : NameMgr)
    (s : List Char) (φ : Fog) (s1 : List Char)
    (h : Fog.parseOr flag (fuel + 3) nm s = some (φ, nm2, s1))
    (h1 : Fog.parseLit "->".data s1 = none) :
    Fog.parseImp flag (fuel + 4) nm s = some (φ, nm2, s1) := by
  have h2 : Fog.parseImpRest flag (fuel + 3) nm2 s1 =
      some ([], nm2, s1) := by
    unfold Fog.parseImpRest
    rw [h1]
  unfold Fog.parseImp
  rw [h]
  simp only [h2, List.foldl_nil]

theorem parseIff_single (flag : Bool) (fuel : Nat) (nm nm2 : NameMgr)
    (s : List Char) (φ : Fog) (s1 : List Char)
    (h : Fog.parseImp flag (fuel + 4) nm s = some (φ, nm2, s1))
    (h1 : Fog.parseLit "<->".data s1 = none) :
    Fog.parseIff flag (fuel + 5) nm s = some (φ, nm2, s1) := by
  have h2 : Fog.parseIffRest flag (fuel + 4) nm2 s1 =
      some ([], nm2, s1) := by
    unfold Fog.parseIffRest
    rw [h1]
  unfold Fog.parseIff
  rw [h]
  simp only [h2, List.foldl_nil]

/-- None of the four infix operator tokens matches at the end of the
input or before a closing parenthesis. -/
theorem opLit_none (s1 : List Char)
    (h : dropWs s1 = [] ∨ ∃ t, dropWs s1 = ')' :: t) :
    Fog.parseLit ['&'] s1 = none ∧ Fog.parseLit ['|'] s1 = none ∧
    Fog.parseLit "->".data s1 = none ∧
    Fog.parseLit "<->".data s1 = none := by
  rcases h with h | ⟨t, h⟩
  · refine ⟨parseLit_none '&' [] _ ?_, parseLit_none '|' [] _ ?_,
      parseLit_none '-' ['>'] _ ?_, parseLit_none '<' ['-', '>'] _ ?_⟩ <;>
      rw [h] <;> simp
  · refine ⟨parseLit_none '&' [] _ ?_, parseLit_none '|' [] _ ?_,
      parseLit_none '-' ['>'] _ ?_, parseLit_none '<' ['-', '>'] _ ?_⟩ <;>
      rw [h] <;> simp

theorem batch_pair_and (flag : Bool) (f g : Fog) :
    Fog.binop_batch flag "&" [f, g] = .ok (Fog.land f g) := by
  cases flag <;>
    simp [Fog.binop_batch, Fog.binop_batch_rec, Fog.binop2]

theorem batch_pair_or (flag : Bool) (f g : Fog) :
    Fog.binop_batch flag "|" [f, g] = .ok (Fog.lor f g) := by
  cases flag <;>
    simp [Fog.binop_batch, Fog.binop_batch_rec, Fog.binop2]

/-- The core of the round-trip: a printed well-formed formula,
preceded by whitespace and followed by any goodRest continuation,
parses back to the identical node with the registry unchanged,
whenever the fuel is at least parseCost of the formula. -/
theorem parsePrimary_print (flag : Bool) (nm : NameMgr) (hnd : nm.Nodup)
    (φ : Fog) :
    ∀ fuel, Fog.parseCost φ ≤ fuel → Fog.wellFormed nm φ = true →
    ∀ sp rest, (∀ c ∈ sp, isWs c = true) → Fog.goodRest rest →
    Fog.parsePrimary flag fuel nm (sp ++ (Fog.printFog nm φ ++ rest)) =
      some (φ, nm, rest) := by
  induction φ with
  | tru =>
    intro fuel hfuel _ sp rest hsp hgr
    simp only [Fog.parseCost] at hfuel
    cases fuel with
    | zero => omega
    | succ fuel1 =>
    rw [show Fog.printFog nm Fog.tru ++ rest = 'T' :: rest from rfl]
    unfold Fog.parsePrimary
    simp only [parseAtom_tru nm sp hsp rest hgr]
  | fls =>
    intro fuel hfuel _ sp rest hsp hgr
    simp only [Fog.parseCost] at hfuel
    cases fuel with
    | zero => omega
    | succ fuel1 =>
    rw [show Fog.printFog nm Fog.fls ++ rest = 'F' :: rest from rfl]
    unfold Fog.parsePrimary
    simp only [parseAtom_fls nm sp hsp rest hgr]
  | edga a b =>
    intro fuel hfuel hwf sp rest hsp hgr
    simp only [Fog.parseCost] at hfuel
    simp only [Fog.wellFormed, Bool.and_eq_true, beq_iff_eq] at hwf
    obtain ⟨⟨ha, hb⟩, hnorm⟩ := hwf
    cases fuel with
    | zero => omega
    | succ fuel1 =>
    have h := parseAtom_edga nm hnd a b ha hb hnorm sp hsp rest hgr
    rw [List.append_assoc] at h
    unfold Fog.parsePrimary
    simp only [h]
  | eqa a b =>
    intro fuel hfuel hwf sp rest hsp hgr
    simp only [Fog.parseCost] at hfuel
    simp only [Fog.wellFormed, Bool.and_eq_true, beq_iff_eq] at hwf
    obtain ⟨⟨ha, hb⟩, hnorm⟩ := hwf
    cases fuel with
    | zero => omega
    | succ fuel1 =>
    have h := parseAtom_eqa nm hnd a b ha hb hnorm sp hsp rest hgr
    rw [List.append_assoc] at h
    unfold Fog.parsePrimary
    simp only [h]
  | lta a b =>
    intro fuel hfuel hwf sp rest hsp hgr
    simp only [Fog.parseCost] at hfuel
    simp only [Fog.wellFormed, Bool.and_eq_true] at hwf
    obtain ⟨ha, hb⟩ := hwf
    cases fuel with
    | zero => omega
    | succ fuel1 =>
    have h := parseAtom_lta nm hnd a b ha hb sp hsp rest hgr
    rw [List.append_assoc] at h
    unfold Fog.parsePrimary
    simp only [h]
  | neg f ihf =>
    intro fuel hfuel hwf sp rest hsp hgr
    simp only [Fog.wellFormed] at hwf
    simp only [Fog.parseCost] at hfuel
    obtain ⟨B, rfl⟩ : ∃ B, fuel = B + 8 := ⟨fuel - 8, by omega⟩
    have hpf : Fog.printFog nm (.neg f) ++ rest =
        '(' :: ('~' :: ' ' :: (Fog.printFog nm f ++ ')' :: rest)) := by
      show ("(~ ".data ++ Fog.printFog nm f ++ [')']) ++ rest = _
      rw [show ("(~ ".data : List Char) = ['(', '~', ' '] from rfl]
      simp [List.append_assoc]
    rw [hpf]
    have hPf := ihf B (by omega) hwf [' '] (')' :: rest)
      (by decide) (Or.inr (Or.inl ⟨rest, rfl⟩))
    have hQf := parseQfop_none_print nm f hwf [' '] (by decide)
      (')' :: rest)
    have hTf := parseTilde_none_print nm f hwf [' '] (by decide)
      (')' :: rest)
    simp only [List.singleton_append] at hPf hQf hTf
    have hNf : Fog.parseNeg flag (B + 2) nm
        (' ' :: (Fog.printFog nm f ++ ')' :: rest)) =
        some (f, nm, ')' :: rest) :=
      parseNeg_of_primary flag B nm _ _ hQf hTf hPf
    have hTilde : Fog.parseLit ['~']
        ('~' :: ' ' :: (Fog.printFog nm f ++ ')' :: rest)) =
        some (' ' :: (Fog.printFog nm f ++ ')' :: rest)) := by
      have h := parseLit_pos [] (by simp) '~' (by decide) []
        (' ' :: (Fog.printFog nm f ++ ')' :: rest))
      simpa using h
    have hNeg : Fog.parseNeg flag (B + 3) nm
        ('~' :: ' ' :: (Fog.printFog nm f ++ ')' :: rest)) =
        some (.neg f, nm, ')' :: rest) := by
      unfold Fog.parseNeg
      rw [hTilde]
      simp only [hNf]
    have hop := opLit_none (')' :: rest)
      (Or.inr ⟨rest, dropWs_cons_not (by decide) rest⟩)
    have hAnd : Fog.parseAnd flag (B + 4) nm
        ('~' :: ' ' :: (Fog.printFog nm f ++ ')' :: rest)) =
        some (.neg f, nm, ')' :: rest) :=
      parseAnd_single flag (B + 2) nm nm _ _ _ hNeg hop.1
    have hOr : Fog.parseOr flag (B + 5) nm
        ('~' :: ' ' :: (Fog.printFog nm f ++ ')' :: rest)) =
        some (.neg f, nm, ')' :: rest) :=
      parseOr_single flag (B + 2) nm nm _ _ _ hAnd hop.2.1
    have hImp : Fog.parseImp flag (B + 6) nm
        ('~' :: ' ' :: (Fog.printFog nm f ++ ')' :: rest)) =
        some (.neg f, nm, ')' :: rest) :=
      parseImp_single flag (B + 2) nm nm _ _ _ hOr hop.2.2.1
    have hIff : Fog.parseIff flag (B + 7) nm
        ('~' :: ' ' :: (Fog.printFog nm f ++ ')' :: rest)) =
        some (.neg f, nm, ')' :: rest) :=
      parseIff_single flag (B + 2) nm nm _ _ _ hImp hop.2.2.2
    have hAtomN := parseAtom_lparen_none nm sp hsp
      ('~' :: ' ' :: (Fog.printFog nm f ++ ')' :: rest))
    have hLP : Fog.parseLit ['('] (sp ++ '(' ::
        ('~' :: ' ' :: (Fog.printFog nm f ++ ')' :: rest))) =
        some ('~' :: ' ' :: (Fog.printFog nm f ++ ')' :: rest)) := by
      have h := parseLit_pos sp hsp '(' (by decide) []
        ('~' :: ' ' :: (Fog.printFog nm f ++ ')' :: rest))
      simpa using h
    have hRP : Fog.parseLit [')'] (')' :: rest) = some rest := by
      have h := parseLit_pos [] (by simp) ')' (by decide) [] rest
      simpa using h
    unfold Fog.parsePrimary
    rw [hAtomN]
    simp only [hLP, hIff, hRP]
  | land f g ihf ihg =>
    intro fuel hfuel hwf sp rest hsp hgr
    simp only [Fog.wellFormed, Bool.and_eq_true] at hwf
    obtain ⟨hf, hg⟩ := hwf
    simp only [Fog.parseCost] at hfuel
    obtain ⟨B, rfl⟩ : ∃ B, fuel = B + 8 := ⟨fuel - 8, by omega⟩
    have hpf : Fog.printFog nm (.land f g) ++ rest =
        '(' :: (Fog.printFog nm f ++ (' ' :: '&' :: ' ' ::
          (Fog.printFog nm g ++ ')' :: rest))) := by
      show (['('] ++ Fog.printFog nm f ++ " & ".data ++
        Fog.printFog nm g ++ [')']) ++ rest = _
      rw [show (" & ".data : List Char) = [' ', '&', ' '] from rfl]
      simp [List.append_assoc]
    rw [hpf]
    have hPf := ihf (B + 1) (by omega) hf []
      (' ' :: '&' :: ' ' :: (Fog.printFog nm g ++ ')' :: rest))
      (by simp) (Or.inr (Or.inr (Or.inl ⟨_, rfl⟩)))
    have hQf := parseQfop_none_print nm f hf [] (by simp)
      (' ' :: '&' :: ' ' :: (Fog.printFog nm g ++ ')' :: rest))
    have hTf := parseTilde_none_print nm f hf [] (by simp)
      (' ' :: '&' :: ' ' :: (Fog.printFog nm g ++ ')' :: rest))
    simp only [List.nil_append] at hPf hQf hTf
    have hNf : Fog.parseNeg flag (B + 3) nm
        (Fog.printFog nm f ++ (' ' :: '&' :: ' ' ::
          (Fog.printFog nm g ++ ')' :: rest))) =
        some (f, nm, ' ' :: '&' :: ' ' ::
          (Fog.printFog nm g ++ ')' :: rest)) :=
      parseNeg_of_primary flag (B + 1) nm _ _ hQf hTf hPf
    have hPg := ihg B (by omega) hg [' '] (')' :: rest)
      (by decide) (Or.inr (Or.inl ⟨rest, rfl⟩))
    have hQg := parseQfop_none_print nm g hg [' '] (by decide)
      (')' :: rest)
    have hTg := parseTilde_none_print nm g hg [' '] (by decide)
      (')' :: rest)
    simp only [List.singleton_append] at hPg hQg hTg
    have hNg : Fog.parseNeg flag (B + 2) nm
        (' ' :: (Fog.printFog nm g ++ ')' :: rest)) =
        some (g, nm, ')' :: rest) :=
      parseNeg_of_primary flag B nm _ _ hQg hTg hPg
    have hAmp : Fog.parseLit ['&']
        (' ' :: '&' :: ' ' :: (Fog.printFog nm g ++ ')' :: rest)) =
        some (' ' :: (Fog.printFog nm g ++ ')' :: rest)) := by
      have h := parseLit_pos [' '] (by decide) '&' (by decide) []
        (' ' :: (Fog.printFog nm g ++ ')' :: rest))
      simpa using h
    have hop := opLit_none (')' :: rest)
      (Or.inr ⟨rest, dropWs_cons_not (by decide) rest⟩)
    have hAR2 : Fog.parseAndRest flag (B + 2) nm (')' :: rest) =
        some ([], nm, ')' :: rest) := by
      unfold Fog.parseAndRest
      rw [hop.1]
    have hAR : Fog.parseAndRest flag (B + 3) nm
        (' ' :: '&' :: ' ' :: (Fog.printFog nm g ++ ')' :: rest)) =
        some ([g], nm, ')' :: rest) := by
      unfold Fog.parseAndRest
      rw [hAmp]
      simp only [hNg, hAR2]
    have hAnd : Fog.parseAnd flag (B + 4) nm
        (Fog.printFog nm f ++ (' ' :: '&' :: ' ' ::
          (Fog.printFog nm g ++ ')' :: rest))) =
        some (.land f g, nm, ')' :: rest) := by
      unfold Fog.parseAnd
      rw [hNf]
      simp only [hAR, batch_pair_and]
    have hOr : Fog.parseOr flag (B + 5) nm
        (Fog.printFog nm f ++ (' ' :: '&' :: ' ' ::
          (Fog.printFog nm g ++ ')' :: rest))) =
        some (.land f g, nm, ')' :: rest) :=
      parseOr_single flag (B + 2) nm nm _ _ _ hAnd hop.2.1
    have hImp : Fog.parseImp flag (B + 6) nm
        (Fog.printFog nm f ++ (' ' :: '&' :: ' ' ::
          (Fog.printFog nm g ++ ')' :: rest))) =
        some (.land f g, nm, ')' :: rest) :=
      parseImp_single flag (B + 2) nm nm _ _ _ hOr hop.2.2.1
    have hIff : Fog.parseIff flag (B + 7) nm
        (Fog.printFog nm f ++ (' ' :: '&' :: ' ' ::
          (Fog.printFog nm g ++ ')' :: rest))) =
        some (.land f g, nm, ')' :: rest) :=
      parseIff_single flag (B + 2) nm nm _ _ _ hImp hop.2.2.2
    have hAtomN := parseAtom_lparen_none nm sp hsp
      (Fog.printFog nm f ++ (' ' :: '&' :: ' ' ::
        (Fog.printFog nm g ++ ')' :: rest)))
    have hLP : Fog.parseLit ['('] (sp ++ '(' ::
        (Fog.printFog nm f ++ (' ' :: '&' :: ' ' ::
          (Fog.printFog nm g ++ ')' :: rest)))) =
        some (Fog.printFog nm f ++ (' ' :: '&' :: ' ' ::
          (Fog.printFog nm g ++ ')' :: rest))) := by
      have h := parseLit_pos sp hsp '(' (by decide) []
        (Fog.printFog nm f ++ (' ' :: '&' :: ' ' ::
          (Fog.printFog nm g ++ ')' :: rest)))
      simpa using h
    have hRP : Fog.parseLit [')'] (')' :: rest) = some rest := by
      have h := parseLit_pos [] (by simp) ')' (by decide) [] rest
      simpa using h
    unfold Fog.parsePrimary
    rw [hAtomN]
    simp only [hLP, hIff, hRP]
  | lor f g ihf ihg =>
    intro fuel hfuel hwf sp rest hsp hgr
    simp only [Fog.wellFormed, Bool.and_eq_true] at hwf
    obtain ⟨hf, hg⟩ := hwf
    simp only [Fog.parseCost] at hfuel
    obtain ⟨B, rfl⟩ : ∃ B, fuel = B + 8 := ⟨fuel - 8, by omega⟩
    have hpf : Fog.printFog nm (.lor f g) ++ rest =
        '(' :: (Fog.printFog nm f ++ (' ' :: '|' :: ' ' ::
          (Fog.printFog nm g ++ ')' :: rest))) := by
      show (['('] ++ Fog.printFog nm f ++ " | ".data ++
        Fog.printFog nm g ++ [')']) ++ rest = _
      rw [show (" | ".data : List Char) = [' ', '|', ' '] from rfl]
      simp [List.append_assoc]
    rw [hpf]
    have hPf := ihf (B + 1) (by omega) hf []
      (' ' :: '|' :: ' ' :: (Fog.printFog nm g ++ ')' :: rest))
      (by simp) (Or.inr (Or.inr (Or.inr (Or.inl ⟨_, rfl⟩))))
    have hQf := parseQfop_none_print nm f hf [] (by simp)
      (' ' :: '|' :: ' ' :: (Fog.printFog nm g ++ ')' :: rest))
    have hTf := parseTilde_none_print nm f hf [] (by simp)
      (' ' :: '|' :: ' ' :: (Fog.printFog nm g ++ ')' :: rest))
    simp only [List.nil_append] at hPf hQf hTf
    have hNf : Fog.parseNeg flag (B + 3) nm
        (Fog.printFog nm f ++ (' ' :: '|' :: ' ' ::
          (Fog.printFog nm g ++ ')' :: rest))) =
        some (f, nm, ' ' :: '|' :: ' ' ::
          (Fog.printFog nm g ++ ')' :: rest)) :=
      parseNeg_of_primary flag (B + 1) nm _ _ hQf hTf hPf
    have hAmpN : Fog.parseLit ['&']
        (' ' :: '|' :: ' ' :: (Fog.printFog nm g ++ ')' :: rest)) =
        none := by
      refine parseLit_none '&' [] _ ?_
      rw [dropWs_space, dropWs_cons_not (by decide)]
      simp
    have hAnd1 : Fog.parseAnd flag (B + 4) nm
        (Fog.printFog nm f ++ (' ' :: '|' :: ' ' ::
          (Fog.printFog nm g ++ ')' :: rest))) =
        some (f, nm, ' ' :: '|' :: ' ' ::
          (Fog.printFog nm g ++ ')' :: rest)) :=
      parseAnd_single flag (B + 2) nm nm _ _ _ hNf hAmpN
    have hPg := ihg B (by omega) hg [' '] (')' :: rest)
      (by decide) (Or.inr (Or.inl ⟨rest, rfl⟩))
    have hQg := parseQfop_none_print nm g hg [' '] (by decide)
      (')' :: rest)
    have hTg := parseTilde_none_print nm g hg [' '] (by decide)
      (')' :: rest)
    simp only [List.singleton_append] at hPg hQg hTg
    have hNg : Fog.parseNeg flag (B + 2) nm
        (' ' :: (Fog.printFog nm g ++ ')' :: rest)) =
        some (g, nm, ')' :: rest) :=
      parseNeg_of_primary flag B nm _ _ hQg hTg hPg
    have hop := opLit_none (')' :: rest)
      (Or.inr ⟨rest, dropWs_cons_not (by decide) rest⟩)
    have hAndg : Fog.parseAnd flag (B + 3) nm
        (' ' :: (Fog.printFog nm g ++ ')' :: rest)) =
        some (g, nm, ')' :: rest) :=
      parseAnd_single flag (B + 1) nm nm _ _ _ hNg hop.1
    have hPipe : Fog.parseLit ['|']
        (' ' :: '|' :: ' ' :: (Fog.printFog nm g ++ ')' :: rest)) =
        some (' ' :: (Fog.printFog nm g ++ ')' :: rest)) := by
      have h := parseLit_pos [' '] (by decide) '|' (by decide) []
        (' ' :: (Fog.printFog nm g ++ ')' :: rest))
      simpa using h
    have hOR2 : Fog.parseOrRest flag (B + 3) nm (')' :: rest) =
        some ([], nm, ')' :: rest) := by
      unfold Fog.parseOrRest
      rw [hop.2.1]
    have hOR : Fog.parseOrRest flag (B + 4) nm
        (' ' :: '|' :: ' ' :: (Fog.printFog nm g ++ ')' :: rest)) =
        some ([g], nm, ')' :: rest) := by
      unfold Fog.parseOrRest
      rw [hPipe]
      simp only [hAndg, hOR2]
    have hOr1 : Fog.parseOr flag (B + 5) nm
        (Fog.printFog nm f ++ (' ' :: '|' :: ' ' ::
          (Fog.printFog nm g ++ ')' :: rest))) =
        some (.lor f g, nm, ')' :: rest) := by
      unfold Fog.parseOr
      rw [hAnd1]
      simp only [hOR, batch_pair_or]
    have hImp : Fog.parseImp flag (B + 6) nm
        (Fog.printFog nm f ++ (' ' :: '|' :: ' ' ::
          (Fog.printFog nm g ++ ')' :: rest))) =
        some (.lor f g, nm, ')' :: rest) :=
      parseImp_single flag (B + 2) nm nm _ _ _ hOr1 hop.2.2.1
    have hIff : Fog.parseIff flag (B + 7) nm
        (Fog.printFog nm f ++ (' ' :: '|' :: ' ' ::
          (Fog.printFog nm g ++ ')' :: rest))) =
        some (.lor f g, nm, ')' :: rest) :=
      parseIff_single flag (B + 2) nm nm _ _ _ hImp hop.2.2.2
    have hAtomN := parseAtom_lparen_none nm sp hsp
      (Fog.printFog nm f ++ (' ' :: '|' :: ' ' ::
        (Fog.printFog nm g ++ ')' :: rest)))
    have hLP : Fog.parseLit ['('] (sp ++ '(' ::
        (Fog.printFog nm f ++ (' ' :: '|' :: ' ' ::
          (Fog.printFog nm g ++ ')' :: rest)))) =
        some (Fog.printFog nm f ++ (' ' :: '|' :: ' ' ::
          (Fog.printFog nm g ++ ')' :: rest))) := by
      have h := parseLit_pos sp hsp '(' (by decide) []
        (Fog.printFog nm f ++ (' ' :: '|' :: ' ' ::
          (Fog.printFog nm g ++ ')' :: rest)))
      simpa using h
    have hRP : Fog.parseLit [')'] (')' :: rest) = some rest := by
      have h := parseLit_pos [] (by simp) ')' (by decide) [] rest
      simpa using h
    unfold Fog.parsePrimary
    rw [hAtomN]
    simp only [hLP, hIff, hRP]
  | impl f g ihf ihg =>
    intro fuel hfuel hwf sp rest hsp hgr
    simp only [Fog.wellFormed, Bool.and_eq_true] at hwf
    obtain ⟨hf, hg⟩ := hwf
    simp only [Fog.parseCost] at hfuel
    obtain ⟨B, rfl⟩ : ∃ B, fuel = B + 8 := ⟨fuel - 8, by omega⟩
    have hpf : Fog.printFog nm (.impl f g) ++ rest =
        '(' :: (Fog.printFog nm f ++ (' ' :: '-' :: '>' :: ' ' ::
          (Fog.printFog nm g ++ ')' :: rest))) := by
      show (['('] ++ Fog.printFog nm f ++ " -> ".data ++
        Fog.printFog nm g ++ [')']) ++ rest = _
      rw [show (" -> ".data : List Char) = [' ', '-', '>', ' '] from rfl]
      simp [List.append_assoc]
    rw [hpf]
    have hPf := ihf (B + 1) (by omega) hf []
      (' ' :: '-' :: '>' :: ' ' :: (Fog.printFog nm g ++ ')' :: rest))
      (by simp) (Or.inr (Or.inr (Or.inr (Or.inr (Or.inl ⟨_, rfl⟩)))))
    have hQf := parseQfop_none_print nm f hf [] (by simp)
      (' ' :: '-' :: '>' :: ' ' :: (Fog.printFog nm g ++ ')' :: rest))
    have hTf := parseTilde_none_print nm f hf [] (by simp)
      (' ' :: '-' :: '>' :: ' ' :: (Fog.printFog nm g ++ ')' :: rest))
    simp only [List.nil_append] at hPf hQf hTf
    have hNf : Fog.parseNeg flag (B + 3) nm
        (Fog.printFog nm f ++ (' ' :: '-' :: '>' :: ' ' ::
          (Fog.printFog nm g ++ ')' :: rest))) =
        some (f, nm, ' ' :: '-' :: '>' :: ' ' ::
          (Fog.printFog nm g ++ ')' :: rest)) :=
      parseNeg_of_primary flag (B + 1) nm _ _ hQf hTf hPf
    have hAmpN : Fog.parseLit ['&'] (' ' :: '-' :: '>' :: ' ' ::
        (Fog.printFog nm g ++ ')' :: rest)) = none := by
      refine parseLit_none '&' [] _ ?_
      rw [dropWs_space, dropWs_cons_not (by decide)]
      simp
    have hPipeN : Fog.parseLit ['|'] (' ' :: '-' :: '>' :: ' ' ::
        (Fog.printFog nm g ++ ')' :: rest)) = none := by
      refine parseLit_none '|' [] _ ?_
      rw [dropWs_space, dropWs_cons_not (by decide)]
      simp
    have hAnd1 : Fog.parseAnd flag (B + 4) nm
        (Fog.printFog nm f ++ (' ' :: '-' :: '>' :: ' ' ::
          (Fog.printFog nm g ++ ')' :: rest))) =
        some (f, nm, ' ' :: '-' :: '>' :: ' ' ::
          (Fog.printFog nm g ++ ')' :: rest)) :=
      parseAnd_single flag (B + 2) nm nm _ _ _ hNf hAmpN
    have hOr1 : Fog.parseOr flag (B + 5) nm
        (Fog.printFog nm f ++ (' ' :: '-' :: '>' :: ' ' ::
          (Fog.printFog nm g ++ ')' :: rest))) =
        some (f, nm, ' ' :: '-' :: '>' :: ' ' ::
          (Fog.printFog nm g ++ ')' :: rest)) :=
      parseOr_single flag (B + 2) nm nm _ _ _ hAnd1 hPipeN
    have hArr : Fog.parseLit "->".data (' ' :: '-' :: '>' :: ' ' ::
        (Fog.printFog nm g ++ ')' :: rest)) =
        some (' ' :: (Fog.printFog nm g ++ ')' :: rest)) := by
      have h := parseLit_pos [' '] (by decide) '-' (by decide) ['>']
        (' ' :: (Fog.printFog nm g ++ ')' :: rest))
      simpa using h
    have hPg := ihg B (by omega) hg [' '] (')' :: rest)
      (by decide) (Or.inr (Or.inl ⟨rest, rfl⟩))
    have hQg := parseQfop_none_print nm g hg [' '] (by decide)
      (')' :: rest)
    have hTg := parseTilde_none_print nm g hg [' '] (by decide)
      (')' :: rest)
    simp only [List.singleton_append] at hPg hQg hTg
    have hNg : Fog.parseNeg flag (B + 2) nm
        (' ' :: (Fog.printFog nm g ++ ')' :: rest)) =
        some (g, nm, ')' :: rest) :=
      parseNeg_of_primary flag B nm _ _ hQg hTg hPg
    have hop := opLit_none (')' :: rest)
      (Or.inr ⟨rest, dropWs_cons_not (by decide) rest⟩)
    have hAndg : Fog.parseAnd flag (B + 3) nm
        (' ' :: (Fog.printFog nm g ++ ')' :: rest)) =
        some (g, nm, ')' :: rest) :=
      parseAnd_single flag (B + 1) nm nm _ _ _ hNg hop.1
    have hOrg : Fog.parseOr flag (B + 4) nm
        (' ' :: (Fog.printFog nm g ++ ')' :: rest)) =
        some (g, nm, ')' :: rest) :=
      parseOr_single flag (B + 1) nm nm _ _ _ hAndg hop.2.1
    have hIR2 : Fog.parseImpRest flag (B + 4) nm (')' :: rest) =
        some ([], nm, ')' :: rest) := by
      unfold Fog.parseImpRest
      rw [hop.2.2.1]
    have hIR : Fog.parseImpRest flag (B + 5) nm
        (' ' :: '-' :: '>' :: ' ' ::
          (Fog.printFog nm g ++ ')' :: rest)) =
        some ([g], nm, ')' :: rest) := by
      unfold Fog.parseImpRest
      rw [hArr]
      simp only [hOrg, hIR2]
    have hImp1 : Fog.parseImp flag (B + 6) nm
        (Fog.printFog nm f ++ (' ' :: '-' :: '>' :: ' ' ::
          (Fog.printFog nm g ++ ')' :: rest))) =
        some (.impl f g, nm, ')' :: rest) := by
      unfold Fog.parseImp
      rw [hOr1]
      simp only [hIR, List.foldl_cons, List.foldl_nil]
    have hIff : Fog.parseIff flag (B + 7) nm
        (Fog.printFog nm f ++ (' ' :: '-' :: '>' :: ' ' ::
          (Fog.printFog nm g ++ ')' :: rest))) =
        some (.impl f g, nm, ')' :: rest) :=
      parseIff_single flag (B + 2) nm nm _ _ _ hImp1 hop.2.2.2
    have hAtomN := parseAtom_lparen_none nm sp hsp
      (Fog.printFog nm f ++ (' ' :: '-' :: '>' :: ' ' ::
        (Fog.printFog nm g ++ ')' :: rest)))
    have hLP : Fog.parseLit ['('] (sp ++ '(' ::
        (Fog.printFog nm f ++ (' ' :: '-' :: '>' :: ' ' ::
          (Fog.printFog nm g ++ ')' :: rest)))) =
        some (Fog.printFog nm f ++ (' ' :: '-' :: '>' :: ' ' ::
          (Fog.printFog nm g ++ ')' :: rest))) := by
      have h := parseLit_pos sp hsp '(' (by decide) []
        (Fog.printFog nm f ++ (' ' :: '-' :: '>' :: ' ' ::
          (Fog.printFog nm g ++ ')' :: rest)))
      simpa using h
    have hRP : Fog.parseLit [')'] (')' :: rest) = some rest := by
      have h := parseLit_pos [] (by simp) ')' (by decide) [] rest
      simpa using h
    unfold Fog.parsePrimary
    rw [hAtomN]
    simp only [hLP, hIff, hRP]
  | iff f g ihf ihg =>
    intro fuel hfuel hwf sp rest hsp hgr
    simp only [Fog.wellFormed, Bool.and_eq_true] at hwf
    obtain ⟨hf, hg⟩ := hwf
    simp only [Fog.parseCost] at hfuel
    obtain ⟨B, rfl⟩ : ∃ B, fuel = B + 8 := ⟨fuel - 8, by omega⟩
    have hpf : Fog.printFog nm (.iff f g) ++ rest =
        '(' :: (Fog.printFog nm f ++ (' ' :: '<' :: '-' :: '>' :: ' ' ::
          (Fog.printFog nm g ++ ')' :: rest))) := by
      show (['('] ++ Fog.printFog nm f ++ " <-> ".data ++
        Fog.printFog nm g ++ [')']) ++ rest = _
      rw [show (" <-> ".data : List Char) = [' ', '<', '-', '>', ' ']
        from rfl]
      simp [List.append_assoc]
    rw [hpf]
    have hPf := ihf (B + 1) (by omega) hf []
      (' ' :: '<' :: '-' :: '>' :: ' ' ::
        (Fog.printFog nm g ++ ')' :: rest))
      (by simp) (Or.inr (Or.inr (Or.inr (Or.inr (Or.inr ⟨_, rfl⟩)))))
    have hQf := parseQfop_none_print nm f hf [] (by simp)
      (' ' :: '<' :: '-' :: '>' :: ' ' ::
        (Fog.printFog nm g ++ ')' :: rest))
    have hTf := parseTilde_none_print nm f hf [] (by simp)
      (' ' :: '<' :: '-' :: '>' :: ' ' ::
        (Fog.printFog nm g ++ ')' :: rest))
    simp only [List.nil_append] at hPf hQf hTf
    have hNf : Fog.parseNeg flag (B + 3) nm
        (Fog.printFog nm f ++ (' ' :: '<' :: '-' :: '>' :: ' ' ::
          (Fog.printFog nm g ++ ')' :: rest))) =
        some (f, nm, ' ' :: '<' :: '-' :: '>' :: ' ' ::
          (Fog.printFog nm g ++ ')' :: rest)) :=
      parseNeg_of_primary flag (B + 1) nm _ _ hQf hTf hPf
    have hAmpN : Fog.parseLit ['&'] (' ' :: '<' :: '-' :: '>' :: ' ' ::
        (Fog.printFog nm g ++ ')' :: rest)) = none := by
      refine parseLit_none '&' [] _ ?_
      rw [dropWs_space, dropWs_cons_not (by decide)]
      simp
    have hPipeN : Fog.parseLit ['|'] (' ' :: '<' :: '-' :: '>' :: ' ' ::
        (Fog.printFog nm g ++ ')' :: rest)) = none := by
      refine parseLit_none '|' [] _ ?_
      rw [dropWs_space, dropWs_cons_not (by decide)]
      simp
    have hArrN : Fog.parseLit "->".data
        (' ' :: '<' :: '-' :: '>' :: ' ' ::
          (Fog.printFog nm g ++ ')' :: rest)) = none := by
      refine parseLit_none '-' ['>'] _ ?_
      rw [dropWs_space, dropWs_cons_not (by decide)]
      simp
    have hAnd1 : Fog.parseAnd flag (B + 4) nm
        (Fog.printFog nm f ++ (' ' :: '<' :: '-' :: '>' :: ' ' ::
          (Fog.printFog nm g ++ ')' :: rest))) =
        some (f, nm, ' ' :: '<' :: '-' :: '>' :: ' ' ::
          (Fog.printFog nm g ++ ')' :: rest)) :=
      parseAnd_single flag (B + 2) nm nm _ _ _ hNf hAmpN
    have hOr1 : Fog.parseOr flag (B + 5) nm
        (Fog.printFog nm f ++ (' ' :: '<' :: '-' :: '>' :: ' ' ::
          (Fog.printFog nm g ++ ')' :: rest))) =
        some (f, nm, ' ' :: '<' :: '-' :: '>' :: ' ' ::
          (Fog.printFog nm g ++ ')' :: rest)) :=
      parseOr_single flag (B + 2) nm nm _ _ _ hAnd1 hPipeN
    have hImp1 : Fog.parseImp flag (B + 6) nm
        (Fog.printFog nm f ++ (' ' :: '<' :: '-' :: '>' :: ' ' ::
          (Fog.printFog nm g ++ ')' :: rest))) =
        some (f, nm, ' ' :: '<' :: '-' :: '>' :: ' ' ::
          (Fog.printFog nm g ++ ')' :: rest)) :=
      parseImp_single flag (B + 2) nm nm _ _ _ hOr1 hArrN
    have hIffTok : Fog.parseLit "<->".data
        (' ' :: '<' :: '-' :: '>' :: ' ' ::
          (Fog.printFog nm g ++ ')' :: rest)) =
        some (' ' :: (Fog.printFog nm g ++ ')' :: rest)) := by
      have h := parseLit_pos [' '] (by decide) '<' (by decide) ['-', '>']
        (' ' :: (Fog.printFog nm g ++ ')' :: rest))
      simpa using h
    have hPg := ihg B (by omega) hg [' '] (')' :: rest)
      (by decide) (Or.inr (Or.inl ⟨rest, rfl⟩))
    have hQg := parseQfop_none_print nm g hg [' '] (by decide)
      (')' :: rest)
    have hTg := parseTilde_none_print nm g hg [' '] (by decide)
      (')' :: rest)
    simp only [List.singleton_append] at hPg hQg hTg
    have hNg : Fog.parseNeg flag (B + 2) nm
        (' ' :: (Fog.printFog nm g ++ ')' :: rest)) =
        some (g, nm, ')' :: rest) :=
      parseNeg_of_primary flag B nm _ _ hQg hTg hPg
    have hop := opLit_none (')' :: rest)
      (Or.inr ⟨rest, dropWs_cons_not (by decide) rest⟩)
    have hAndg : Fog.parseAnd flag (B + 3) nm
        (' ' :: (Fog.printFog nm g ++ ')' :: rest)) =
        some (g, nm, ')' :: rest) :=
      parseAnd_single flag (B + 1) nm nm _ _ _ hNg hop.1
    have hOrg : Fog.parseOr flag (B + 4) nm
        (' ' :: (Fog.printFog nm g ++ ')' :: rest)) =
        some (g, nm, ')' :: rest) :=
      parseOr_single flag (B + 1) nm nm _ _ _ hAndg hop.2.1
    have hImpg : Fog.parseImp flag (B + 5) nm
        (' ' :: (Fog.printFog nm g ++ ')' :: rest)) =
        some (g, nm, ')' :: rest) :=
      parseImp_single flag (B + 1) nm nm _ _ _ hOrg hop.2.2.1
    have hIFR2 : Fog.parseIffRest flag (B + 5) nm (')' :: rest) =
        some ([], nm, ')' :: rest) := by
      unfold Fog.parseIffRest
      rw [hop.2.2.2]
    have hIFR : Fog.parseIffRest flag (B + 6) nm
        (' ' :: '<' :: '-' :: '>' :: ' ' ::
          (Fog.printFog nm g ++ ')' :: rest)) =
        some ([g], nm, ')' :: rest) := by
      unfold Fog.parseIffRest
      rw [hIffTok]
      simp only [hImpg, hIFR2]
    have hIff1 : Fog.parseIff flag (B + 7) nm
        (Fog.printFog nm f ++ (' ' :: '<' :: '-' :: '>' :: ' ' ::
          (Fog.printFog nm g ++ ')' :: rest))) =
        some (.iff f g, nm, ')' :: rest) := by
      unfold Fog.parseIff
      rw [hImp1]
      simp only [hIFR, List.foldl_cons, List.foldl_nil]
    have hAtomN := parseAtom_lparen_none nm sp hsp
      (Fog.printFog nm f ++ (' ' :: '<' :: '-' :: '>' :: ' ' ::
        (Fog.printFog nm g ++ ')' :: rest)))
    have hLP : Fog.parseLit ['('] (sp ++ '(' ::
        (Fog.printFog nm f ++ (' ' :: '<' :: '-' :: '>' :: ' ' ::
          (Fog.printFog nm g ++ ')' :: rest)))) =
        some (Fog.printFog nm f ++ (' ' :: '<' :: '-' :: '>' :: ' ' ::
          (Fog.printFog nm g ++ ')' :: rest))) := by
      have h := parseLit_pos sp hsp '(' (by decide) []
        (Fog.printFog nm f ++ (' ' :: '<' :: '-' :: '>' :: ' ' ::
          (Fog.printFog nm g ++ ')' :: rest)))
      simpa using h
    have hRP : Fog.parseLit [')'] (')' :: rest) = some rest := by
      have h := parseLit_pos [] (by simp) ')' (by decide) [] rest
      simpa using h
    unfold Fog.parsePrimary
    rw [hAtomN]
    simp only [hLP, hIff1, hRP]
  | fall x f ihf =>
    intro fuel hfuel hwf sp rest hsp hgr
    simp only [Fog.wellFormed, Bool.and_eq_true, decide_eq_true_eq]
      at hwf
    obtain ⟨⟨hx1, hx2⟩, hf⟩ := hwf
    simp only [Fog.parseCost] at hfuel
    obtain ⟨B, rfl⟩ : ∃ B, fuel = B + 8 := ⟨fuel - 8, by omega⟩
    obtain ⟨c, cs, hdata, hcl, hcs⟩ := validVarName_elim hx2
    have hpn : Fog.printName nm x = c :: cs := by
      unfold Fog.printName; rw [hdata]
    have hpf : Fog.printFog nm (.fall x f) ++ rest =
        '(' :: ('!' :: ' ' :: '[' :: (Fog.printName nm x ++
          ']' :: ' ' :: ':' :: ' ' ::
            (Fog.printFog nm f ++ ')' :: rest))) := by
      show ("(! [".data ++ Fog.printName nm x ++ "] : ".data ++
        Fog.printFog nm f ++ [')']) ++ rest = _
      rw [show ("(! [".data : List Char) = ['(', '!', ' ', '['] from rfl,
        show ("] : ".data : List Char) = [']', ' ', ':', ' '] from rfl]
      simp [List.append_assoc]
    rw [hpf]
    have hq1 : Fog.parseLit ['!'] ('!' :: ' ' :: '[' ::
        (Fog.printName nm x ++ ']' :: ' ' :: ':' :: ' ' ::
          (Fog.printFog nm f ++ ')' :: rest))) =
        some (' ' :: '[' :: (Fog.printName nm x ++
          ']' :: ' ' :: ':' :: ' ' ::
            (Fog.printFog nm f ++ ')' :: rest))) := by
      have h := parseLit_pos [] (by simp) '!' (by decide) []
        (' ' :: '[' :: (Fog.printName nm x ++
          ']' :: ' ' :: ':' :: ' ' ::
            (Fog.printFog nm f ++ ')' :: rest)))
      simpa using h
    have hq2 : Fog.parseLit ['['] (' ' :: '[' ::
        (Fog.printName nm x ++ ']' :: ' ' :: ':' :: ' ' ::
          (Fog.printFog nm f ++ ')' :: rest))) =
        some (Fog.printName nm x ++ ']' :: ' ' :: ':' :: ' ' ::
          (Fog.printFog nm f ++ ')' :: rest)) := by
      have h := parseLit_pos [' '] (by decide) '[' (by decide) []
        (Fog.printName nm x ++ ']' :: ' ' :: ':' :: ' ' ::
          (Fog.printFog nm f ++ ')' :: rest))
      simpa using h
    have hword : Fog.parseWord Char.isLower varBody
        (Fog.printName nm x ++ ']' :: ' ' :: ':' :: ' ' ::
          (Fog.printFog nm f ++ ')' :: rest)) =
        some (⟨c :: cs⟩, ']' :: ' ' :: ':' :: ' ' ::
          (Fog.printFog nm f ++ ')' :: rest)) := by
      have h := parseWord_pos Char.isLower varBody [] (by simp) c cs
        (']' :: ' ' :: ':' :: ' ' :: (Fog.printFog nm f ++ ')' :: rest))
        hcl (isLower_not_ws hcl) hcs
        (Or.inr ⟨']', _, rfl, by decide⟩)
      rw [hpn]
      simpa using h
    have hstr : (⟨c :: cs⟩ : String) = nm.lookup_name x := by
      rw [← hdata]
    have hlook : nm.lookup_index (nm.lookup_name x) = .ok (x, nm) :=
      lookup_index_registered nm hnd x hx1
        (by unfold validName; rw [hx2]; rfl)
    have hq4 : Fog.parseLit [']'] (']' :: ' ' :: ':' :: ' ' ::
        (Fog.printFog nm f ++ ')' :: rest)) =
        some (' ' :: ':' :: ' ' ::
          (Fog.printFog nm f ++ ')' :: rest)) := by
      have h := parseLit_pos [] (by simp) ']' (by decide) []
        (' ' :: ':' :: ' ' :: (Fog.printFog nm f ++ ')' :: rest))
      simpa using h
    have hq5 : Fog.parseLit [':'] (' ' :: ':' :: ' ' ::
        (Fog.printFog nm f ++ ')' :: rest)) =
        some (' ' :: (Fog.printFog nm f ++ ')' :: rest)) := by
      have h := parseLit_pos [' '] (by decide) ':' (by decide) []
        (' ' :: (Fog.printFog nm f ++ ')' :: rest))
      simpa using h
    have hqfop : Fog.parseQfop nm ('!' :: ' ' :: '[' ::
        (Fog.printName nm x ++ ']' :: ' ' :: ':' :: ' ' ::
          (Fog.printFog nm f ++ ')' :: rest))) =
        some ("!", x, nm, ' ' ::
          (Fog.printFog nm f ++ ')' :: rest)) := by
      simp [Fog.parseQfop, hq1, hq2, hword, hstr, hlook, hq4, hq5]
    have hPf := ihf B (by omega) hf [' '] (')' :: rest)
      (by decide) (Or.inr (Or.inl ⟨rest, rfl⟩))
    have hQf := parseQfop_none_print nm f hf [' '] (by decide)
      (')' :: rest)
    simp only [List.singleton_append] at hPf hQf
    have hQuant2 : Fog.parseQuant flag (B + 1) nm
        (' ' :: (Fog.printFog nm f ++ ')' :: rest)) =
        some (f, nm, ')' :: rest) :=
      parseQuant_of_primary flag B nm _ _ hQf hPf
    have hqf : Fog.qf "!" f x = some (.fall x f) := by
      simp [Fog.qf]
    have hQuant1 : Fog.parseQuant flag (B + 2) nm
        ('!' :: ' ' :: '[' :: (Fog.printName nm x ++
          ']' :: ' ' :: ':' :: ' ' ::
            (Fog.printFog nm f ++ ')' :: rest))) =
        some (.fall x f, nm, ')' :: rest) := by
      unfold Fog.parseQuant
      rw [hqfop]
      simp only [hQuant2, hqf]
    have hTn : Fog.parseLit ['~'] ('!' :: ' ' :: '[' ::
        (Fog.printName nm x ++ ']' :: ' ' :: ':' :: ' ' ::
          (Fog.printFog nm f ++ ')' :: rest))) = none := by
      refine parseLit_none '~' [] _ ?_
      rw [dropWs_cons_not (by decide)]
      simp
    have hNeg : Fog.parseNeg flag (B + 3) nm
        ('!' :: ' ' :: '[' :: (Fog.printName nm x ++
          ']' :: ' ' :: ':' :: ' ' ::
            (Fog.printFog nm f ++ ')' :: rest))) =
        some (.fall x f, nm, ')' :: rest) := by
      unfold Fog.parseNeg
      rw [hTn]
      exact hQuant1
    have hop := opLit_none (')' :: rest)
      (Or.inr ⟨rest, dropWs_cons_not (by decide) rest⟩)
    have hAnd : Fog.parseAnd flag (B + 4) nm
        ('!' :: ' ' :: '[' :: (Fog.printName nm x ++
          ']' :: ' ' :: ':' :: ' ' ::
            (Fog.printFog nm f ++ ')' :: rest))) =
        some (.fall x f, nm, ')' :: rest) :=
      parseAnd_single flag (B + 2) nm nm _ _ _ hNeg hop.1
    have hOr : Fog.parseOr flag (B + 5) nm
        ('!' :: ' ' :: '[' :: (Fog.printName nm x ++
          ']' :: ' ' :: ':' :: ' ' ::
            (Fog.printFog nm f ++ ')' :: rest))) =
        some (.fall x f, nm, ')' :: rest) :=
      parseOr_single flag (B + 2) nm nm _ _ _ hAnd hop.2.1
    have hImp : Fog.parseImp flag (B + 6) nm
        ('!' :: ' ' :: '[' :: (Fog.printName nm x ++
          ']' :: ' ' :: ':' :: ' ' ::
            (Fog.printFog nm f ++ ')' :: rest))) =
        some (.fall x f, nm, ')' :: rest) :=
      parseImp_single flag (B + 2) nm nm _ _ _ hOr hop.2.2.1
    have hIff : Fog.parseIff flag (B + 7) nm
        ('!' :: ' ' :: '[' :: (Fog.printName nm x ++
          ']' :: ' ' :: ':' :: ' ' ::
            (Fog.printFog nm f ++ ')' :: rest))) =
        some (.fall x f, nm, ')' :: rest) :=
      parseIff_single flag (B + 2) nm nm _ _ _ hImp hop.2.2.2
    have hAtomN := parseAtom_lparen_none nm sp hsp
      ('!' :: ' ' :: '[' :: (Fog.printName nm x ++
        ']' :: ' ' :: ':' :: ' ' :: (Fog.printFog nm f ++ ')' :: rest)))
    have hLP : Fog.parseLit ['('] (sp ++ '(' ::
        ('!' :: ' ' :: '[' :: (Fog.printName nm x ++
          ']' :: ' ' :: ':' :: ' ' ::
            (Fog.printFog nm f ++ ')' :: rest)))) =
        some ('!' :: ' ' :: '[' :: (Fog.printName nm x ++
          ']' :: ' ' :: ':' :: ' ' ::
            (Fog.printFog nm f ++ ')' :: rest))) := by
      have h := parseLit_pos sp hsp '(' (by decide) []
        ('!' :: ' ' :: '[' :: (Fog.printName nm x ++
          ']' :: ' ' :: ':' :: ' ' ::
            (Fog.printFog nm f ++ ')' :: rest)))
      simpa using h
    have hRP : Fog.parseLit [')'] (')' :: rest) = some rest := by
      have h := parseLit_pos [] (by simp) ')' (by decide) [] rest
      simpa using h
    unfold Fog.parsePrimary
    rw [hAtomN]
    simp only [hLP, hIff, hRP]
  | exis x f ihf =>
    intro fuel hfuel hwf sp rest hsp hgr
    simp only [Fog.wellFormed, Bool.and_eq_true, decide_eq_true_eq]
      at hwf
    obtain ⟨⟨hx1, hx2⟩, hf⟩ := hwf
    simp only [Fog.parseCost] at hfuel
    obtain ⟨B, rfl⟩ : ∃ B, fuel = B + 8 := ⟨fuel - 8, by omega⟩
    obtain ⟨c, cs, hdata, hcl, hcs⟩ := validVarName_elim hx2
    have hpn : Fog.printName nm x = c :: cs := by
      unfold Fog.printName; rw [hdata]
    have hpf : Fog.printFog nm (.exis x f) ++ rest =
        '(' :: ('?' :: ' ' :: '[' :: (Fog.printName nm x ++
          ']' :: ' ' :: ':' :: ' ' ::
            (Fog.printFog nm f ++ ')' :: rest))) := by
      show ("(? [".data ++ Fog.printName nm x ++ "] : ".data ++
        Fog.printFog nm f ++ [')']) ++ rest = _
      rw [show ("(? [".data : List Char) = ['(', '?', ' ', '['] from rfl,
        show ("] : ".data : List Char) = [']', ' ', ':', ' '] from rfl]
      simp [List.append_assoc]
    rw [hpf]
    have hq0 : Fog.parseLit ['!'] ('?' :: ' ' :: '[' ::
        (Fog.printName nm x ++ ']' :: ' ' :: ':' :: ' ' ::
          (Fog.printFog nm f ++ ')' :: rest))) = none := by
      refine parseLit_none '!' [] _ ?_
      rw [dropWs_cons_not (by decide)]
      simp
    have hq1 : Fog.parseLit ['?'] ('?' :: ' ' :: '[' ::
        (Fog.printName nm x ++ ']' :: ' ' :: ':' :: ' ' ::
          (Fog.printFog nm f ++ ')' :: rest))) =
        some (' ' :: '[' :: (Fog.printName nm x ++
          ']' :: ' ' :: ':' :: ' ' ::
            (Fog.printFog nm f ++ ')' :: rest))) := by
      have h := parseLit_pos [] (by simp) '?' (by decide) []
        (' ' :: '[' :: (Fog.printName nm x ++
          ']' :: ' ' :: ':' :: ' ' ::
            (Fog.printFog nm f ++ ')' :: rest)))
      simpa using h
    have hq2 : Fog.parseLit ['['] (' ' :: '[' ::
        (Fog.printName nm x ++ ']' :: ' ' :: ':' :: ' ' ::
          (Fog.printFog nm f ++ ')' :: rest))) =
        some (Fog.printName nm x ++ ']' :: ' ' :: ':' :: ' ' ::
          (Fog.printFog nm f ++ ')' :: rest)) := by
      have h := parseLit_pos [' '] (by decide) '[' (by decide) []
        (Fog.printName nm x ++ ']' :: ' ' :: ':' :: ' ' ::
          (Fog.printFog nm f ++ ')' :: rest))
      simpa using h
    have hword : Fog.parseWord Char.isLower varBody
        (Fog.printName nm x ++ ']' :: ' ' :: ':' :: ' ' ::
          (Fog.printFog nm f ++ ')' :: rest)) =
        some (⟨c :: cs⟩, ']' :: ' ' :: ':' :: ' ' ::
          (Fog.printFog nm f ++ ')' :: rest)) := by
      have h := parseWord_pos Char.isLower varBody [] (by simp) c cs
        (']' :: ' ' :: ':' :: ' ' :: (Fog.printFog nm f ++ ')' :: rest))
        hcl (isLower_not_ws hcl) hcs
        (Or.inr ⟨']', _, rfl, by decide⟩)
      rw [hpn]
      simpa using h
    have hstr : (⟨c :: cs⟩ : String) = nm.lookup_name x := by
      rw [← hdata]
    have hlook : nm.lookup_index (nm.lookup_name x) = .ok (x, nm) :=
      lookup_index_registered nm hnd x hx1
        (by unfold validName; rw [hx2]; rfl)
    have hq4 : Fog.parseLit [']'] (']' :: ' ' :: ':' :: ' ' ::
        (Fog.printFog nm f ++ ')' :: rest)) =
        some (' ' :: ':' :: ' ' ::
          (Fog.printFog nm f ++ ')' :: rest)) := by
      have h := parseLit_pos [] (by simp) ']' (by decide) []
        (' ' :: ':' :: ' ' :: (Fog.printFog nm f ++ ')' :: rest))
      simpa using h
    have hq5 : Fog.parseLit [':'] (' ' :: ':' :: ' ' ::
        (Fog.printFog nm f ++ ')' :: rest)) =
        some (' ' :: (Fog.printFog nm f ++ ')' :: rest)) := by
      have h := parseLit_pos [' '] (by decide) ':' (by decide) []
        (' ' :: (Fog.printFog nm f ++ ')' :: rest))
      simpa using h
    have hqfop : Fog.parseQfop nm ('?' :: ' ' :: '[' ::
        (Fog.printName nm x ++ ']' :: ' ' :: ':' :: ' ' ::
          (Fog.printFog nm f ++ ')' :: rest))) =
        some ("?", x, nm, ' ' ::
          (Fog.printFog nm f ++ ')' :: rest)) := by
      simp [Fog.parseQfop, hq0, hq1, hq2, hword, hstr, hlook, hq4, hq5]
    have hPf := ihf B (by omega) hf [' '] (')' :: rest)
      (by decide) (Or.inr (Or.inl ⟨rest, rfl⟩))
    have hQf := parseQfop_none_print nm f hf [' '] (by decide)
      (')' :: rest)
    simp only [List.singleton_append] at hPf hQf
    have hQuant2 : Fog.parseQuant flag (B + 1) nm
        (' ' :: (Fog.printFog nm f ++ ')' :: rest)) =
        some (f, nm, ')' :: rest) :=
      parseQuant_of_primary flag B nm _ _ hQf hPf
    have hqf : Fog.qf "?" f x = some (.exis x f) := by
      simp [Fog.qf]
    have hQuant1 : Fog.parseQuant flag (B + 2) nm
        ('?' :: ' ' :: '[' :: (Fog.printName nm x ++
          ']' :: ' ' :: ':' :: ' ' ::
            (Fog.printFog nm f ++ ')' :: rest))) =
        some (.exis x f, nm, ')' :: rest) := by
      unfold Fog.parseQuant
      rw [hqfop]
      simp only [hQuant2, hqf]
    have hTn : Fog.parseLit ['~'] ('?' :: ' ' :: '[' ::
        (Fog.printName nm x ++ ']' :: ' ' :: ':' :: ' ' ::
          (Fog.printFog nm f ++ ')' :: rest))) = none := by
      refine parseLit_none '~' [] _ ?_
      rw [dropWs_cons_not (by decide)]
      simp
    have hNeg : Fog.parseNeg flag (B + 3) nm
        ('?' :: ' ' :: '[' :: (Fog.printName nm x ++
          ']' :: ' ' :: ':' :: ' ' ::
            (Fog.printFog nm f ++ ')' :: rest))) =
        some (.exis x f, nm, ')' :: rest) := by
      unfold Fog.parseNeg
      rw [hTn]
      exact hQuant1
    have hop := opLit_none (')' :: rest)
      (Or.inr ⟨rest, dropWs_cons_not (by decide) rest⟩)
    have hAnd : Fog.parseAnd flag (B + 4) nm
        ('?' :: ' ' :: '[' :: (Fog.printName nm x ++
          ']' :: ' ' :: ':' :: ' ' ::
            (Fog.printFog nm f ++ ')' :: rest))) =
        some (.exis x f, nm, ')' :: rest) :=
      parseAnd_single flag (B + 2) nm nm _ _ _ hNeg hop.1
    have hOr : Fog.parseOr flag (B + 5) nm
        ('?' :: ' ' :: '[' :: (Fog.printName nm x ++
          ']' :: ' ' :: ':' :: ' ' ::
            (Fog.printFog nm f ++ ')' :: rest))) =
        some (.exis x f, nm, ')' :: rest) :=
      parseOr_single flag (B + 2) nm nm _ _ _ hAnd hop.2.1
    have hImp : Fog.parseImp flag (B + 6) nm
        ('?' :: ' ' :: '[' :: (Fog.printName nm x ++
          ']' :: ' ' :: ':' :: ' ' ::
            (Fog.printFog nm f ++ ')' :: rest))) =
        some (.exis x f, nm, ')' :: rest) :=
      parseImp_single flag (B + 2) nm nm _ _ _ hOr hop.2.2.1
    have hIff : Fog.parseIff flag (B + 7) nm
        ('?' :: ' ' :: '[' :: (Fog.printName nm x ++
          ']' :: ' ' :: ':' :: ' ' ::
            (Fog.printFog nm f ++ ')' :: rest))) =
        some (.exis x f, nm, ')' :: rest) :=
      parseIff_single flag (B + 2) nm nm _ _ _ hImp hop.2.2.2
    have hAtomN := parseAtom_lparen_none nm sp hsp
      ('?' :: ' ' :: '[' :: (Fog.printName nm x ++
        ']' :: ' ' :: ':' :: ' ' :: (Fog.printFog nm f ++ ')' :: rest)))
    have hLP : Fog.parseLit ['('] (sp ++ '(' ::
        ('?' :: ' ' :: '[' :: (Fog.printName nm x ++
          ']' :: ' ' :: ':' :: ' ' ::
            (Fog.printFog nm f ++ ')' :: rest)))) =
        some ('?' :: ' ' :: '[' :: (Fog.printName nm x ++
          ']' :: ' ' :: ':' :: ' ' ::
            (Fog.printFog nm f ++ ')' :: rest))) := by
      have h := parseLit_pos sp hsp '(' (by decide) []
        ('?' :: ' ' :: '[' :: (Fog.printName nm x ++
          ']' :: ' ' :: ':' :: ' ' ::
            (Fog.printFog nm f ++ ')' :: rest)))
      simpa using h
    have hRP : Fog.parseLit [')'] (')' :: rest) = some rest := by
      have h := parseLit_pos [] (by simp) ')' (by decide) [] rest
      simpa using h
    unfold Fog.parsePrimary
    rw [hAtomN]
    simp only [hLP, hIff, hRP]
/-- The fuel Fog.read passes suffices for the printed form: the
parse cost of a formula is bounded by eight times its printed
length. -/
theorem parseCost_le (nm : NameMgr) (φ : Fog) :
    Fog.parseCost φ ≤ 8 * (Fog.printFog nm φ).length := by
  induction φ with
  | tru => simp [Fog.parseCost, Fog.printFog]
  | fls => simp [Fog.parseCost, Fog.printFog]
  | edga a b =>
    have hlen : (Fog.printFog nm (.edga a b)).length =
        (Fog.printName nm a).length + (Fog.printName nm b).length
          + 7 := by
      show ("edg(".data ++ Fog.printName nm a ++ ", ".data ++
        Fog.printName nm b ++ [')']).length = _
      rw [show ("edg(".data : List Char) = ['e', 'd', 'g', '('] from rfl,
        show ((", ".data : List Char)) = [',', ' '] from rfl]
      simp only [List.length_append, List.length_cons, List.length_nil]
      omega
    simp only [Fog.parseCost, hlen]
    omega
  | eqa a b =>
    have hlen : (Fog.printFog nm (.eqa a b)).length =
        (Fog.printName nm a).length + (Fog.printName nm b).length
          + 3 := by
      show (Fog.printName nm a ++ " = ".data ++
        Fog.printName nm b).length = _
      rw [show ((" = ".data : List Char)) = [' ', '=', ' '] from rfl]
      simp only [List.length_append, List.length_cons, List.length_nil]
      omega
    simp only [Fog.parseCost, hlen]
    omega
  | lta a b =>
    have hlen : (Fog.printFog nm (.lta a b)).length =
        (Fog.printName nm a).length + (Fog.printName nm b).length
          + 3 := by
      show (Fog.printName nm a ++ " < ".data ++
        Fog.printName nm b).length = _
      rw [show ((" < ".data : List Char)) = [' ', '<', ' '] from rfl]
      simp only [List.length_append, List.length_cons, List.length_nil]
      omega
    simp only [Fog.parseCost, hlen]
    omega
  | neg f ih =>
    have hlen : (Fog.printFog nm (.neg f)).length =
        (Fog.printFog nm f).length + 4 := by
      show ("(~ ".data ++ Fog.printFog nm f ++ [')']).length = _
      rw [show ("(~ ".data : List Char) = ['(', '~', ' '] from rfl]
      simp only [List.length_append, List.length_cons, List.length_nil]
      omega
    simp only [Fog.parseCost, hlen]
    omega
  | land f g ihf ihg =>
    have hlen : (Fog.printFog nm (.land f g)).length =
        (Fog.printFog nm f).length + (Fog.printFog nm g).length
          + 5 := by
      show (['('] ++ Fog.printFog nm f ++ " & ".data ++
        Fog.printFog nm g ++ [')']).length = _
      rw [show ((" & ".data : List Char)) = [' ', '&', ' '] from rfl]
      simp only [List.length_append, List.length_cons, List.length_nil]
      omega
    simp only [Fog.parseCost, hlen]
    omega
  | lor f g ihf ihg =>
    have hlen : (Fog.printFog nm (.lor f g)).length =
        (Fog.printFog nm f).length + (Fog.printFog nm g).length
          + 5 := by
      show (['('] ++ Fog.printFog nm f ++ " | ".data ++
        Fog.printFog nm g ++ [')']).length = _
      rw [show ((" | ".data : List Char)) = [' ', '|', ' '] from rfl]
      simp only [List.length_append, List.length_cons, List.length_nil]
      omega
    simp only [Fog.parseCost, hlen]
    omega
  | impl f g ihf ihg =>
    have hlen : (Fog.printFog nm (.impl f g)).length =
        (Fog.printFog nm f).length + (Fog.printFog nm g).length
          + 6 := by
      show (['('] ++ Fog.printFog nm f ++ " -> ".data ++
        Fog.printFog nm g ++ [')']).length = _
      rw [show ((" -> ".data : List Char)) = [' ', '-', '>', ' ']
        from rfl]
      simp only [List.length_append, List.length_cons, List.length_nil]
      omega
    simp only [Fog.parseCost, hlen]
    omega
  | iff f g ihf ihg =>
    have hlen : (Fog.printFog nm (.iff f g)).length =
        (Fog.printFog nm f).length + (Fog.printFog nm g).length
          + 7 := by
      show (['('] ++ Fog.printFog nm f ++ " <-> ".data ++
        Fog.printFog nm g ++ [')']).length = _
      rw [show ((" <-> ".data : List Char)) = [' ', '<', '-', '>', ' ']
        from rfl]
      simp only [List.length_append, List.length_cons, List.length_nil]
      omega
    simp only [Fog.parseCost, hlen]
    omega
  | fall x f ih =>
    have hlen : (Fog.printFog nm (.fall x f)).length =
        (Fog.printName nm x).length + (Fog.printFog nm f).length
          + 9 := by
      show ("(! [".data ++ Fog.printName nm x ++ "] : ".data ++
        Fog.printFog nm f ++ [')']).length = _
      rw [show ("(! [".data : List Char) = ['(', '!', ' ', '['] from rfl,
        show ("] : ".data : List Char) = [']', ' ', ':', ' '] from rfl]
      simp only [List.length_append, List.length_cons, List.length_nil]
      omega
    simp only [Fog.parseCost, hlen]
    omega
  | exis x f ih =>
    have hlen : (Fog.printFog nm (.exis x f)).length =
        (Fog.printName nm x).length + (Fog.printFog nm f).length
          + 9 := by
      show ("(? [".data ++ Fog.printName nm x ++ "] : ".data ++
        Fog.printFog nm f ++ [')']).length = _
      rw [show ("(? [".data : List Char) = ['(', '?', ' ', '['] from rfl,
        show ("] : ".data : List Char) = [']', ' ', ':', ' '] from rfl]
      simp only [List.length_append, List.length_cons, List.length_nil]
      omega
    simp only [Fog.parseCost, hlen]
    omega

/-- C2: parser/printer round-trip.  For every well-formed formula
built from the Fog constructors (every symbol registered under a name
of the surface syntax, symmetric atoms in the normalized argument
order the constructors produce, bound variables carrying variable
names) over a duplicate-free registry, Fog.read parses op.to_str's
printed form back to the identical hash-consed node. -/
theorem fog_read_roundtrip (flag : Bool) (nm : NameMgr) (φ : Fog)
    (hnd : nm.Nodup) (hwf : Fog.wellFormed nm φ = true) :
    Fog.read flag nm (Fog.to_str nm φ) = some φ := by
  obtain ⟨c, t, hpf, hws, _, _, _⟩ := printFog_head nm φ hwf
  have hdata : (Fog.to_str nm φ).data = Fog.printFog nm φ := rfl
  have hnotblank : (Fog.to_str nm φ).data.all isWs = false := by
    rw [hdata, hpf]
    simp [List.all_cons, hws]
  have hcost := parseCost_le nm φ
  have hP := parsePrimary_print flag nm hnd φ
    (8 * (Fog.printFog nm φ).length + 2) (by omega) hwf [] []
    (by simp) (Or.inl rfl)
  have hQ := parseQfop_none_print nm φ hwf [] (by simp) []
  have hT := parseTilde_none_print nm φ hwf [] (by simp) []
  simp only [List.nil_append, List.append_nil] at hP hQ hT
  have hN : Fog.parseNeg flag (8 * (Fog.printFog nm φ).length + 4) nm
      (Fog.printFog nm φ) = some (φ, nm, []) :=
    parseNeg_of_primary flag (8 * (Fog.printFog nm φ).length + 2)
      nm _ _ hQ hT hP
  have hop := opLit_none [] (Or.inl rfl)
  have hA : Fog.parseAnd flag (8 * (Fog.printFog nm φ).length + 5) nm
      (Fog.printFog nm φ) = some (φ, nm, []) :=
    parseAnd_single flag (8 * (Fog.printFog nm φ).length + 3)
      nm nm _ _ _ hN hop.1
  have hO : Fog.parseOr flag (8 * (Fog.printFog nm φ).length + 6) nm
      (Fog.printFog nm φ) = some (φ, nm, []) :=
    parseOr_single flag (8 * (Fog.printFog nm φ).length + 3)
      nm nm _ _ _ hA hop.2.1
  have hI : Fog.parseImp flag (8 * (Fog.printFog nm φ).length + 7) nm
      (Fog.printFog nm φ) = some (φ, nm, []) :=
    parseImp_single flag (8 * (Fog.printFog nm φ).length + 3)
      nm nm _ _ _ hO hop.2.2.1
  have hIff : Fog.parseIff flag (8 * (Fog.printFog nm φ).length + 8) nm
      (Fog.printFog nm φ) = some (φ, nm, []) :=
    parseIff_single flag (8 * (Fog.printFog nm φ).length + 3)
      nm nm _ _ _ hI hop.2.2.2
  unfold Fog.read
  rw [hnotblank]
  simp only [Bool.false_eq_true, if_false]
  rw [show (8 * ((Fog.to_str nm φ).data.length + 1)) =
    8 * (Fog.printFog nm φ).length + 8 from by rw [hdata]; ring]
  rw [show ((Fog.to_str nm φ).data) = Fog.printFog nm φ from hdata]
  rw [hIff]
  rfl

/-- Witness for C2: the closed formula all x (x = V1 -> (not x < V1))
over the registry ["x", "V1"] prints and re-parses to the identical
node. -/
theorem fog_read_roundtrip_witness :
    Fog.read true ["x", "V1"]
      (Fog.to_str ["x", "V1"]
        (.fall 1 (.impl (.eqa 2 1) (.neg (.lta 1 2))))) =
      some (.fall 1 (.impl (.eqa 2 1) (.neg (.lta 1 2)))) :=
  fog_read_roundtrip true ["x", "V1"]
    (.fall 1 (.impl (.eqa 2 1) (.neg (.lta 1 2))))
    (by decide) (by decide)

/-- Witness for C3 at the concrete registry ["x", "V1"]. -/
theorem fog_atom_normalization_witness :
    Fog.eq ["x", "V1"] 1 2 = Fog.eq ["x", "V1"] 2 1 ∧
    Fog.edg ["x", "V1"] 1 2 = Fog.edg ["x", "V1"] 2 1 ∧
    (1 ≠ 2 → Fog.lt ["x", "V1"] 1 2 ≠ Fog.lt ["x", "V1"] 2 1) :=
  fog_atom_normalization ["x", "V1"] (by decide) 1 2 (by decide) (by decide)

end Pygplib
